import Mathlib

/-!
# PER-C: sum tree and prioritized experience replay

A shallow embedding of `header/sum_tree.h` and `header/per.h`.

* `double` values are taken as exact numbers: every definition is generic in a
  linear ordered field `α` (it runs on `ℚ`, and the theorems also hold on `ℝ`).
  The functions named after the source compute without rounding. The `_fp` variants of
  the sum tree functions round the result of each `double` addition and subtraction with
  a rounding function `rnd`; `round_double` is the rounding of IEEE 754 binary64
  (round to nearest, ties to even) on `ℚ`.
* `size_t` values are natural numbers. Every index the code computes is below the
  length of an allocated array, so no index arithmetic wraps.
* A failed `assert` stops the program: functions that can reach one return an
  `Outcome`, whose value `aborted` is not a value handed back to the caller.
* `malloc`/`calloc` can fail: each call site takes the result of the allocation
  as a boolean argument. `malloc` returns uninitialised memory: its contents are
  an argument too.
* The libm functions `pow` and `nextafter` and the random source `rand()` are not
  part of the repository: they are arguments of the functions that call them.
-/

namespace PERC

/-- How a call ends: it returns a value, or a failed `assert` stops the program. -/
inductive Outcome (σ : Type) where
  | returned (v : σ)
  | aborted
  deriving DecidableEq

/-- One byte of a stored record. -/
abbrev Byte := UInt8

/-- The C struct `SumTree`: `data` is the flat byte buffer, `priority_tree` the
aggregate array. -/
structure SumTree (α : Type) where
  data : List Byte
  priority_tree : List α
  capacity : Nat
  current_index : Nat
  num_entries : Nat
  elem_size : Nat
  deriving DecidableEq

/-- The C struct `SumTreeSample`. -/
structure SumTreeSample (α : Type) where
  p_idx : Nat
  d_idx : Nat
  priority : α
  deriving DecidableEq

/-- The C struct `PER`. -/
structure PER (α : Type) where
  tree : SumTree α
  alpha : α
  beta : α
  max_priority : α
  deriving DecidableEq

/-- The C struct `Batch`; the empty lists stand for the `NULL` arrays of `(Batch){0}`. -/
structure Batch (α : Type) where
  items : List (SumTreeSample α)
  count : Nat
  importance_weights : List α
  deriving DecidableEq

section Defs

variable {α : Type} [LinearOrderedField α]

/-- The C function `min_size_t`. -/
def min_size_t (a b : Nat) : Nat := if a < b then a else b

/-- The C function `rand_double_range(min, max)`, where `u` is the value of `(double)rand() / RAND_MAX`. -/
def rand_double_range (u : α) (min max : α) : α := min + u * (max - min)

/-- The C function `sumtree_tree_size`. -/
def sumtree_tree_size (t : SumTree α) : Nat := 2 * t.capacity - 1

/-- The C function `sumtree_leaf_base`. -/
def sumtree_leaf_base (t : SumTree α) : Nat := t.capacity - 1

/-- The C function `sumtree_leaf_index`. -/
def sumtree_leaf_index (t : SumTree α) (data_index : Nat) : Nat :=
  sumtree_leaf_base t + data_index

/-- The C function `sumtree_data_ptr`, as the byte offset of the slot inside `data`. -/
def sumtree_data_ptr (t : SumTree α) (data_index : Nat) : Nat := data_index * t.elem_size

/-- The call `memcpy(dst + off, src, n)`: the contents of `dst` afterwards. -/
def memcpy (dst : List Byte) (off : Nat) (src : List Byte) (n : Nat) : List Byte :=
  dst.take off ++ src.take n ++ dst.drop (off + n)

/-- The C function `create_sum_tree`. `alloc_ok k` tells whether the `k`-th allocation of the call
succeeds, `uninit` gives the bytes found in the block returned by `malloc`.
`returned none` is the `NULL` result. -/
def create_sum_tree (uninit : Nat → Byte) (alloc_ok : Nat → Bool) (capacity elem_size : Nat) :
    Outcome (Option (SumTree α)) :=
  if ¬ (capacity > 0) then .aborted
  else if ¬ (elem_size > 0) then .aborted
  else if ¬ (capacity &&& (capacity - 1) = 0) then .aborted
  else if ¬ alloc_ok 0 then .returned none
  else if ¬ alloc_ok 1 then .returned none
  else if ¬ alloc_ok 2 then .returned none
  else .returned (some
    { data := (List.range (elem_size * capacity)).map uninit
      priority_tree := List.replicate (2 * capacity - 1) 0
      capacity := capacity
      current_index := 0
      num_entries := 0
      elem_size := elem_size })

/-- The `while (tree_idx > 0)` loop of `sum_tree_update`. -/
def sum_tree_update_loop (tree : List α) (tree_idx : Nat) (priority_change : α) : List α :=
  if tree_idx > 0 then
    let parent := (tree_idx - 1) / 2
    sum_tree_update_loop (tree.set parent (tree.getD parent 0 + priority_change))
      parent priority_change
  else tree
termination_by tree_idx
decreasing_by omega

/-- The C function `sum_tree_update`. -/
def sum_tree_update (t : SumTree α) (tree_idx : Nat) (priority : α) : Outcome (SumTree α) :=
  if ¬ (tree_idx < sumtree_tree_size t) then .aborted
  else
    let old_priority := t.priority_tree.getD tree_idx 0
    let priority_change := priority - old_priority
    .returned { t with
      priority_tree :=
        sum_tree_update_loop (t.priority_tree.set tree_idx priority) tree_idx priority_change }

/-- The C function `sum_tree_add`. -/
def sum_tree_add (t : SumTree α) (item : List Byte) (priority : α) : Outcome (SumTree α) :=
  let elem_idx := sumtree_leaf_index t t.current_index
  let dst_data := sumtree_data_ptr t t.current_index
  let t1 := { t with data := memcpy t.data dst_data item t.elem_size }
  match sum_tree_update t1 elem_idx priority with
  | .aborted => .aborted
  | .returned t2 =>
    let t3 := { t2 with current_index := t2.current_index + 1 }
    let t4 := { t3 with current_index := t3.current_index % t3.capacity }
    .returned { t4 with num_entries := min_size_t (t4.num_entries + 1) t4.capacity }

/-- The `while (idx < leaf_base)` loop of `sum_tree_get`: the final `idx` and `segment`. -/
def sum_tree_get_loop (tree : List α) (leaf_base idx : Nat) (segment : α) : Nat × α :=
  if idx < leaf_base then
    let left := (idx <<< 1) + 1
    let left_sum := tree.getD left 0
    if segment ≤ left_sum then sum_tree_get_loop tree leaf_base left segment
    else sum_tree_get_loop tree leaf_base (left + 1) (segment - left_sum)
  else (idx, segment)
termination_by leaf_base - idx
decreasing_by all_goals (simp only [Nat.shiftLeft_eq]; omega)

/-- The C function `sum_tree_get`. `out` and `out_item` are what the two output locations hold before
the call (`out_item = none` is the `NULL` pointer); the result is what they hold after it. -/
def sum_tree_get (nextafter : α → α → α) (t : SumTree α) (segment : α)
    (out : SumTreeSample α) (out_item : Option (List Byte)) :
    SumTreeSample α × Option (List Byte) :=
  let total := t.priority_tree.getD 0 0
  if total ≤ 0 then (⟨0, 0, 0⟩, out_item)
  else
    let segment := if segment < 0 then 0 else segment
    let segment := if segment ≥ total then nextafter total 0 else segment
    let leaf_base := sumtree_leaf_base t
    let idx := (sum_tree_get_loop t.priority_tree leaf_base 0 segment).1
    let data_index := idx - sumtree_leaf_base t
    let out_item := match out_item with
      | none => none
      | some buf =>
        some (memcpy buf 0 (t.data.drop (sumtree_data_ptr t data_index)) t.elem_size)
    ({ out with p_idx := idx, d_idx := data_index, priority := t.priority_tree.getD idx 0 },
      out_item)

/-- The constant `EPS`. -/
def EPS : α := 1e-6

/-- The constant `BETA_INC`. -/
def BETA_INC : α := 1e-3

/-- The C function `create_prioritized_replay`. `alloc_per` is the allocation of the `PER` struct,
the other arguments are those of `create_sum_tree`. -/
def create_prioritized_replay (uninit : Nat → Byte) (alloc_per : Bool) (alloc_ok : Nat → Bool)
    (capacity elem_size : Nat) (alpha beta : α) : Outcome (Option (PER α)) :=
  if ¬ alloc_per then .returned none
  else
    match create_sum_tree uninit alloc_ok capacity elem_size with
    | .aborted => .aborted
    | .returned none => .returned none
    | .returned (some tree) =>
      .returned (some { tree := tree, alpha := alpha, beta := beta, max_priority := 1 })

/-- The C function `calculate_priority`. -/
def calculate_priority (pow : α → α → α) (per : PER α) (td_error : α) : α :=
  pow (|td_error| + EPS) per.alpha

/-- The C function `add_to_per`. -/
def add_to_per (per : PER α) (item : List Byte) : Outcome (PER α) :=
  match sum_tree_add per.tree item per.max_priority with
  | .aborted => .aborted
  | .returned tree => .returned { per with tree := tree }

/-- One iteration of the first loop of `calculate_sampling_priorities`; the state is the
weights written so far and `max_importance_weight`. -/
def calculate_sampling_priorities_step (pow : α → α → α) (batch : Batch α)
    (tree_top_value : α) (total_entry_count : Nat) (beta : α)
    (st : List α × α) (i : Nat) : List α × α :=
  if tree_top_value ≤ 0 then (st.1 ++ [0], st.2)
  else
    let prob := (batch.items.getD i ⟨0, 0, 0⟩).priority / tree_top_value
    let prob := if prob < 1e-12 then 1e-12 else prob
    let w := pow (1 / ((total_entry_count : α) * prob)) beta
    (st.1 ++ [w], if w > st.2 then w else st.2)

/-- The C function `calculate_sampling_priorities`: the `batch->count` values it writes to
`out_importance_weights`. -/
def calculate_sampling_priorities (pow : α → α → α) (batch : Batch α)
    (tree_top_value : α) (total_entry_count : Nat) (beta : α) : List α :=
  if total_entry_count = 0 ∨ tree_top_value ≤ 0 then List.replicate batch.count 0
  else
    let st := (List.range batch.count).foldl
      (calculate_sampling_priorities_step pow batch tree_top_value total_entry_count beta)
      ([], 0)
    if st.2 ≤ 0 then st.1
    else st.1.map (fun w => w / st.2)

/-- The C function `sample_from_per`. `rand i` is the value of `(double)rand() / RAND_MAX` in iteration
`i`; `alloc_items` and `alloc_weights` are the two allocations. The result is the batch
and the `PER` after the call. -/
def sample_from_per (pow : α → α → α) (nextafter : α → α → α) (rand : Nat → α)
    (alloc_items alloc_weights : Bool) (per : PER α) (batch_size : Nat) :
    Outcome (Batch α × PER α) :=
  if ¬ (per.tree.num_entries ≥ batch_size) then .aborted
  else if ¬ alloc_items ∨ ¬ alloc_weights then .returned (⟨[], 0, []⟩, per)
  else
    let tree_top_value := per.tree.priority_tree.getD 0 0
    if tree_top_value ≤ 0 then
      .returned
        ({ items := (List.range batch_size).map (fun _ => ⟨0, 0, 0⟩)
           count := batch_size
           importance_weights := (List.range batch_size).map (fun _ => 0) }, per)
    else
      let segment := tree_top_value / (batch_size : α)
      let per := { per with beta := min 1 (per.beta + BETA_INC) }
      let items := (List.range batch_size).map (fun (i : Nat) =>
        let a := segment * (i : α)
        let b := segment * ((i + 1 : Nat) : α)
        let x := rand_double_range (rand i) a b
        let x := if x ≥ tree_top_value then nextafter tree_top_value 0 else x
        (sum_tree_get nextafter per.tree x ⟨0, 0, 0⟩ none).1)
      let batch : Batch α := { items := items, count := batch_size, importance_weights := [] }
      .returned
        ({ batch with
            importance_weights :=
              calculate_sampling_priorities pow batch tree_top_value per.tree.num_entries
                per.beta }, per)

/-- The C function `update_per_priorities`; `count` is `td_errors->count`, the two lists are
`td_errors->items` and `priority_indices`. -/
def update_per_priorities (pow : α → α → α) (per : PER α) (td_errors : List α) (count : Nat)
    (priority_indices : List Nat) : Outcome (PER α) :=
  (List.range count).foldl
    (fun (acc : Outcome (PER α)) idx =>
      match acc with
      | .aborted => .aborted
      | .returned per =>
        let new_priority := calculate_priority pow per (td_errors.getD idx 0)
        match sum_tree_update per.tree (priority_indices.getD idx 0) new_priority with
        | .aborted => .aborted
        | .returned tree =>
          .returned { per with tree := tree, max_priority := max per.max_priority new_priority })
    (.returned per)

/-! ### Vocabulary of the specification -/

/-- Sum of `f 0, ..., f (n-1)`. -/
def cum (f : Nat → α) (n : Nat) : α := ((List.range n).map f).sum

/-- Priority stored at the leaf of data index `d`. -/
def leaf_priority (t : SumTree α) (d : Nat) : α :=
  t.priority_tree.getD (sumtree_leaf_index t d) 0

/-- Record held by data slot `d`: the `elem_size` bytes at `sumtree_data_ptr t d`. -/
def slot (t : SumTree α) (d : Nat) : List Byte :=
  (t.data.drop (sumtree_data_ptr t d)).take t.elem_size

/-- Aggregate invariant: every internal node holds the sum of its two children. -/
def AggInv (t : SumTree α) : Prop :=
  ∀ i, i < t.capacity - 1 →
    t.priority_tree.getD i 0
      = t.priority_tree.getD (2 * i + 1) 0 + t.priority_tree.getD (2 * i + 2) 0

/-- Shape of a sum tree: power-of-two capacity, aggregate array of `2*capacity-1` entries,
write cursor in range. -/
structure TreeOk (t : SumTree α) : Prop where
  pow2 : ∃ k, t.capacity = 2 ^ k
  tree_len : t.priority_tree.length = 2 * t.capacity - 1
  cur_lt : t.current_index < t.capacity

/-- One mutating call on a sum tree. -/
inductive Op (α : Type) where
  | add (item : List Byte) (priority : α)
  | update (tree_idx : Nat) (priority : α)

/-- Run one call. -/
def apply_op (t : SumTree α) : Op α → Outcome (SumTree α)
  | .add item priority => sum_tree_add t item priority
  | .update tree_idx priority => sum_tree_update t tree_idx priority

/-- Run a sequence of calls, stopping at the first failed assertion. -/
def run_ops (t : SumTree α) : List (Op α) → Outcome (SumTree α)
  | [] => .returned t
  | op :: ops =>
    match apply_op t op with
    | .aborted => .aborted
    | .returned t1 => run_ops t1 ops

/-- An update names a leaf of a tree of capacity `c`; an add is always allowed. -/
def Op.onLeaf (c : Nat) : Op α → Prop
  | .add _ _ => True
  | .update tree_idx _ => c - 1 ≤ tree_idx ∧ tree_idx ≤ 2 * c - 2

/-- The weight of sample `i` before normalisation, as the specification writes it:
`(1 / (entry_count * max(priority_i / total, 1e-12)))^beta`. -/
def importance_weight_raw (pow : α → α → α) (batch : Batch α) (tree_top_value : α)
    (total_entry_count : Nat) (beta : α) (i : Nat) : α :=
  pow (1 / ((total_entry_count : α)
    * max ((batch.items.getD i ⟨0, 0, 0⟩).priority / tree_top_value) 1e-12)) beta

/-- The arguments of one `sample_from_per` call. -/
structure SampleCall (α : Type) where
  rand : Nat → α
  alloc_items : Bool
  alloc_weights : Bool
  batch_size : Nat

/-- Run a sequence of `sample_from_per` calls, dropping the batches: the `PER` after the
last call. -/
def sample_calls (pow : α → α → α) (nextafter : α → α → α) (per : PER α) :
    List (SampleCall α) → Outcome (PER α)
  | [] => .returned per
  | c :: cs =>
    match sample_from_per pow nextafter c.rand c.alloc_items c.alloc_weights per c.batch_size with
    | .aborted => .aborted
    | .returned r => sample_calls pow nextafter r.2 cs

/-- Proper ancestors of node `i`: its parent `(i-1)/2`, the parent of that node, and so on
down to the root 0. -/
def ancestors (i : Nat) : List Nat :=
  if i > 0 then ((i - 1) / 2) :: ancestors ((i - 1) / 2) else []
termination_by i
decreasing_by omega

/-- The aggregate indices read by the `while` loop of `sum_tree_get`, in order: one read of
`priority_tree[left]` per iteration. -/
def sum_tree_get_loop_reads (tree : List α) (leaf_base idx : Nat) (segment : α) : List Nat :=
  if idx < leaf_base then
    let left := (idx <<< 1) + 1
    let left_sum := tree.getD left 0
    if segment ≤ left_sum then left :: sum_tree_get_loop_reads tree leaf_base left segment
    else left :: sum_tree_get_loop_reads tree leaf_base (left + 1) (segment - left_sum)
  else []
termination_by leaf_base - idx
decreasing_by all_goals (simp only [Nat.shiftLeft_eq]; omega)

/-- The aggregate indices read by `sum_tree_get`, in order: the root, then one read per
iteration of the descent, then the resolved node. -/
def sum_tree_get_reads (nextafter : α → α → α) (t : SumTree α) (segment : α) : List Nat :=
  let total := t.priority_tree.getD 0 0
  if total ≤ 0 then [0]
  else
    let segment := if segment < 0 then 0 else segment
    let segment := if segment ≥ total then nextafter total 0 else segment
    let leaf_base := sumtree_leaf_base t
    let idx := (sum_tree_get_loop t.priority_tree leaf_base 0 segment).1
    0 :: (sum_tree_get_loop_reads t.priority_tree leaf_base 0 segment ++ [idx])

/-- One call on a replay buffer. For `update`, the two lists are `td_errors->items` (whose
length is `td_errors->count`) and `priority_indices`. -/
inductive PerOp (α : Type) where
  | add (item : List Byte)
  | sample (call : SampleCall α)
  | update (td_errors : List α) (priority_indices : List Nat)

/-- Run one call on a replay buffer; the batch of a `sample` is dropped. -/
def apply_per_op (pow : α → α → α) (nextafter : α → α → α) (per : PER α) :
    PerOp α → Outcome (PER α)
  | .add item => add_to_per per item
  | .sample c =>
    match sample_from_per pow nextafter c.rand c.alloc_items c.alloc_weights per c.batch_size with
    | .aborted => .aborted
    | .returned r => .returned r.2
  | .update td_errors priority_indices =>
    update_per_priorities pow per td_errors td_errors.length priority_indices

/-- Run a sequence of calls on a replay buffer, stopping at the first failed assertion. -/
def run_per_ops (pow : α → α → α) (nextafter : α → α → α) (per : PER α) :
    List (PerOp α) → Outcome (PER α)
  | [] => .returned per
  | op :: ops =>
    match apply_per_op pow nextafter per op with
    | .aborted => .aborted
    | .returned per1 => run_per_ops pow nextafter per1 ops

/-- An `update` comes with one tree index per error, each the index of a leaf of a tree of
capacity `c`; the other calls are always allowed. -/
def PerOp.onLeaf (c : Nat) : PerOp α → Prop
  | .add _ => True
  | .sample _ => True
  | .update td_errors priority_indices =>
    priority_indices.length = td_errors.length ∧
      ∀ i ∈ priority_indices, c - 1 ≤ i ∧ i ≤ 2 * c - 2

/-- Invariant of a replay buffer over a tree of capacity `c`: the tree is well formed and
satisfies the aggregate invariant, `max_priority` is at least 1 and bounds every leaf. -/
def PerInv (c : Nat) (per : PER α) : Prop :=
  TreeOk per.tree ∧ AggInv per.tree ∧ per.tree.capacity = c ∧ 1 ≤ per.max_priority ∧
    ∀ d, d < c → leaf_priority per.tree d ≤ per.max_priority

/-- An `update` comes with one tree index per error, each the index of the leaf of a written
data slot of `per` (a slot below `num_entries`); the other calls are always allowed. -/
def PerOp.onWritten (per : PER α) : PerOp α → Prop
  | .add _ => True
  | .sample _ => True
  | .update td_errors priority_indices =>
    priority_indices.length = td_errors.length ∧
      ∀ i ∈ priority_indices,
        per.tree.capacity - 1 ≤ i ∧ i < per.tree.capacity - 1 + per.tree.num_entries

/-- States of a replay buffer reached from `per0` by calls that return, every `update` of
which names leaves of written slots only. -/
inductive Reachable (pow : α → α → α) (nextafter : α → α → α) (per0 : PER α) :
    PER α → Prop where
  | init : Reachable pow nextafter per0 per0
  | step (per per1 : PER α) (op : PerOp α) :
      Reachable pow nextafter per0 per → PerOp.onWritten per op →
      apply_per_op pow nextafter per op = .returned per1 →
      Reachable pow nextafter per0 per1

/-- Invariant of the written slots of a buffer over a tree of capacity `c`: the slots below
`num_entries` have a positive leaf priority, the others have priority 0, and the cursor is
at `num_entries` until the buffer is full. -/
def WrittenInv (c : Nat) (per : PER α) : Prop :=
  PerInv c per ∧ per.tree.num_entries ≤ c ∧
    (per.tree.num_entries < c → per.tree.current_index = per.tree.num_entries) ∧
    ∀ d, d < c →
      (d < per.tree.num_entries → 0 < leaf_priority per.tree d) ∧
      (per.tree.num_entries ≤ d → leaf_priority per.tree d = 0)

/-! ### Rounded arithmetic

The functions above take every `double` operation as exact. The variants below round the
result of each `double` subtraction and addition of `sum_tree.h` with a function `rnd`
(comparisons and stores do not round); with `rnd x = x` they are the functions above. -/

/-- The `while (tree_idx > 0)` loop of `sum_tree_update`, where the sum computed by `+=` is
rounded by `rnd`. -/
def sum_tree_update_loop_fp (rnd : α → α) (tree : List α) (tree_idx : Nat)
    (priority_change : α) : List α :=
  if tree_idx > 0 then
    let parent := (tree_idx - 1) / 2
    sum_tree_update_loop_fp rnd
      (tree.set parent (rnd (tree.getD parent 0 + priority_change))) parent priority_change
  else tree
termination_by tree_idx
decreasing_by omega

/-- The C function `sum_tree_update`, where the difference `priority - old_priority` and the
sums of the loop are rounded by `rnd`. -/
def sum_tree_update_fp (rnd : α → α) (t : SumTree α) (tree_idx : Nat) (priority : α) :
    Outcome (SumTree α) :=
  if ¬ (tree_idx < sumtree_tree_size t) then .aborted
  else
    let old_priority := t.priority_tree.getD tree_idx 0
    let priority_change := rnd (priority - old_priority)
    .returned { t with
      priority_tree :=
        sum_tree_update_loop_fp rnd (t.priority_tree.set tree_idx priority) tree_idx
          priority_change }

/-- The C function `sum_tree_add`, over `sum_tree_update_fp`. -/
def sum_tree_add_fp (rnd : α → α) (t : SumTree α) (item : List Byte) (priority : α) :
    Outcome (SumTree α) :=
  let elem_idx := sumtree_leaf_index t t.current_index
  let dst_data := sumtree_data_ptr t t.current_index
  let t1 := { t with data := memcpy t.data dst_data item t.elem_size }
  match sum_tree_update_fp rnd t1 elem_idx priority with
  | .aborted => .aborted
  | .returned t2 =>
    let t3 := { t2 with current_index := t2.current_index + 1 }
    let t4 := { t3 with current_index := t3.current_index % t3.capacity }
    .returned { t4 with num_entries := min_size_t (t4.num_entries + 1) t4.capacity }

/-- The `while (idx < leaf_base)` loop of `sum_tree_get`, where the difference computed by
`segment -= left_sum` is rounded by `rnd`. -/
def sum_tree_get_loop_fp (rnd : α → α) (tree : List α) (leaf_base idx : Nat) (segment : α) :
    Nat × α :=
  if idx < leaf_base then
    let left := (idx <<< 1) + 1
    let left_sum := tree.getD left 0
    if segment ≤ left_sum then sum_tree_get_loop_fp rnd tree leaf_base left segment
    else sum_tree_get_loop_fp rnd tree leaf_base (left + 1) (rnd (segment - left_sum))
  else (idx, segment)
termination_by leaf_base - idx
decreasing_by all_goals (simp only [Nat.shiftLeft_eq]; omega)

/-- The C function `sum_tree_get`, over `sum_tree_get_loop_fp`. -/
def sum_tree_get_fp (rnd : α → α) (nextafter : α → α → α) (t : SumTree α) (segment : α)
    (out : SumTreeSample α) (out_item : Option (List Byte)) :
    SumTreeSample α × Option (List Byte) :=
  let total := t.priority_tree.getD 0 0
  if total ≤ 0 then (⟨0, 0, 0⟩, out_item)
  else
    let segment := if segment < 0 then 0 else segment
    let segment := if segment ≥ total then nextafter total 0 else segment
    let leaf_base := sumtree_leaf_base t
    let idx := (sum_tree_get_loop_fp rnd t.priority_tree leaf_base 0 segment).1
    let data_index := idx - sumtree_leaf_base t
    let out_item := match out_item with
      | none => none
      | some buf =>
        some (memcpy buf 0 (t.data.drop (sumtree_data_ptr t data_index)) t.elem_size)
    ({ out with p_idx := idx, d_idx := data_index, priority := t.priority_tree.getD idx 0 },
      out_item)

/-- Run one call, with rounded arithmetic. -/
def apply_op_fp (rnd : α → α) (t : SumTree α) : Op α → Outcome (SumTree α)
  | .add item priority => sum_tree_add_fp rnd t item priority
  | .update tree_idx priority => sum_tree_update_fp rnd t tree_idx priority

/-- Run a sequence of calls with rounded arithmetic, stopping at the first failed
assertion. -/
def run_ops_fp (rnd : α → α) (t : SumTree α) : List (Op α) → Outcome (SumTree α)
  | [] => .returned t
  | op :: ops =>
    match apply_op_fp rnd t op with
    | .aborted => .aborted
    | .returned t1 => run_ops_fp rnd t1 ops

end Defs

/-! ### Concrete inputs -/

/-- A stand-in for libm `nextafter` on `ℚ`, for concrete examples: one small step from `x`
toward `y`. -/
def nextafter_q (x y : ℚ) : ℚ := x - (x - y) / 2 ^ 53

/-- A full tree of capacity 2 with leaf priorities 1 and 1. -/
def tree_1_1 : SumTree ℚ :=
  { data := [0, 0], priority_tree := [2, 1, 1], capacity := 2, current_index := 0,
    num_entries := 2, elem_size := 1 }

/-- The four inserts of the concrete scenario: the `int` values 10, 20, 30, 40 as
little-endian records of `sizeof(int) = 4` bytes, each with priority 1. -/
def scenario_ops : List (Op ℚ) :=
  [.add [10, 0, 0, 0] 1, .add [20, 0, 0, 0] 1, .add [30, 0, 0, 0] 1, .add [40, 0, 0, 0] 1]

/-- The tree of the concrete scenario after the four inserts. -/
def scenario_tree : SumTree ℚ :=
  { data := [10, 0, 0, 0, 20, 0, 0, 0, 30, 0, 0, 0, 40, 0, 0, 0]
    priority_tree := [4, 2, 2, 1, 1, 1, 1]
    capacity := 4, current_index := 0, num_entries := 4, elem_size := 4 }

/-- The tree of the concrete scenario after the priority of data index 1 is set to 5. -/
def scenario_tree_5 : SumTree ℚ :=
  { scenario_tree with priority_tree := [8, 6, 2, 1, 5, 1, 1] }

/-- A stand-in for libm `pow` on `ℚ`, for concrete examples: the exponent is rounded down to
a natural number (exact when it is one). -/
def pow_q (x y : ℚ) : ℚ := x ^ ⌊y⌋.toNat

/-- A random source for concrete examples: every draw is the middle of its segment. -/
def rand_half : Nat → ℚ := fun _ => 1 / 2

/-- The replay buffer that `create_prioritized_replay(2, 1, 0.6, 0.4)` returns when the data
block is zero-filled. -/
def per_fresh : PER ℚ :=
  { tree := { data := [0, 0], priority_tree := [0, 0, 0], capacity := 2, current_index := 0,
              num_entries := 0, elem_size := 1 }
    alpha := 3 / 5, beta := 2 / 5, max_priority := 1 }

/-- A replay buffer whose tree holds one entry of priority 0. -/
def per_zero : PER ℚ :=
  { tree := { data := [7, 0], priority_tree := [0, 0, 0], capacity := 2, current_index := 1,
              num_entries := 1, elem_size := 1 }
    alpha := 3 / 5, beta := 2 / 5, max_priority := 1 }

/-- A replay buffer over the full tree with leaves 1 and 1. -/
def per_1_1 : PER ℚ :=
  { tree := tree_1_1, alpha := 3 / 5, beta := 2 / 5, max_priority := 1 }

/-- Three one-byte records 1, 2, 3 with the priorities 1, 2, 3. -/
def adds_123 : List (List Byte × ℚ) := [([1], 1), ([2], 2), ([3], 3)]

/-- The tree that `create_sum_tree(2, 1)` returns when the data block is zero-filled. -/
def tree_fresh_2 : SumTree ℚ :=
  { data := (List.range (1 * 2)).map (fun _ => 0)
    priority_tree := List.replicate (2 * 2 - 1) 0
    capacity := 2, current_index := 0, num_entries := 0, elem_size := 1 }

/-- A full tree of capacity 2 whose leaf 0 has priority 0 and whose leaf 1 has priority 1. -/
def tree_0_1 : SumTree ℚ :=
  { data := [0, 0], priority_tree := [1, 0, 1], capacity := 2, current_index := 0,
    num_entries := 2, elem_size := 1 }

/-- The buffer `per_zero` after `add_to_per` of the record `[8]`. -/
def per_zero_added : PER ℚ :=
  { tree := { data := [7, 8], priority_tree := [1, 0, 1], capacity := 2, current_index := 0,
              num_entries := 2, elem_size := 1 }
    alpha := 3 / 5, beta := 2 / 5, max_priority := 1 }

/-- The buffer `per_zero` after the error 0 is reported for tree index 1, with `pow_q`. -/
def per_zero_updated : PER ℚ :=
  { tree := { data := [7, 0], priority_tree := [1, 1, 0], capacity := 2, current_index := 1,
              num_entries := 1, elem_size := 1 }
    alpha := 3 / 5, beta := 2 / 5, max_priority := 1 }

/-- The buffer `per_fresh` after `add_to_per` of the record `[7]`. -/
def per_one : PER ℚ :=
  { tree := { data := [7, 0], priority_tree := [1, 1, 0], capacity := 2, current_index := 1,
              num_entries := 1, elem_size := 1 }
    alpha := 3 / 5, beta := 2 / 5, max_priority := 1 }

/-- The buffer `per_one` after `add_to_per` of the record `[8]`. -/
def per_two : PER ℚ :=
  { tree := { data := [7, 8], priority_tree := [2, 1, 1], capacity := 2, current_index := 0,
              num_entries := 2, elem_size := 1 }
    alpha := 3 / 5, beta := 2 / 5, max_priority := 1 }

/-- The buffer `per_two` after one `sample_from_per` call that annealed `beta`. -/
def per_two_sampled : PER ℚ := { per_two with beta := 401 / 1000 }

/-! ### Rounding of `double` arithmetic -/

/-- The integer nearest to `q`; a `q` half way between two integers goes to the even one. -/
def round_half_even (q : ℚ) : ℤ :=
  if q - ⌊q⌋ < 1 / 2 then ⌊q⌋
  else if 1 / 2 < q - ⌊q⌋ then ⌊q⌋ + 1
  else if ⌊q⌋ % 2 = 0 then ⌊q⌋ else ⌊q⌋ + 1

/-- Exponent of the last binary place that a `double` of the magnitude of `x` keeps: 52 places
below the leading bit `⌊log2 |x|⌋` (a significand of 53 bits), and `-1074` for the subnormal
numbers. -/
def ulp_exponent (x : ℚ) : ℤ := max (Int.log 2 |x| - 52) (-1074)

/-- The value a `double` operation stores when its exact result is `x`: IEEE 754 binary64,
round to nearest, ties to even. Overflow to infinity (`|x| >= 2^1024`) is not represented. -/
def round_double (x : ℚ) : ℚ :=
  (round_half_even (x / 2 ^ ulp_exponent x) : ℚ) * 2 ^ ulp_exponent x

/-- Three one-byte records with the priorities `1e16`, 1 and 1. -/
def adds_big : List (List Byte × ℚ) := [([1], 10000000000000000), ([2], 1), ([3], 1)]

/-- A full tree of capacity 2 with the leaf priorities `1e16` and 0, the write cursor on
slot 0: the tree after `sum_tree_add` of priority `1e16` and `sum_tree_add` of priority 0
on a new tree. -/
def tree_big_0 : SumTree ℚ :=
  { data := [7, 8], priority_tree := [10000000000000000, 10000000000000000, 0], capacity := 2,
    current_index := 0, num_entries := 2, elem_size := 1 }

/-- The tree `tree_big_0` after `sum_tree_add` of the record `[9]` with priority 1, in
`double` arithmetic: leaf 0 holds 1, the root holds 0. -/
def tree_big_1 : SumTree ℚ :=
  { data := [9, 8], priority_tree := [0, 1, 0], capacity := 2, current_index := 1,
    num_entries := 2, elem_size := 1 }

/-- The tree after the three adds `adds_big` on a new tree of capacity 2, in `double`
arithmetic: both leaves hold 1, the root holds 0. -/
def tree_big_end : SumTree ℚ :=
  { data := [3, 2], priority_tree := [0, 1, 1], capacity := 2, current_index := 1,
    num_entries := 2, elem_size := 1 }

/-- The tree that `create_sum_tree(4, 1)` returns when the data block is zero-filled. -/
def tree_fresh_4 : SumTree ℚ :=
  { data := (List.range (1 * 4)).map (fun _ => 0)
    priority_tree := List.replicate (2 * 4 - 1) 0
    capacity := 4, current_index := 0, num_entries := 0, elem_size := 1 }

/-- Four inserts of one-byte records with the priorities `3/2^54`, 0, 1 and 1. -/
def adds_tiny : List (Op ℚ) :=
  [.add [1] (3 / 2 ^ 54), .add [2] 0, .add [3] 1, .add [4] 1]

/-- The tree after the four inserts `adds_tiny` on a new tree of capacity 4, in `double`
arithmetic: the leaves hold `3/2^54`, 0, 1, 1 and the root holds 2. -/
def tree_tiny : SumTree ℚ :=
  { data := [1, 2, 3, 4], priority_tree := [2, 3 / 2 ^ 54, 2, 3 / 2 ^ 54, 0, 1, 1],
    capacity := 4, current_index := 0, num_entries := 4, elem_size := 1 }


set_option linter.unusedSectionVars false

section Lemmas

variable {α : Type} [LinearOrderedField α]

/-! ### Arithmetic helpers -/

theorem pow2_land (k : Nat) : 2 ^ k &&& (2 ^ k - 1) = 0 := by
  rw [Nat.and_pow_two_sub_one_eq_mod, Nat.mod_self]

theorem land_pred_eq_zero (n : Nat) (hn : 0 < n) (h : n &&& (n - 1) = 0) : ∃ k, n = 2 ^ k := by
  induction n using Nat.strong_induction_on with
  | _ n ih =>
    have hd : n / 2 &&& (n - 1) / 2 = 0 := by
      rw [← Nat.and_div_two, h]
    rcases Nat.even_or_odd n with ⟨m, hm⟩ | ⟨m, hm⟩
    · have e1 : n / 2 = m := by omega
      have e2 : (n - 1) / 2 = m - 1 := by omega
      rw [e1, e2] at hd
      obtain ⟨k, hk⟩ := ih m (by omega) (by omega) hd
      exact ⟨k + 1, by rw [pow_succ, ← hk]; omega⟩
    · have e1 : n / 2 = m := by omega
      have e2 : (n - 1) / 2 = m := by omega
      rw [e1, e2, Nat.and_self] at hd
      exact ⟨0, by omega⟩

theorem cum_zero (f : Nat → α) : cum f 0 = 0 := by simp [cum]

theorem cum_succ (f : Nat → α) (n : Nat) : cum f (n + 1) = cum f n + f n := by
  simp [cum, List.range_succ]

theorem cum_add (f : Nat → α) (m n : Nat) :
    cum f (m + n) = cum f m + cum (fun x => f (m + x)) n := by
  induction n with
  | zero => simp [cum_zero]
  | succ n ih => rw [← Nat.add_assoc, cum_succ, cum_succ, ih, add_assoc]

theorem getD_set (l : List α) (i j : Nat) (a : α) :
    (l.set i a).getD j 0 = if i = j ∧ i < l.length then a else l.getD j 0 := by
  simp only [List.getD_eq_getElem?_getD, List.getElem?_set]
  by_cases h : i = j
  · subst h
    by_cases h2 : i < l.length
    · simp [h2]
    · simp [h2, List.getElem?_eq_none (Nat.le_of_not_lt h2)]
  · simp [h]

theorem update_loop_length (tree : List α) (idx : Nat) (d : α) :
    (sum_tree_update_loop tree idx d).length = tree.length := by
  induction idx using Nat.strong_induction_on generalizing tree with
  | _ idx ih =>
    rw [sum_tree_update_loop]
    split
    · rename_i h
      rw [ih _ (by omega)]
      simp
    · rfl

theorem update_loop_getD_of_le (tree : List α) (idx j : Nat) (d : α) (h : idx ≤ 2 * j) :
    (sum_tree_update_loop tree idx d).getD j 0 = tree.getD j 0 := by
  induction idx using Nat.strong_induction_on generalizing tree with
  | _ idx ih =>
    rw [sum_tree_update_loop]
    split
    · rename_i h0
      rw [ih _ (by omega) _ (by omega), getD_set, if_neg (by omega)]
    · rfl

theorem update_loop_repairs (m : Nat) (d : α) (tree : List α) (cur : Nat)
    (hlen : tree.length = 2 * m + 1) (hcur : cur < 2 * m + 1)
    (H : ∀ i, i < m → tree.getD (2 * i + 1) 0 + tree.getD (2 * i + 2) 0
        = tree.getD i 0 + (if 0 < cur ∧ i = (cur - 1) / 2 then d else 0)) :
    ∀ i, i < m → (sum_tree_update_loop tree cur d).getD i 0
      = (sum_tree_update_loop tree cur d).getD (2 * i + 1) 0
        + (sum_tree_update_loop tree cur d).getD (2 * i + 2) 0 := by
  induction cur using Nat.strong_induction_on generalizing tree with
  | _ cur ih =>
    rw [sum_tree_update_loop]
    split
    · rename_i h0
      apply ih _ (by omega) _ (by simpa using hlen) (by omega)
      intro i hi
      have Hi := H i hi
      simp only [getD_set, hlen]
      by_cases h1 : (cur - 1) / 2 = i
      · have e1 : ¬ ((cur - 1) / 2 = 2 * i + 1 ∧ (cur - 1) / 2 < 2 * m + 1) := by omega
        have e2 : ¬ ((cur - 1) / 2 = 2 * i + 2 ∧ (cur - 1) / 2 < 2 * m + 1) := by omega
        have e3 : ((cur - 1) / 2 = i ∧ (cur - 1) / 2 < 2 * m + 1) := by omega
        have e4 : ¬ (0 < (cur - 1) / 2 ∧ i = ((cur - 1) / 2 - 1) / 2) := by omega
        rw [if_neg e1, if_neg e2, if_pos e3, if_neg e4]
        rw [if_pos ⟨h0, h1.symm⟩] at Hi
        rw [Hi, h1]; ring
      · have e3 : ¬ ((cur - 1) / 2 = i ∧ (cur - 1) / 2 < 2 * m + 1) := by omega
        rw [if_neg e3]
        rw [if_neg (by omega)] at Hi
        by_cases h2 : 0 < (cur - 1) / 2 ∧ i = ((cur - 1) / 2 - 1) / 2
        · rw [if_pos h2]
          by_cases h3 : (cur - 1) / 2 = 2 * i + 1
          · have e2 : ¬ ((cur - 1) / 2 = 2 * i + 2 ∧ (cur - 1) / 2 < 2 * m + 1) := by omega
            rw [if_pos ⟨h3, by omega⟩, if_neg e2, h3]; linear_combination Hi
          · have h4 : (cur - 1) / 2 = 2 * i + 2 := by omega
            have e1 : ¬ ((cur - 1) / 2 = 2 * i + 1 ∧ (cur - 1) / 2 < 2 * m + 1) := by omega
            rw [if_neg e1, if_pos ⟨h4, by omega⟩, h4]; linear_combination Hi
        · have e1 : ¬ ((cur - 1) / 2 = 2 * i + 1 ∧ (cur - 1) / 2 < 2 * m + 1) := by omega
          have e2 : ¬ ((cur - 1) / 2 = 2 * i + 2 ∧ (cur - 1) / 2 < 2 * m + 1) := by omega
          rw [if_neg e1, if_neg e2, if_neg h2, Hi, add_zero]
    · rename_i h0
      intro i hi
      have Hi := H i hi
      rw [if_neg (by omega)] at Hi
      rw [Hi, add_zero]


/-! ### Update and add -/

theorem TreeOk.cap_pos {t : SumTree α} (h : TreeOk t) : 0 < t.capacity := by
  obtain ⟨k, hk⟩ := h.pow2
  rw [hk]; positivity

theorem sum_tree_update_leaf (t : SumTree α) (hcap : 0 < t.capacity)
    (hlen : t.priority_tree.length = 2 * t.capacity - 1) (hinv : AggInv t)
    (idx : Nat) (p : α) (h1 : t.capacity - 1 ≤ idx) (h2 : idx < 2 * t.capacity - 1) :
    ∃ tr, sum_tree_update t idx p = .returned { t with priority_tree := tr } ∧
      tr.length = t.priority_tree.length ∧
      AggInv { t with priority_tree := tr } ∧
      ∀ j, t.capacity - 1 ≤ j → tr.getD j 0 = if j = idx then p else t.priority_tree.getD j 0 := by
  refine ⟨sum_tree_update_loop (t.priority_tree.set idx p) idx
    (p - t.priority_tree.getD idx 0), ?_, ?_, ?_, ?_⟩
  · simp [sum_tree_update, sumtree_tree_size, h2]
  · rw [update_loop_length]; simp
  · have hl : (t.priority_tree.set idx p).length = 2 * (t.capacity - 1) + 1 := by
      simp [hlen]; omega
    intro i hi
    simp only at hi ⊢
    apply update_loop_repairs (t.capacity - 1) _ _ idx hl (by omega) _ i hi
    intro i hi
    have Hi := hinv i hi
    simp only [getD_set, hlen]
    have e0 : ¬ (idx = i ∧ idx < 2 * t.capacity - 1) := by omega
    rw [if_neg e0]
    by_cases c1 : idx = 2 * i + 1
    · have e2 : ¬ (idx = 2 * i + 2 ∧ idx < 2 * t.capacity - 1) := by omega
      rw [if_pos ⟨c1, h2⟩, if_neg e2, if_pos (by omega), Hi, c1]; ring
    · by_cases c2 : idx = 2 * i + 2
      · have e1 : ¬ (idx = 2 * i + 1 ∧ idx < 2 * t.capacity - 1) := by omega
        rw [if_neg e1, if_pos ⟨c2, h2⟩, if_pos (by omega), Hi, c2]; ring
      · have e1 : ¬ (idx = 2 * i + 1 ∧ idx < 2 * t.capacity - 1) := by omega
        have e2 : ¬ (idx = 2 * i + 2 ∧ idx < 2 * t.capacity - 1) := by omega
        rw [if_neg e1, if_neg e2, if_neg (by omega), Hi, add_zero]
  · intro j hj
    rw [update_loop_getD_of_le _ _ _ _ (by omega), getD_set, hlen]
    by_cases c : j = idx
    · subst c; simp [h2]
    · rw [if_neg (by omega), if_neg c]

theorem sum_tree_add_spec (t : SumTree α) (h : TreeOk t) (hinv : AggInv t)
    (item : List Byte) (p : α) :
    ∃ t1, sum_tree_add t item p = .returned t1 ∧ TreeOk t1 ∧ AggInv t1 ∧
      t1.capacity = t.capacity ∧ t1.elem_size = t.elem_size ∧
      t1.data = memcpy t.data (t.current_index * t.elem_size) item t.elem_size ∧
      t1.current_index = (t.current_index + 1) % t.capacity ∧
      t1.num_entries = min (t.num_entries + 1) t.capacity ∧
      ∀ d, leaf_priority t1 d = if d = t.current_index then p else leaf_priority t d := by
  have hc := h.cap_pos
  have hcur := h.cur_lt
  obtain ⟨tr, e, hl, hi, hleaf⟩ := sum_tree_update_leaf
    { t with data := memcpy t.data (sumtree_data_ptr t t.current_index) item t.elem_size }
    hc h.tree_len hinv (sumtree_leaf_index t t.current_index) p
    (by simp [sumtree_leaf_index, sumtree_leaf_base])
    (by simp only [sumtree_leaf_index, sumtree_leaf_base]; omega)
  simp only at e hl hi hleaf
  refine ⟨{ t with
      data := memcpy t.data (sumtree_data_ptr t t.current_index) item t.elem_size
      priority_tree := tr
      current_index := (t.current_index + 1) % t.capacity
      num_entries := min_size_t (t.num_entries + 1) t.capacity },
    by simp only [sum_tree_add, e], ?_, ?_, rfl, rfl, rfl, rfl, ?_, ?_⟩
  · exact ⟨h.pow2, hl.trans h.tree_len, Nat.mod_lt _ hc⟩
  · exact hi
  · simp only [min_size_t]
    split <;> omega
  · intro d
    have := hleaf (sumtree_leaf_index t d) (by simp [sumtree_leaf_index, sumtree_leaf_base])
    simp only [leaf_priority, sumtree_leaf_index, sumtree_leaf_base] at this ⊢
    rw [this]
    by_cases c : d = t.current_index
    · simp [c]
    · rw [if_neg c, if_neg (by omega)]

theorem root_eq_cum_leaves (t : SumTree α) (hc : 0 < t.capacity) (hinv : AggInv t) :
    t.priority_tree.getD 0 0 = cum (leaf_priority t) t.capacity := by
  have key : ∀ m, cum (fun i => t.priority_tree.getD (2 * i + 1) 0
      + t.priority_tree.getD (2 * i + 2) 0) m + t.priority_tree.getD 0 0
      = cum (fun i => t.priority_tree.getD i 0) (2 * m + 1) := by
    intro m
    induction m with
    | zero => simp [cum_succ, cum_zero]
    | succ m ih =>
      rw [show 2 * (m + 1) + 1 = 2 * m + 1 + 1 + 1 by ring, cum_succ, cum_succ, cum_succ, ← ih]
      ring
  have e1 : cum (fun i => t.priority_tree.getD i 0) (t.capacity - 1)
      = cum (fun i => t.priority_tree.getD (2 * i + 1) 0
          + t.priority_tree.getD (2 * i + 2) 0) (t.capacity - 1) := by
    have : ∀ m, m ≤ t.capacity - 1 → cum (fun i => t.priority_tree.getD i 0) m
        = cum (fun i => t.priority_tree.getD (2 * i + 1) 0
            + t.priority_tree.getD (2 * i + 2) 0) m := by
      intro m
      induction m with
      | zero => intro _; simp [cum]
      | succ m ih =>
        intro hm
        rw [cum_succ, cum_succ, ih (by omega), hinv m (by omega)]
    exact this _ le_rfl
  have e2 := key (t.capacity - 1)
  rw [show 2 * (t.capacity - 1) + 1 = (t.capacity - 1) + t.capacity by omega, cum_add, ← e1] at e2
  have e3 : cum (fun x => t.priority_tree.getD (t.capacity - 1 + x) 0) t.capacity
      = cum (leaf_priority t) t.capacity := rfl
  rw [e3] at e2
  linear_combination e2


theorem getD_replicate_zero (n i : Nat) : (List.replicate n (0 : α)).getD i 0 = 0 := by
  simp only [List.getD_eq_getElem?_getD, List.getElem?_replicate]
  split <;> rfl

theorem create_sum_tree_ok (uninit : Nat → Byte) (c es k : Nat) (hc : c = 2 ^ k) (hes : 0 < es) :
    create_sum_tree uninit (fun _ => true) c es = .returned (some
      ({ data := (List.range (es * c)).map uninit
         priority_tree := List.replicate (2 * c - 1) 0
         capacity := c
         current_index := 0
         num_entries := 0
         elem_size := es } : SumTree α)) := by
  have h1 : 0 < c := by rw [hc]; positivity
  have h2 : c &&& (c - 1) = 0 := by rw [hc]; exact pow2_land k
  simp [create_sum_tree, h1, hes, h2]

theorem fresh_treeOk (data : List Byte) (c es k : Nat) (hc : c = 2 ^ k) :
    TreeOk ({ data := data, priority_tree := List.replicate (2 * c - 1) 0, capacity := c,
              current_index := 0, num_entries := 0, elem_size := es } : SumTree α) :=
  ⟨⟨k, hc⟩, by simp, by simp only; rw [hc]; positivity⟩

theorem fresh_aggInv (data : List Byte) (c es : Nat) :
    AggInv ({ data := data, priority_tree := List.replicate (2 * c - 1) 0, capacity := c,
              current_index := 0, num_entries := 0, elem_size := es } : SumTree α) := by
  intro i _
  simp only [getD_replicate_zero, add_zero]

theorem apply_op_inv (t : SumTree α) (h : TreeOk t) (hinv : AggInv t) (op : Op α)
    (hop : Op.onLeaf t.capacity op) :
    ∃ t1, apply_op t op = .returned t1 ∧ TreeOk t1 ∧ AggInv t1 ∧ t1.capacity = t.capacity := by
  cases op with
  | add item p =>
    obtain ⟨t1, e, h1, h2, h3, _⟩ := sum_tree_add_spec t h hinv item p
    exact ⟨t1, e, h1, h2, h3⟩
  | update idx p =>
    have hc := h.cap_pos
    obtain ⟨tr, e, hl, hi, _⟩ := sum_tree_update_leaf t hc h.tree_len hinv idx p hop.1
      (by have := hop.2; omega)
    exact ⟨_, e, ⟨h.pow2, hl.trans h.tree_len, h.cur_lt⟩, hi, rfl⟩

theorem run_ops_inv (ops : List (Op α)) (t : SumTree α) (h : TreeOk t) (hinv : AggInv t)
    (hops : ∀ op ∈ ops, Op.onLeaf t.capacity op) :
    ∃ t1, run_ops t ops = .returned t1 ∧ TreeOk t1 ∧ AggInv t1 ∧ t1.capacity = t.capacity := by
  induction ops generalizing t with
  | nil => exact ⟨t, rfl, h, hinv, rfl⟩
  | cons op ops ih =>
    obtain ⟨t1, e1, h1, hi1, hc1⟩ := apply_op_inv t h hinv op (hops op (by simp))
    obtain ⟨t2, e2, h2, hi2, hc2⟩ := ih t1 h1 hi1 (fun o ho => by
      rw [hc1]; exact hops o (by simp [ho]))
    exact ⟨t2, by simp only [run_ops, e1, e2], h2, hi2, hc2.trans hc1⟩

/-! ### Descent -/

theorem cum_mono (f : Nat → α) (n : Nat) (hf : ∀ x, x < n → 0 ≤ f x) (a b : Nat)
    (hab : a ≤ b) (hb : b ≤ n) : cum f a ≤ cum f b := by
  induction b with
  | zero =>
    have : a = 0 := by omega
    rw [this]
  | succ b ih =>
    rcases Nat.lt_or_ge a (b + 1) with h | h
    · rw [cum_succ]
      have := ih (by omega) (by omega)
      have := hf b (by omega)
      linarith
    · have : a = b + 1 := by omega
      rw [this]

theorem cum_nonneg (f : Nat → α) (n : Nat) (hf : ∀ x, x < n → 0 ≤ f x) (a : Nat)
    (ha : a ≤ n) : 0 ≤ cum f a := by
  have := cum_mono f n hf 0 a (Nat.zero_le _) ha
  rwa [cum_zero] at this

/-- Under the aggregate invariant the node at depth `d`, position `j`, holds the sum of the
leaves below it. -/
theorem subtree_sum (t : SumTree α) (k : Nat) (hk : t.capacity = 2 ^ k) (hinv : AggInv t)
    (h d j : Nat) (hd : d + h = k) (hj : j < 2 ^ d) :
    t.priority_tree.getD (2 ^ d - 1 + j) 0
      = cum (leaf_priority t) (j * 2 ^ h + 2 ^ h) - cum (leaf_priority t) (j * 2 ^ h) := by
  induction h generalizing d j with
  | zero =>
    have : d = k := by omega
    subst this
    simp only [pow_zero, mul_one, cum_succ, leaf_priority, sumtree_leaf_index, sumtree_leaf_base,
      hk]
    ring
  | succ h ih =>
    have hP : 0 < 2 ^ d := by positivity
    have hpk : 2 ^ k = 2 ^ d * 2 ^ (h + 1) := by rw [← pow_add, hd]
    have hW : 0 < 2 ^ h := by positivity
    have hW2 : 2 ^ (h + 1) = 2 * 2 ^ h := by rw [pow_succ]; ring
    have hP2 : 2 ^ (d + 1) = 2 * 2 ^ d := by rw [pow_succ]; ring
    have hint : 2 ^ d - 1 + j < t.capacity - 1 := by
      rw [hk, hpk, hW2]
      have : 2 ^ d * 2 ≤ 2 ^ d * (2 * 2 ^ h) := Nat.mul_le_mul_left _ (by omega)
      omega
    have e := hinv _ hint
    have c1 := ih (d + 1) (2 * j) (by omega) (by omega)
    have c2 := ih (d + 1) (2 * j + 1) (by omega) (by omega)
    have i1 : 2 * (2 ^ d - 1 + j) + 1 = 2 ^ (d + 1) - 1 + 2 * j := by omega
    have i2 : 2 * (2 ^ d - 1 + j) + 2 = 2 ^ (d + 1) - 1 + (2 * j + 1) := by omega
    have a1 : 2 * j * 2 ^ h = j * 2 ^ (h + 1) := by rw [hW2]; ring
    have a2 : 2 * j * 2 ^ h + 2 ^ h = (2 * j + 1) * 2 ^ h := by ring
    have a3 : (2 * j + 1) * 2 ^ h + 2 ^ h = j * 2 ^ (h + 1) + 2 ^ (h + 1) := by rw [hW2]; ring
    rw [e, i1, i2, c1, c2, a2, a3, a1]
    ring

/-- The descent started at the node of depth `d`, position `j`, with remaining value `seg`
ends at leaf `i` when the absolute value `cum (j * 2^h) + seg` lies in leaf `i`'s interval. -/
theorem get_loop_spec (t : SumTree α) (k : Nat) (hk : t.capacity = 2 ^ k) (hinv : AggInv t)
    (hnn : ∀ x, x < t.capacity → 0 ≤ leaf_priority t x)
    (h d j : Nat) (seg : α) (hd : d + h = k) (hj : j < 2 ^ d)
    (i : Nat) (hlo : j * 2 ^ h ≤ i) (hhi : i < j * 2 ^ h + 2 ^ h)
    (hup : cum (leaf_priority t) (j * 2 ^ h) + seg ≤ cum (leaf_priority t) (i + 1))
    (hdn : cum (leaf_priority t) i < cum (leaf_priority t) (j * 2 ^ h) + seg ∨ i = j * 2 ^ h) :
    (sum_tree_get_loop t.priority_tree (t.capacity - 1) (2 ^ d - 1 + j) seg).1
      = t.capacity - 1 + i := by
  induction h generalizing d j seg with
  | zero =>
    have : d = k := by omega
    subst this
    rw [sum_tree_get_loop, if_neg (by rw [hk]; omega)]
    simp only [pow_zero, mul_one] at hlo hhi
    simp only [hk]
    omega
  | succ h ih =>
    have hP : 0 < 2 ^ d := by positivity
    have hpk : 2 ^ k = 2 ^ d * 2 ^ (h + 1) := by rw [← pow_add, hd]
    have hW : 0 < 2 ^ h := by positivity
    have hW2 : 2 ^ (h + 1) = 2 * 2 ^ h := by rw [pow_succ]; ring
    have hP2 : 2 ^ (d + 1) = 2 * 2 ^ d := by rw [pow_succ]; ring
    have hjw : j * 2 ^ (h + 1) + 2 ^ (h + 1) ≤ 2 ^ k := by
      rw [hpk]
      calc j * 2 ^ (h + 1) + 2 ^ (h + 1) = (j + 1) * 2 ^ (h + 1) := by ring
        _ ≤ 2 ^ d * 2 ^ (h + 1) := Nat.mul_le_mul_right _ (by omega)
    have hint : 2 ^ d - 1 + j < t.capacity - 1 := by
      rw [hk, hpk, hW2]
      have : 2 ^ d * 2 ≤ 2 ^ d * (2 * 2 ^ h) := Nat.mul_le_mul_left _ (by omega)
      omega
    have i1 : ((2 ^ d - 1 + j) <<< 1) + 1 = 2 ^ (d + 1) - 1 + 2 * j := by
      rw [Nat.shiftLeft_eq]; omega
    have i2 : ((2 ^ d - 1 + j) <<< 1) + 1 + 1 = 2 ^ (d + 1) - 1 + (2 * j + 1) := by
      rw [Nat.shiftLeft_eq]; omega
    have a1 : 2 * j * 2 ^ h = j * 2 ^ (h + 1) := by rw [hW2]; ring
    have a2 : 2 * j * 2 ^ h + 2 ^ h = (2 * j + 1) * 2 ^ h := by ring
    have a3 : (2 * j + 1) * 2 ^ h + 2 ^ h = j * 2 ^ (h + 1) + 2 ^ (h + 1) := by rw [hW2]; ring
    have ls := subtree_sum t k hk hinv h (d + 1) (2 * j) (by omega) (by omega)
    rw [a2, a1] at ls
    rw [sum_tree_get_loop, if_pos hint]
    simp only [i1, i2, ls]
    split
    · rename_i hle
      have hin : i < (2 * j + 1) * 2 ^ h := by
        by_contra hc
        have hge : (2 * j + 1) * 2 ^ h ≤ i := by omega
        have hm := cum_mono (leaf_priority t) t.capacity hnn _ _ hge (by rw [hk]; omega)
        rcases hdn with hdn | hdn
        · linarith
        · omega
      apply ih (d + 1) (2 * j) seg (by omega) (by omega)
      · omega
      · omega
      · rw [a1]; exact hup
      · rw [a1]; exact hdn
    · rename_i hgt
      have hgt' := lt_of_not_ge hgt
      have hin : (2 * j + 1) * 2 ^ h ≤ i := by
        by_contra hc
        have hge : i + 1 ≤ (2 * j + 1) * 2 ^ h := by omega
        have hm := cum_mono (leaf_priority t) t.capacity hnn _ _ hge (by rw [hk]; omega)
        linarith
      apply ih (d + 1) (2 * j + 1) _ (by omega) (by omega)
      · omega
      · omega
      · linarith
      · left
        rcases hdn with hdn | hdn
        · linarith
        · omega

theorem get_loop_leaf (tree : List α) (lb idx : Nat) (seg : α) (h : ¬ idx < lb) :
    sum_tree_get_loop tree lb idx seg = (idx, seg) := by
  rw [sum_tree_get_loop, if_neg h]

theorem get_loop_left (tree : List α) (lb idx : Nat) (seg : α) (h : idx < lb)
    (hs : seg ≤ tree.getD (2 * idx + 1) 0) :
    sum_tree_get_loop tree lb idx seg = sum_tree_get_loop tree lb (2 * idx + 1) seg := by
  have e : (idx <<< 1) + 1 = 2 * idx + 1 := by rw [Nat.shiftLeft_eq]; omega
  rw [sum_tree_get_loop, if_pos h]
  simp only [e, if_pos hs]

theorem get_loop_right (tree : List α) (lb idx : Nat) (seg : α) (h : idx < lb)
    (hs : ¬ seg ≤ tree.getD (2 * idx + 1) 0) :
    sum_tree_get_loop tree lb idx seg
      = sum_tree_get_loop tree lb (2 * idx + 2) (seg - tree.getD (2 * idx + 1) 0) := by
  have e : (idx <<< 1) + 1 = 2 * idx + 1 := by rw [Nat.shiftLeft_eq]; omega
  rw [sum_tree_get_loop, if_pos h]
  simp only [e, if_neg hs]

/-- What `sum_tree_get` returns for a value inside the total mass: the leaf `i` whose
interval `(cum i, cum (i+1)]` holds `v` (leaf `0` also takes `v = 0`). -/
theorem sum_tree_get_resolves (nextafter : α → α → α) (t : SumTree α) (k : Nat)
    (hk : t.capacity = 2 ^ k) (hinv : AggInv t)
    (hnn : ∀ d, d < t.capacity → 0 ≤ leaf_priority t d)
    (i : Nat) (hi : i < t.capacity) (v : α)
    (hup : v ≤ cum (leaf_priority t) (i + 1))
    (hdn : cum (leaf_priority t) i < v ∨ (i = 0 ∧ 0 ≤ v))
    (htot : v < t.priority_tree.getD 0 0)
    (out : SumTreeSample α) (out_item : Option (List Byte)) :
    sum_tree_get nextafter t v out out_item
      = (⟨t.capacity - 1 + i, i, leaf_priority t i⟩,
          out_item.map (fun buf => memcpy buf 0 (t.data.drop (i * t.elem_size)) t.elem_size)) := by
  have hv0 : 0 ≤ v := by
    rcases hdn with h | h
    · exact le_of_lt (lt_of_le_of_lt (cum_nonneg _ _ hnn i (by omega)) h)
    · exact h.2
  have hT : 0 < t.priority_tree.getD 0 0 := lt_of_le_of_lt hv0 htot
  have hloop : (sum_tree_get_loop t.priority_tree (t.capacity - 1) 0 v).1
      = t.capacity - 1 + i := by
    have := get_loop_spec t k hk hinv hnn k 0 0 v (by omega) (by simp) i (by simp)
      (by rw [← hk]; omega) (by simpa [cum_zero] using hup)
      (by
        rcases hdn with h | h
        · left; simpa [cum_zero] using h
        · right; simpa using h.1)
    simpa using this
  unfold sum_tree_get
  simp only [if_neg (not_le.mpr hT), if_neg (not_lt.mpr hv0), ge_iff_le,
    if_neg (not_le.mpr htot), sumtree_leaf_base, hloop, Nat.add_sub_cancel_left,
    sumtree_data_ptr]
  refine Prod.ext ?_ ?_
  · simp [leaf_priority, sumtree_leaf_index, sumtree_leaf_base]
  · cases out_item <;> rfl

/-! ### C1: aggregate invariant -/

theorem create_sum_tree_returned (uninit : Nat → Byte) (alloc_ok : Nat → Bool) (c es : Nat)
    (t0 : SumTree α) (h : create_sum_tree uninit alloc_ok c es = .returned (some t0)) :
    0 < c ∧ 0 < es ∧ c &&& (c - 1) = 0 ∧
      t0 = { data := (List.range (es * c)).map uninit
             priority_tree := List.replicate (2 * c - 1) 0
             capacity := c
             current_index := 0
             num_entries := 0
             elem_size := es } := by
  unfold create_sum_tree at h
  split_ifs at h with h1 h2 h3 h4 h5 h6 <;>
    simp only [Outcome.returned.injEq, Option.some.injEq, reduceCtorEq] at h
  exact ⟨h1, h2, h3, h.symm⟩

/-- C1. Aggregate invariant: for every tree produced by `create_sum_tree` with a
power-of-two capacity `c`, every finite sequence of `sum_tree_add` calls and
`sum_tree_update` calls on leaf indices `c-1 .. 2c-2` runs to the end, and in the resulting
tree each internal node `i < c-1` holds the sum of its children `2i+1` and `2i+2`, and the
root holds the sum of the `c` leaf values. -/
theorem C1_aggregate_invariant (uninit : Nat → Byte) (alloc_ok : Nat → Bool) (c es k : Nat)
    (t0 : SumTree α) (hc : c = 2 ^ k)
    (hcreate : create_sum_tree uninit alloc_ok c es = .returned (some t0))
    (ops : List (Op α)) (hops : ∀ op ∈ ops, Op.onLeaf c op) :
    ∃ t, run_ops t0 ops = .returned t ∧
      t.capacity = c ∧ t.priority_tree.length = 2 * c - 1 ∧
      (∀ i, i < c - 1 → t.priority_tree.getD i 0
        = t.priority_tree.getD (2 * i + 1) 0 + t.priority_tree.getD (2 * i + 2) 0) ∧
      t.priority_tree.getD 0 0 = cum (fun d => t.priority_tree.getD (c - 1 + d) 0) c := by
  obtain ⟨_, _, _, rfl⟩ := create_sum_tree_returned uninit alloc_ok c es t0 hcreate
  obtain ⟨t, e, h, hi, hcap⟩ := run_ops_inv ops _ (fresh_treeOk ((List.range (es * c)).map uninit)
    c es k hc) (fresh_aggInv _ c es) hops
  replace hcap : t.capacity = c := hcap
  refine ⟨t, e, hcap, ?_, ?_, ?_⟩
  · rw [h.tree_len, hcap]
  · intro i hi'
    exact hi i (by rw [hcap]; exact hi')
  · have := root_eq_cum_leaves t h.cap_pos hi
    rw [this, hcap]
    congr 1
    funext d
    simp only [leaf_priority, sumtree_leaf_index, sumtree_leaf_base, hcap]

/-- Witness of C1 on `ℚ`: capacity 2, one add and one update of leaf 1. -/
theorem C1_aggregate_invariant_witness :
    ∃ t, run_ops
        ({ data := (List.range (4 * 2)).map (fun _ => 0)
           priority_tree := List.replicate (2 * 2 - 1) 0
           capacity := 2, current_index := 0, num_entries := 0, elem_size := 4 } : SumTree ℚ)
        [Op.add [7, 0, 0, 0] 3, Op.update 1 5] = .returned t ∧
      t.capacity = 2 ∧ t.priority_tree.length = 2 * 2 - 1 ∧
      (∀ i, i < 2 - 1 → t.priority_tree.getD i 0
        = t.priority_tree.getD (2 * i + 1) 0 + t.priority_tree.getD (2 * i + 2) 0) ∧
      t.priority_tree.getD 0 0 = cum (fun d => t.priority_tree.getD (2 - 1 + d) 0) 2 :=
  C1_aggregate_invariant (fun _ => 0) (fun _ => true) 2 4 1 _ (by norm_num)
    (create_sum_tree_ok (fun _ => 0) 2 4 1 (by norm_num) (by norm_num)) _
    (by simp [Op.onLeaf])

/-- C2 (amended). Resolution in exact arithmetic (`sum_tree_get` computes without rounding and
the aggregate invariant holds as an equality of numbers): in a tree that satisfies the
aggregate invariant, with non-negative leaf priorities (so that the total is `> 0` as soon
as some such `v` exists), every value `v` with `cum(0..i-1) <= v < cum(0..i)` that is not
the left end point of the interval, unless `i = 0`, resolves to leaf `i`: `d_idx = i`,
`p_idx = capacity-1+i`, and the reported priority is the one stored at that leaf. -/
theorem C2_resolution (nextafter : α → α → α) (t : SumTree α) (k : Nat)
    (hk : t.capacity = 2 ^ k) (hinv : AggInv t)
    (hnn : ∀ d, d < t.capacity → 0 ≤ leaf_priority t d)
    (i : Nat) (hi : i < t.capacity) (v : α)
    (hlo : cum (leaf_priority t) i ≤ v) (hhi : v < cum (leaf_priority t) (i + 1))
    (hne : v ≠ cum (leaf_priority t) i ∨ i = 0)
    (out : SumTreeSample α) (out_item : Option (List Byte)) :
    (sum_tree_get nextafter t v out out_item).1
      = ⟨t.capacity - 1 + i, i, leaf_priority t i⟩ := by
  have hroot := root_eq_cum_leaves t (by rw [hk]; positivity) hinv
  have hle := cum_mono (leaf_priority t) t.capacity hnn (i + 1) t.capacity (by omega) le_rfl
  rw [sum_tree_get_resolves nextafter t k hk hinv hnn i hi v (le_of_lt hhi) _
    (by rw [hroot]; exact lt_of_lt_of_le hhi hle)]
  rcases hne with h | h
  · left; exact lt_of_le_of_ne hlo (Ne.symm h)
  · rcases eq_or_lt_of_le hlo with h2 | h2
    · right
      refine ⟨h, ?_⟩
      rw [← h2, h, cum_zero]
    · left; exact h2

end Lemmas

theorem tree_1_1_get : sum_tree_get nextafter_q tree_1_1 1 ⟨0, 0, 0⟩ none = (⟨1, 0, 1⟩, none) := by
  have e : sum_tree_get_loop ([2, 1, 1] : List ℚ) 1 0 1 = (1, 1) := by
    rw [get_loop_left _ _ _ _ (by norm_num) (by norm_num),
      get_loop_leaf _ _ _ _ (by norm_num)]
  norm_num [sum_tree_get, tree_1_1, sumtree_leaf_base, e]
  rfl

/-- C2 (as stated) fails: with leaves `[1, 1]` the value `v = 1` satisfies
`cum(0..0) <= v < cum(0..1)`, the interval of leaf 1, yet `sum_tree_get` returns leaf 0. -/
theorem C2_counterexample :
    AggInv tree_1_1 ∧ (∀ d, d < 2 → 0 ≤ leaf_priority tree_1_1 d) ∧
    0 < tree_1_1.priority_tree.getD 0 0 ∧
    cum (leaf_priority tree_1_1) 1 ≤ 1 ∧ 1 < cum (leaf_priority tree_1_1) 2 ∧
    (sum_tree_get nextafter_q tree_1_1 1 ⟨0, 0, 0⟩ none).1.d_idx = 0 ∧
    (sum_tree_get nextafter_q tree_1_1 1 ⟨0, 0, 0⟩ none).1.d_idx ≠ 1 := by
  rw [tree_1_1_get]
  refine ⟨?_, ?_, ?_, ?_, ?_, ?_, ?_⟩
  · intro i hi
    have : i = 0 := by simp [tree_1_1] at hi; omega
    subst this
    norm_num [tree_1_1]
  · intro d hd
    interval_cases d <;> norm_num [leaf_priority, tree_1_1, sumtree_leaf_index, sumtree_leaf_base]
  · norm_num [tree_1_1]
  · norm_num [cum_succ, cum_zero, leaf_priority, tree_1_1, sumtree_leaf_index, sumtree_leaf_base]
  · norm_num [cum_succ, cum_zero, leaf_priority, tree_1_1, sumtree_leaf_index, sumtree_leaf_base]
  · rfl
  · decide

/-- Witness of C2 (amended): value `3/2` in the tree with leaves `[1, 1]` resolves to leaf 1. -/
theorem C2_resolution_witness :
    (sum_tree_get nextafter_q tree_1_1 (3 / 2) ⟨0, 0, 0⟩ none).1
      = ⟨tree_1_1.capacity - 1 + 1, 1, leaf_priority tree_1_1 1⟩ :=
  C2_resolution nextafter_q tree_1_1 1 rfl
    (by
      intro i hi
      have : i = 0 := by simp [tree_1_1] at hi; omega
      subst this
      norm_num [tree_1_1])
    (by
      intro d hd
      have hd' : d < 2 := hd
      interval_cases d <;>
        norm_num [leaf_priority, tree_1_1, sumtree_leaf_index, sumtree_leaf_base])
    1 (by decide) (3 / 2)
    (by norm_num [cum_succ, cum_zero, leaf_priority, tree_1_1, sumtree_leaf_index, sumtree_leaf_base])
    (by norm_num [cum_succ, cum_zero, leaf_priority, tree_1_1, sumtree_leaf_index, sumtree_leaf_base])
    (by left; norm_num [cum_succ, cum_zero, leaf_priority, tree_1_1, sumtree_leaf_index, sumtree_leaf_base])
    ⟨0, 0, 0⟩ none

/-! ### C3, C4: the concrete scenario -/

theorem update_loop_zero {α : Type} [LinearOrderedField α] (tree : List α) (d : α) :
    sum_tree_update_loop tree 0 d = tree := by
  rw [sum_tree_update_loop, if_neg (by omega)]

theorem update_loop_pos {α : Type} [LinearOrderedField α] (tree : List α) (idx : Nat) (d : α)
    (h : 0 < idx) :
    sum_tree_update_loop tree idx d
      = sum_tree_update_loop (tree.set ((idx - 1) / 2) (tree.getD ((idx - 1) / 2) 0 + d))
          ((idx - 1) / 2) d := by
  rw [sum_tree_update_loop, if_pos h]

theorem scenario_create (uninit : Nat → Byte) :
    create_sum_tree uninit (fun _ => true) 4 4 = .returned (some
      ({ data := (List.range (4 * 4)).map uninit
         priority_tree := List.replicate (2 * 4 - 1) 0
         capacity := 4, current_index := 0, num_entries := 0, elem_size := 4 } : SumTree ℚ)) :=
  create_sum_tree_ok uninit 4 4 2 (by norm_num) (by norm_num)

theorem scenario_run (uninit : Nat → Byte) :
    run_ops ({ data := (List.range (4 * 4)).map uninit
               priority_tree := List.replicate (2 * 4 - 1) 0
               capacity := 4, current_index := 0, num_entries := 0, elem_size := 4 } : SumTree ℚ)
      scenario_ops = .returned scenario_tree := by
  have hr : List.range (4 * 4) = [0, 1, 2, 3, 4, 5, 6, 7, 8, 9, 10, 11, 12, 13, 14, 15] := by
    decide
  rw [hr]
  norm_num [scenario_ops, run_ops, apply_op, sum_tree_add, sum_tree_update, sumtree_leaf_index,
    sumtree_leaf_base, sumtree_data_ptr, sumtree_tree_size, memcpy, min_size_t,
    update_loop_zero, update_loop_pos, scenario_tree]
  rfl

theorem scenario_update :
    sum_tree_update scenario_tree (sumtree_leaf_index scenario_tree 1) 5
      = .returned scenario_tree_5 := by
  norm_num [sum_tree_update, sumtree_leaf_index, sumtree_leaf_base, sumtree_tree_size,
    update_loop_zero, update_loop_pos, scenario_tree, scenario_tree_5]

/-- C3. Concrete scenario, part 1: on a fresh tree of capacity 4 with 4-byte records, after
`sum_tree_add` of 10, 20, 30, 40 with priority 1 each, the root is 4, `sum_tree_get(0.5)`
resolves to data index 0 and copies out 10, `sum_tree_get(3.9)` resolves to data index 3
and copies out 40, and after `sum_tree_update` of the leaf of data index 1 (tree index 4)
to 5 the root is 8. -/
theorem C3_scenario_part1 (uninit : Nat → Byte) (nextafter : ℚ → ℚ → ℚ) (b0 b1 b2 b3 : Byte) :
    ∃ t0 t t5, create_sum_tree uninit (fun _ => true) 4 4 = .returned (some t0) ∧
      run_ops t0 scenario_ops = .returned t ∧
      t.priority_tree.getD 0 0 = 4 ∧
      sum_tree_get nextafter t (1 / 2) ⟨0, 0, 0⟩ (some [b0, b1, b2, b3])
        = (⟨3, 0, 1⟩, some [10, 0, 0, 0]) ∧
      sum_tree_get nextafter t (39 / 10) ⟨0, 0, 0⟩ (some [b0, b1, b2, b3])
        = (⟨6, 3, 1⟩, some [40, 0, 0, 0]) ∧
      sumtree_leaf_index t 1 = 4 ∧
      sum_tree_update t (sumtree_leaf_index t 1) 5 = .returned t5 ∧
      t5.priority_tree.getD 0 0 = 8 := by
  refine ⟨_, scenario_tree, scenario_tree_5, scenario_create uninit, scenario_run uninit,
    rfl, ?_, ?_, rfl, scenario_update, rfl⟩
  · have e : sum_tree_get_loop ([4, 2, 2, 1, 1, 1, 1] : List ℚ) 3 0 (1 / 2) = (3, 1 / 2) := by
      rw [get_loop_left _ _ _ _ (by norm_num) (by norm_num),
        get_loop_left _ _ _ _ (by norm_num) (by norm_num),
        get_loop_leaf _ _ _ _ (by norm_num)]
    norm_num [sum_tree_get, scenario_tree, sumtree_leaf_base, sumtree_data_ptr, memcpy, e]
  · have e : sum_tree_get_loop ([4, 2, 2, 1, 1, 1, 1] : List ℚ) 3 0 (39 / 10)
        = (6, 39 / 10 - 2 - 1) := by
      rw [get_loop_right _ _ _ _ (by norm_num) (by norm_num),
        get_loop_right _ _ _ _ (by norm_num) (by norm_num),
        get_loop_leaf _ _ _ _ (by norm_num)]
      rfl
    norm_num [sum_tree_get, scenario_tree, sumtree_leaf_base, sumtree_data_ptr, memcpy, e]

theorem scenario_get_5 (nextafter : ℚ → ℚ → ℚ) (out_item : Option (List Byte)) :
    (sum_tree_get nextafter scenario_tree_5 (11 / 2) ⟨0, 0, 0⟩ out_item).1 = ⟨4, 1, 5⟩ := by
  have e : sum_tree_get_loop ([8, 6, 2, 1, 5, 1, 1] : List ℚ) 3 0 (11 / 2)
      = (4, 11 / 2 - 1) := by
    rw [get_loop_left _ _ _ _ (by norm_num) (by norm_num),
      get_loop_right _ _ _ _ (by norm_num) (by norm_num),
      get_loop_leaf _ _ _ _ (by norm_num)]
    rfl
  norm_num [sum_tree_get, scenario_tree_5, scenario_tree, sumtree_leaf_base, e]

theorem scenario_run_5 (uninit : Nat → Byte) :
    run_ops ({ data := (List.range (4 * 4)).map uninit
               priority_tree := List.replicate (2 * 4 - 1) 0
               capacity := 4, current_index := 0, num_entries := 0, elem_size := 4 } : SumTree ℚ)
      (scenario_ops ++ [.update 4 5]) = .returned scenario_tree_5 := by
  have h : ∀ (ops : List (Op ℚ)) (a b : SumTree ℚ) (op : Op ℚ), run_ops a ops = .returned b →
      run_ops a (ops ++ [op]) = apply_op b op := by
    intro ops
    induction ops with
    | nil =>
      intro a b op hab
      simp only [run_ops, Outcome.returned.injEq] at hab
      subst hab
      simp only [List.nil_append, run_ops]
      cases apply_op a op <;> rfl
    | cons o ops ih =>
      intro a b op hab
      simp only [run_ops, List.cons_append] at hab ⊢
      cases hx : apply_op a o with
      | aborted => simp [hx] at hab
      | returned c =>
        simp only [hx] at hab ⊢
        exact ih c b op hab
  rw [h _ _ _ _ (scenario_run uninit)]
  exact scenario_update

/-- C4 (as stated) fails: with leaves 1, 5, 1, 1 the value 5.5 resolves to data index 1,
not to data index 2. -/
theorem C4_counterexample :
    run_ops ({ data := (List.range (4 * 4)).map (fun _ => 0)
               priority_tree := List.replicate (2 * 4 - 1) 0
               capacity := 4, current_index := 0, num_entries := 0, elem_size := 4 } : SumTree ℚ)
      (scenario_ops ++ [.update 4 5]) = .returned scenario_tree_5 ∧
    (sum_tree_get nextafter_q scenario_tree_5 (11 / 2) ⟨0, 0, 0⟩ none).1.d_idx ≠ 2 := by
  refine ⟨scenario_run_5 _, ?_⟩
  rw [scenario_get_5]
  decide

/-- C4 (amended). Concrete scenario, part 2: on the capacity-4 tree holding 10, 20, 30, 40
with priority 1 each, after `sum_tree_update` of the leaf of data index 1 to 5 the leaves
are 1, 5, 1, 1, the root is 8, and `sum_tree_get(5.5)` resolves to data index 1 (tree
index 4, priority 5). -/
theorem C4_scenario_part2 (uninit : Nat → Byte) (nextafter : ℚ → ℚ → ℚ)
    (out_item : Option (List Byte)) :
    ∃ t0 t5, create_sum_tree uninit (fun _ => true) 4 4 = .returned (some t0) ∧
      run_ops t0 (scenario_ops ++ [.update 4 5]) = .returned t5 ∧
      (List.range 4).map (leaf_priority t5) = [1, 5, 1, 1] ∧
      t5.priority_tree.getD 0 0 = 8 ∧
      (sum_tree_get nextafter t5 (11 / 2) ⟨0, 0, 0⟩ out_item).1 = ⟨4, 1, 5⟩ := by
  refine ⟨_, scenario_tree_5, scenario_create uninit, scenario_run_5 uninit, ?_, rfl,
    scenario_get_5 nextafter out_item⟩
  decide

/-! ### C5: the ring buffer, and the round trip in exact arithmetic -/

section Ring

variable {α : Type} [LinearOrderedField α]

theorem memcpy_length (data item : List Byte) (off n : Nat) (h1 : off + n ≤ data.length)
    (h2 : n ≤ item.length) : (memcpy data off item n).length = data.length := by
  simp only [memcpy, List.length_append, List.length_take, List.length_drop]
  omega

theorem memcpy_getElem? (data item : List Byte) (off n j : Nat) (h1 : off + n ≤ data.length)
    (h2 : n ≤ item.length) :
    (memcpy data off item n)[j]?
      = if j < off then data[j]? else if j < off + n then item[j - off]? else data[j]? := by
  have la : (List.take off data).length = off := by rw [List.length_take]; omega
  have lb : (List.take n item).length = n := by rw [List.length_take]; omega
  simp only [memcpy, List.getElem?_append, List.length_append, la, lb, List.getElem?_take,
    List.getElem?_drop]
  by_cases c1 : j < off
  · simp [c1, show j < off + n by omega]
  · by_cases c2 : j < off + n
    · simp [c1, c2, show j - off < n by omega]
    · simp [c1, c2, show off + n + (j - (off + n)) = j by omega]

theorem slot_getElem? (t : SumTree α) (d i : Nat) :
    (slot t d)[i]? = if i < t.elem_size then t.data[d * t.elem_size + i]? else none := by
  simp only [slot, sumtree_data_ptr, List.getElem?_take, List.getElem?_drop]

theorem mod_ne_of_lt (c j n : Nat) (h1 : j < n) (h2 : n < j + c) : j % c ≠ n % c := by
  intro h
  have h3 : (n - j) % c = 0 := Nat.sub_mod_eq_zero_of_mod_eq h.symm
  have h4 : n - j = 0 := Nat.eq_zero_of_dvd_of_lt (Nat.dvd_of_mod_eq_zero h3) (by omega)
  omega

/-- Effect of `sum_tree_add` on the data slots. -/
theorem sum_tree_add_slots (t t1 : SumTree α) (item : List Byte)
    (hcur : t.current_index < t.capacity)
    (hdata : t.data.length = t.capacity * t.elem_size)
    (hitem : item.length = t.elem_size)
    (hes : t1.elem_size = t.elem_size)
    (h1 : t1.data = memcpy t.data (t.current_index * t.elem_size) item t.elem_size) :
    t1.data.length = t.capacity * t.elem_size ∧
    ∀ d, slot t1 d = if d = t.current_index then item else slot t d := by
  have hb : t.current_index * t.elem_size + t.elem_size ≤ t.data.length := by
    rw [hdata]
    calc t.current_index * t.elem_size + t.elem_size = (t.current_index + 1) * t.elem_size := by
          ring
      _ ≤ t.capacity * t.elem_size := Nat.mul_le_mul_right _ (by omega)
  refine ⟨by rw [h1, memcpy_length _ _ _ _ hb (by omega), hdata], ?_⟩
  intro d
  apply List.ext_getElem?
  intro i
  rw [slot_getElem?, hes, h1, memcpy_getElem? _ _ _ _ _ hb (by omega)]
  by_cases c : d = t.current_index
  · subst c
    rw [if_pos rfl]
    by_cases ci : i < t.elem_size
    · rw [if_pos ci, if_neg (by omega), if_pos (by omega)]
      congr 1
      omega
    · rw [if_neg ci, List.getElem?_eq_none (by omega)]
  · rw [if_neg c, slot_getElem?]
    by_cases ci : i < t.elem_size
    · rw [if_pos ci, if_pos ci]
      rcases Nat.lt_or_gt_of_ne c with c1 | c1
      · have : (d + 1) * t.elem_size ≤ t.current_index * t.elem_size :=
          Nat.mul_le_mul_right _ (by omega)
        rw [if_pos (by
          have e : (d + 1) * t.elem_size = d * t.elem_size + t.elem_size := by ring
          omega)]
      · have : (t.current_index + 1) * t.elem_size ≤ d * t.elem_size :=
          Nat.mul_le_mul_right _ (by omega)
        have e : (t.current_index + 1) * t.elem_size
            = t.current_index * t.elem_size + t.elem_size := by ring
        rw [if_neg (by omega), if_neg (by omega)]
    · rw [if_neg ci, if_neg ci]

theorem run_ops_snoc (ops : List (Op α)) (a b : SumTree α) (op : Op α)
    (hab : run_ops a ops = .returned b) : run_ops a (ops ++ [op]) = apply_op b op := by
  induction ops generalizing a with
  | nil =>
    simp only [run_ops, Outcome.returned.injEq] at hab
    subst hab
    simp only [List.nil_append, run_ops]
    cases apply_op a op <;> rfl
  | cons o ops ih =>
    simp only [run_ops, List.cons_append] at hab ⊢
    cases hx : apply_op a o with
    | aborted => simp [hx] at hab
    | returned c =>
      simp only [hx] at hab ⊢
      exact ih c hab

/-- State of the ring buffer after adding the items `xs` to a tree whose cursor is at 0:
the last `capacity` items are in place, item `j` in slot `j mod capacity` with its priority
at the matching leaf, and the counters count. -/
theorem add_all_spec (t0 : SumTree α) (h0 : TreeOk t0) (hi0 : AggInv t0)
    (hd0 : t0.data.length = t0.capacity * t0.elem_size) (hc0 : t0.current_index = 0)
    (hn0 : t0.num_entries = 0)
    (xs : List (List Byte × α)) (hxs : ∀ x ∈ xs, x.1.length = t0.elem_size) :
    ∃ t, run_ops t0 (xs.map (fun x => Op.add x.1 x.2)) = .returned t ∧
      TreeOk t ∧ AggInv t ∧ t.data.length = t.capacity * t.elem_size ∧
      t.capacity = t0.capacity ∧ t.elem_size = t0.elem_size ∧
      t.current_index = xs.length % t0.capacity ∧
      t.num_entries = min xs.length t0.capacity ∧
      (∀ j, j < xs.length → xs.length ≤ j + t0.capacity →
        xs[j]? = some (slot t (j % t0.capacity), leaf_priority t (j % t0.capacity))) ∧
      (∀ d, xs.length ≤ d → leaf_priority t d = leaf_priority t0 d) := by
  induction xs using List.reverseRecOn with
  | nil =>
    refine ⟨t0, rfl, h0, hi0, hd0, rfl, rfl, by simp [hc0], by simp [hn0], ?_, ?_⟩
    · intro j hj; simp at hj
    · intro d _; rfl
  | append_singleton xs x ih =>
    obtain ⟨t, e, h, hi, hd, hcap, hes, hcur, hnum, hslots, hrest⟩ :=
      ih (fun y hy => hxs y (by simp [hy]))
    obtain ⟨t1, e1, h1, hi1, hcap1, hes1, hdata1, hcur1, hnum1, hleaf1⟩ :=
      sum_tree_add_spec t h hi x.1 x.2
    have hx : x.1.length = t.elem_size := by rw [hes]; exact hxs x (by simp)
    obtain ⟨hd1, hslot1⟩ := sum_tree_add_slots t t1 x.1 h.cur_lt hd hx hes1 hdata1
    have hcpos := h.cap_pos
    refine ⟨t1, ?_, h1, hi1, by rw [hd1, hcap1, hes1], hcap1.trans hcap, hes1.trans hes,
      ?_, ?_, ?_, ?_⟩
    · rw [List.map_append, List.map_singleton, run_ops_snoc _ _ _ _ e]
      exact e1
    · rw [hcur1, hcur, hcap, List.length_append, List.length_singleton, Nat.mod_add_mod]
    · rw [hnum1, hnum, hcap, List.length_append, List.length_singleton]
      omega
    · intro j hj hjc
      rw [List.length_append, List.length_singleton] at hj hjc
      rw [hslot1, hleaf1, hcur]
      by_cases c : j = xs.length
      · subst c
        rw [if_pos rfl, if_pos rfl]
        simp
      · have hne := mod_ne_of_lt t0.capacity j xs.length (by omega) (by omega)
        rw [if_neg hne, if_neg hne, List.getElem?_append_left (by omega)]
        exact hslots j (by omega) (by omega)
    · intro d hd'
      rw [List.length_append, List.length_singleton] at hd'
      rw [hleaf1, hcur, ← hrest d (by omega)]
      have hm : xs.length % t0.capacity ≤ xs.length := Nat.mod_le _ _
      rw [if_neg (by omega)]

/-- C5. Insertion order is eviction order: on a tree produced by `create_sum_tree` with a
power-of-two capacity `c`, after `sum_tree_add` of the `c + n` records `x_0 .. x_{c+n-1}`
(`n < c`, each of `elem_size` bytes), data slot `d` holds `x_{c+d}` when `d < n` and `x_d`
when `n <= d < c`. -/
theorem C5_insertion_order (uninit : Nat → Byte) (alloc_ok : Nat → Bool) (c es k : Nat)
    (t0 : SumTree α) (hc : c = 2 ^ k)
    (hcreate : create_sum_tree uninit alloc_ok c es = .returned (some t0))
    (n : Nat) (hn : n < c) (xs : List (List Byte × α)) (hlen : xs.length = c + n)
    (hxs : ∀ x ∈ xs, x.1.length = es) :
    ∃ t, run_ops t0 (xs.map (fun x => Op.add x.1 x.2)) = .returned t ∧
      (∀ d, d < n → xs[c + d]?.map Prod.fst = some (slot t d)) ∧
      (∀ d, n ≤ d → d < c → xs[d]?.map Prod.fst = some (slot t d)) := by
  obtain ⟨_, _, _, rfl⟩ := create_sum_tree_returned uninit alloc_ok c es t0 hcreate
  obtain ⟨t, e, _, _, _, _, _, _, _, hslots, _⟩ := add_all_spec
    ({ data := (List.range (es * c)).map uninit
       priority_tree := List.replicate (2 * c - 1) 0
       capacity := c, current_index := 0, num_entries := 0, elem_size := es } : SumTree α)
    (fresh_treeOk _ c es k hc) (fresh_aggInv _ c es)
    (by simp [Nat.mul_comm]) rfl rfl xs hxs
  simp only at hslots
  refine ⟨t, e, ?_, ?_⟩
  · intro d hd
    have := hslots (c + d) (by omega) (by omega)
    rw [this, Nat.add_mod_left, Nat.mod_eq_of_lt (by omega)]
    rfl
  · intro d hd1 hd2
    have := hslots d (by omega) (by omega)
    rw [this, Nat.mod_eq_of_lt hd2]
    rfl

/-- Witness of C5: capacity 2, one-byte records 1, 2, 3; slot 0 holds 3 and slot 1 holds 2. -/
theorem C5_insertion_order_witness :
    ∃ t, run_ops
        ({ data := (List.range (1 * 2)).map (fun _ => 0)
           priority_tree := List.replicate (2 * 2 - 1) 0
           capacity := 2, current_index := 0, num_entries := 0, elem_size := 1 } : SumTree ℚ)
        ([([1], 1), ([2], 1), ([3], (1 : ℚ))].map (fun x => Op.add x.1 x.2)) = .returned t ∧
      (∀ d, d < 1 →
        [([1], 1), ([2], 1), ([3], (1 : ℚ))][2 + d]?.map Prod.fst = some (slot t d)) ∧
      (∀ d, 1 ≤ d → d < 2 →
        [([1], 1), ([2], 1), ([3], (1 : ℚ))][d]?.map Prod.fst = some (slot t d)) :=
  C5_insertion_order (fun _ => 0) (fun _ => true) 2 1 1 _ (by norm_num)
    (create_sum_tree_ok (fun _ => 0) 2 1 1 (by norm_num) (by norm_num)) 1 (by norm_num)
    [([1], 1), ([2], 1), ([3], 1)] rfl (by simp)

theorem cum_congr (f g : Nat → α) (n : Nat) (h : ∀ x, x < n → f x = g x) :
    cum f n = cum g n := by
  induction n with
  | zero => rw [cum_zero, cum_zero]
  | succ n ih => rw [cum_succ, cum_succ, ih (fun x hx => h x (by omega)), h n (by omega)]

/-- Round trip in exact arithmetic: in a well-formed tree that satisfies the aggregate
invariant and has non-negative leaf priorities, `sum_tree_add(X, P)` with `P > 0` writes slot
`d = current_index`, leaves the priorities before `d` as they were, and every `v` strictly
inside `X`'s interval (`cum(0..d-1) < v < cum(0..d-1) + P`) makes `sum_tree_get` with a
non-null output buffer report `d_idx = d`, `p_idx = capacity-1+d`, `priority = P` and copy
out the bytes of `X` (the bytes of the buffer after the first `elem_size` keep their value). -/
theorem round_trip_exact (nextafter : α → α → α) (t : SumTree α) (ht : TreeOk t) (hinv : AggInv t)
    (hdata : t.data.length = t.capacity * t.elem_size)
    (hnn : ∀ d, d < t.capacity → 0 ≤ leaf_priority t d)
    (X : List Byte) (hX : X.length = t.elem_size) (P : α) (hP : 0 < P) (v : α)
    (hv1 : cum (leaf_priority t) t.current_index < v)
    (hv2 : v < cum (leaf_priority t) t.current_index + P)
    (out : SumTreeSample α) (buf : List Byte) :
    ∃ t1, sum_tree_add t X P = .returned t1 ∧
      slot t1 t.current_index = X ∧
      cum (leaf_priority t1) t.current_index = cum (leaf_priority t) t.current_index ∧
      sum_tree_get nextafter t1 v out (some buf)
        = (⟨t.capacity - 1 + t.current_index, t.current_index, P⟩,
            some (X ++ buf.drop t.elem_size)) := by
  obtain ⟨t1, e1, h1, hi1, hcap1, hes1, hdata1, _, _, hleaf1⟩ := sum_tree_add_spec t ht hinv X P
  obtain ⟨_, hslot1⟩ := sum_tree_add_slots t t1 X ht.cur_lt hdata hX hes1 hdata1
  obtain ⟨k, hk⟩ := h1.pow2
  have hcur := ht.cur_lt
  have hs : slot t1 t.current_index = X := by rw [hslot1, if_pos rfl]
  have hc : cum (leaf_priority t1) t.current_index = cum (leaf_priority t) t.current_index :=
    cum_congr _ _ _ (fun x hx => by rw [hleaf1, if_neg (by omega)])
  have hnn1 : ∀ d, d < t1.capacity → 0 ≤ leaf_priority t1 d := by
    intro d hd
    rw [hleaf1]
    split
    · exact le_of_lt hP
    · exact hnn d (by rw [← hcap1]; exact hd)
  have hsucc : cum (leaf_priority t1) (t.current_index + 1)
      = cum (leaf_priority t) t.current_index + P := by
    rw [cum_succ, hc, hleaf1, if_pos rfl]
  have hroot := root_eq_cum_leaves t1 h1.cap_pos hi1
  have hle := cum_mono (leaf_priority t1) t1.capacity hnn1 (t.current_index + 1) t1.capacity
    (by rw [hcap1]; omega) le_rfl
  refine ⟨t1, e1, hs, hc, ?_⟩
  rw [sum_tree_get_resolves nextafter t1 k hk hi1 hnn1 t.current_index (by rw [hcap1]; exact hcur)
    v (by rw [hsucc]; exact le_of_lt hv2) (Or.inl (by rw [hc]; exact hv1))
    (by rw [hroot]; exact lt_of_lt_of_le (by rw [hsucc]; exact hv2) hle)]
  have hm : memcpy buf 0 (t1.data.drop (t.current_index * t1.elem_size)) t1.elem_size
      = X ++ buf.drop t.elem_size := by
    have : (t1.data.drop (t.current_index * t1.elem_size)).take t1.elem_size = X := hs
    rw [hes1] at this
    simp only [memcpy, List.take_zero, List.nil_append, Nat.zero_add, this, hes1]
  simp only [Option.map_some', hm, hcap1, hleaf1, if_pos]

end Ring

/-! ### C7: creation -/

section Create

variable {α : Type} [LinearOrderedField α]

/-- C7 (amended). With every allocation succeeding, `create_sum_tree(capacity, elem_size)`
fails if and only if `capacity` is 0, `elem_size` is 0, or `capacity` is not a power of two
(for `capacity > 0` the check `(capacity & (capacity-1)) == 0` holds exactly for the powers
of two); the failure is a failed `assert`, which stops the program: no value, not even
`NULL`, is returned to the caller. Otherwise the call returns a tree with `2*capacity-1`
aggregates all equal to 0, `current_index = 0`, `num_entries = 0` and the given `capacity`
and `elem_size`. -/
theorem C7_create_sum_tree (uninit : Nat → Byte) (capacity elem_size : Nat) :
    (create_sum_tree (α := α) uninit (fun _ => true) capacity elem_size = .aborted ↔
      (capacity = 0 ∨ elem_size = 0 ∨ ¬ ∃ k, capacity = 2 ^ k)) ∧
    (capacity = 0 ∨ (capacity &&& (capacity - 1) = 0 ↔ ∃ k, capacity = 2 ^ k)) ∧
    (create_sum_tree (α := α) uninit (fun _ => true) capacity elem_size = .aborted ∨
      create_sum_tree (α := α) uninit (fun _ => true) capacity elem_size = .returned (some
        { data := (List.range (elem_size * capacity)).map uninit
          priority_tree := List.replicate (2 * capacity - 1) 0
          capacity := capacity
          current_index := 0
          num_entries := 0
          elem_size := elem_size })) ∧
    create_sum_tree (α := α) uninit (fun _ => true) capacity elem_size ≠ .returned none := by
  have hbit : 0 < capacity → (capacity &&& (capacity - 1) = 0 ↔ ∃ k, capacity = 2 ^ k) := by
    intro hpos
    constructor
    · exact land_pred_eq_zero capacity hpos
    · rintro ⟨k, rfl⟩
      exact pow2_land k
  refine ⟨?_, ?_, ?_, ?_⟩
  · unfold create_sum_tree
    by_cases h1 : capacity > 0
    · by_cases h2 : elem_size > 0
      · by_cases h3 : capacity &&& (capacity - 1) = 0
        · have := (hbit h1).mp h3
          simp [h1, h2, h3, this]
          omega
        · have : ¬ ∃ k, capacity = 2 ^ k := fun h => h3 ((hbit h1).mpr h)
          simp only [h1, h2, h3, this]
          simp
      · simp only [h1, h2]
        simp
        omega
    · simp only [h1]
      simp
      omega
  · rcases Nat.eq_zero_or_pos capacity with h | h
    · exact Or.inl h
    · exact Or.inr (hbit h)
  · unfold create_sum_tree
    split_ifs <;> simp_all
  · unfold create_sum_tree
    split_ifs <;> simp_all

/-- C7 (as stated) fails: for capacity 0, and for capacity 3 (not a power of two), the call
does not return a failure value to its caller; it stops at a failed `assert`. -/
theorem C7_counterexample :
    create_sum_tree (α := ℚ) (fun _ => 0) (fun _ => true) 0 4 = .aborted ∧
    create_sum_tree (α := ℚ) (fun _ => 0) (fun _ => true) 0 4 ≠ .returned none ∧
    create_sum_tree (α := ℚ) (fun _ => 0) (fun _ => true) 3 4 = .aborted ∧
    create_sum_tree (α := ℚ) (fun _ => 0) (fun _ => true) 3 4 ≠ .returned none := by
  have h0 : create_sum_tree (α := ℚ) (fun _ => 0) (fun _ => true) 0 4 = .aborted := by
    simp [create_sum_tree]
  have h3 : create_sum_tree (α := ℚ) (fun _ => 0) (fun _ => true) 3 4 = .aborted := by
    have : (3 &&& (3 - 1) : Nat) = 2 := by decide
    simp [create_sum_tree, this]
  rw [h0, h3]
  simp

end Create

/-! ### C8: sampling from an empty replay buffer -/

section Sampling

variable {α : Type} [LinearOrderedField α]

theorem create_prioritized_replay_returned (uninit : Nat → Byte) (alloc_per : Bool)
    (alloc_ok : Nat → Bool) (capacity elem_size : Nat) (alpha beta : α) (per : PER α)
    (h : create_prioritized_replay uninit alloc_per alloc_ok capacity elem_size alpha beta
      = .returned (some per)) :
    create_sum_tree uninit alloc_ok capacity elem_size = .returned (some per.tree) ∧
      per.alpha = alpha ∧ per.beta = beta ∧ per.max_priority = 1 := by
  unfold create_prioritized_replay at h
  cases alloc_per with
  | false => simp at h
  | true =>
    cases hc : create_sum_tree (α := α) uninit alloc_ok capacity elem_size with
    | aborted => simp [hc] at h
    | returned r =>
      cases r with
      | none => simp [hc] at h
      | some tree =>
        simp only [hc, Bool.not_eq_true, Bool.true_eq_false, not_false_eq_true, not_true_eq_false,
          if_false, Outcome.returned.injEq, Option.some.injEq] at h
        subst h
        exact ⟨rfl, rfl, rfl, rfl⟩

/-- C8 (amended). On a replay buffer just created by `create_prioritized_replay` (no entry
yet), `sample_from_per` with `batch_size` 1 fails the assertion
`num_entries >= batch_size`: the program stops and no batch is returned. The zero-valued
fallback is what the call returns when the tree holds at least one entry and its total
priority is `<= 0` (the two batch arrays being allocated): a batch of exactly one sample
with priority 0 and importance weight 0, the replay buffer unchanged. -/
theorem C8_degenerate_sampling (pow nextafter : α → α → α) (rand : Nat → α)
    (uninit : Nat → Byte) (alloc_per : Bool) (alloc_ok : Nat → Bool)
    (capacity elem_size : Nat) (alpha beta : α) (per0 : PER α)
    (hcreate : create_prioritized_replay uninit alloc_per alloc_ok capacity elem_size alpha beta
      = .returned (some per0))
    (alloc_items alloc_weights : Bool)
    (per : PER α) (hnum : 1 ≤ per.tree.num_entries)
    (hroot : per.tree.priority_tree.getD 0 0 ≤ 0) :
    per0.tree.num_entries = 0 ∧
    per0.tree.priority_tree = List.replicate (2 * capacity - 1) 0 ∧
    sample_from_per pow nextafter rand alloc_items alloc_weights per0 1 = .aborted ∧
    sample_from_per pow nextafter rand true true per 1
      = .returned (⟨[⟨0, 0, 0⟩], 1, [0]⟩, per) := by
  obtain ⟨ht, _, _, _⟩ := create_prioritized_replay_returned uninit alloc_per alloc_ok capacity
    elem_size alpha beta per0 hcreate
  obtain ⟨_, _, _, ht0⟩ := create_sum_tree_returned uninit alloc_ok capacity elem_size _ ht
  refine ⟨by rw [ht0], by rw [ht0], ?_, ?_⟩
  · unfold sample_from_per
    rw [ht0]
    simp
  · unfold sample_from_per
    have : ¬ ¬ per.tree.num_entries ≥ 1 := not_not.mpr hnum
    simp only [this, if_false, hroot, if_true]
    simp

end Sampling

/-- C8 (as stated) fails: on the replay buffer that `create_prioritized_replay` returns,
`sample_from_per` with `batch_size` 1 stops at the assertion instead of returning a batch. -/
theorem C8_counterexample :
    create_prioritized_replay (fun _ => 0) true (fun _ => true) 2 1 (3 / 5) (2 / 5)
      = .returned (some per_fresh) ∧
    sample_from_per pow_q nextafter_q rand_half true true per_fresh 1 = .aborted := by
  constructor
  · have h := create_sum_tree_ok (α := ℚ) (fun _ => 0) 2 1 1 (by norm_num) (by norm_num)
    simp only [create_prioritized_replay, h]
    rfl
  · simp [sample_from_per, per_fresh]

/-- Witness of C8 (amended): the fresh buffer of capacity 2 and a buffer holding one entry
of priority 0. -/
theorem C8_degenerate_sampling_witness :
    per_fresh.tree.num_entries = 0 ∧
    per_fresh.tree.priority_tree = List.replicate (2 * 2 - 1) 0 ∧
    sample_from_per pow_q nextafter_q rand_half true true per_fresh 1 = .aborted ∧
    sample_from_per pow_q nextafter_q rand_half true true per_zero 1
      = .returned (⟨[⟨0, 0, 0⟩], 1, [0]⟩, per_zero) :=
  C8_degenerate_sampling pow_q nextafter_q rand_half (fun _ => 0) true (fun _ => true) 2 1
    (3 / 5) (2 / 5) per_fresh
    (by
      have h := create_sum_tree_ok (α := ℚ) (fun _ => 0) 2 1 1 (by norm_num) (by norm_num)
      simp only [create_prioritized_replay, h]
      rfl)
    true true per_zero (by decide) (by norm_num [per_zero])

/-! ### C9: importance weights -/

section Weights

variable {α : Type} [LinearOrderedField α]

theorem csp_step_eq (pow : α → α → α) (batch : Batch α) (total : α) (n : Nat) (beta : α)
    (ht : 0 < total) (st : List α × α) (i : Nat) :
    calculate_sampling_priorities_step pow batch total n beta st i
      = (st.1 ++ [importance_weight_raw pow batch total n beta i],
          max st.2 (importance_weight_raw pow batch total n beta i)) := by
  have hm : ∀ p : α, (if p < 1e-12 then (1e-12 : α) else p) = max p 1e-12 := by
    intro p
    by_cases h : p < 1e-12
    · rw [if_pos h, max_eq_right (le_of_lt h)]
    · rw [if_neg h, max_eq_left (not_lt.mp h)]
  have hw : ∀ w m : α, (if w > m then w else m) = max m w := by
    intro w m
    by_cases h : w > m
    · rw [if_pos h, max_eq_right (le_of_lt h)]
    · rw [if_neg h, max_eq_left (not_lt.mp h)]
  unfold calculate_sampling_priorities_step importance_weight_raw
  rw [if_neg (not_le.mpr ht)]
  simp only [hm, hw]

theorem csp_loop (pow : α → α → α) (batch : Batch α) (total : α) (n : Nat) (beta : α)
    (ht : 0 < total) (hpos : ∀ i, 0 < importance_weight_raw pow batch total n beta i)
    (m : Nat) :
    ((List.range m).foldl (calculate_sampling_priorities_step pow batch total n beta)
        ([], 0)).1 = (List.range m).map (importance_weight_raw pow batch total n beta) ∧
    (∀ j, j < m → importance_weight_raw pow batch total n beta j
      ≤ ((List.range m).foldl (calculate_sampling_priorities_step pow batch total n beta)
        ([], 0)).2) ∧
    ((m = 0 ∧ ((List.range m).foldl (calculate_sampling_priorities_step pow batch total n beta)
        ([], 0)).2 = 0) ∨
      ∃ j, j < m ∧ ((List.range m).foldl
        (calculate_sampling_priorities_step pow batch total n beta) ([], 0)).2
          = importance_weight_raw pow batch total n beta j) := by
  induction m with
  | zero => simp
  | succ m ih =>
    obtain ⟨h1, h2, h3⟩ := ih
    rw [List.range_succ, List.foldl_append, List.foldl_cons, List.foldl_nil,
      csp_step_eq _ _ _ _ _ ht]
    refine ⟨by simp [h1], ?_, ?_⟩
    · intro j hj
      rcases Nat.lt_succ_iff_lt_or_eq.mp hj with h | h
      · exact le_trans (h2 j h) (le_max_left _ _)
      · rw [h]; exact le_max_right _ _
    · right
      simp only
      rcases h3 with ⟨_, hz⟩ | ⟨j, hj, he⟩
      · refine ⟨m, by omega, ?_⟩
        rw [hz, max_eq_right (le_of_lt (hpos m))]
      · rcases max_choice ((List.range m).foldl
          (calculate_sampling_priorities_step pow batch total n beta) ([], 0)).2
          (importance_weight_raw pow batch total n beta m) with h | h
        · exact ⟨j, by omega, by rw [h, he]⟩
        · exact ⟨m, by omega, h⟩

/-- Weights written by `calculate_sampling_priorities` on a non-degenerate batch, for any
`pow` that is positive on positive bases. -/
theorem csp_spec (pow : α → α → α) (hpow : ∀ x b, 0 < x → 0 < pow x b)
    (batch : Batch α) (total : α) (n : Nat) (beta : α)
    (hb : 1 ≤ batch.count) (ht : 0 < total) (hn : 1 ≤ n) :
    ∃ M, (∃ j, j < batch.count ∧ M = importance_weight_raw pow batch total n beta j) ∧
      (∀ j, j < batch.count → importance_weight_raw pow batch total n beta j ≤ M) ∧
      calculate_sampling_priorities pow batch total n beta
        = (List.range batch.count).map
            (fun i => importance_weight_raw pow batch total n beta i / M) ∧
      (∀ w ∈ calculate_sampling_priorities pow batch total n beta, 0 < w ∧ w ≤ 1) ∧
      1 ∈ calculate_sampling_priorities pow batch total n beta := by
  have hpos : ∀ i, 0 < importance_weight_raw pow batch total n beta i := by
    intro i
    apply hpow
    have h1 : (0 : α) < (n : α) := by exact_mod_cast hn
    have h2 : (0 : α) < max ((batch.items.getD i ⟨0, 0, 0⟩).priority / total) 1e-12 :=
      lt_of_lt_of_le (by norm_num) (le_max_right _ _)
    positivity
  obtain ⟨h1, h2, h3⟩ := csp_loop pow batch total n beta ht hpos batch.count
  obtain ⟨j, hj, hM⟩ : ∃ j, j < batch.count ∧ ((List.range batch.count).foldl
      (calculate_sampling_priorities_step pow batch total n beta) ([], 0)).2
        = importance_weight_raw pow batch total n beta j := by
    rcases h3 with ⟨h0, _⟩ | h
    · omega
    · exact h
  have hMpos : 0 < ((List.range batch.count).foldl
      (calculate_sampling_priorities_step pow batch total n beta) ([], 0)).2 := by
    rw [hM]; exact hpos j
  have hres : calculate_sampling_priorities pow batch total n beta
      = (List.range batch.count).map (fun i => importance_weight_raw pow batch total n beta i
          / ((List.range batch.count).foldl
            (calculate_sampling_priorities_step pow batch total n beta) ([], 0)).2) := by
    unfold calculate_sampling_priorities
    rw [if_neg (by
      intro h
      rcases h with h | h
      · omega
      · exact absurd ht (not_lt.mpr h))]
    simp only [if_neg (not_le.mpr hMpos), h1, List.map_map]
    rfl
  refine ⟨_, ⟨j, hj, hM⟩, h2, hres, ?_, ?_⟩
  · intro w hw
    rw [hres] at hw
    obtain ⟨i, hi, rfl⟩ := List.mem_map.mp hw
    have hi' : i < batch.count := List.mem_range.mp hi
    exact ⟨div_pos (hpos i) hMpos, (div_le_one hMpos).mpr (h2 i hi')⟩
  · rw [hres]
    refine List.mem_map.mpr ⟨j, List.mem_range.mpr hj, ?_⟩
    rw [hM]
    exact div_self (ne_of_gt (hpos j))

end Weights

/-- C9. Weight normalisation, over the reals with `pow` the real power: for every batch
with at least one sample, every total priority `> 0`, every entry count `>= 1` and every
`beta`, `calculate_sampling_priorities` writes `weight_i / M`, where
`weight_i = (1 / (entry_count * max(priority_i / total, 1e-12)))^beta` and `M` is the largest
of the `weight_i`; every written weight lies in `(0, 1]` and the value 1 is among them, so
their maximum is exactly 1. -/
theorem C9_weight_normalization (batch : Batch ℝ) (total : ℝ) (n : Nat) (beta : ℝ)
    (hb : 1 ≤ batch.count) (ht : 0 < total) (hn : 1 ≤ n) :
    ∃ M, (∃ j, j < batch.count ∧
        M = importance_weight_raw (fun x y => x ^ y) batch total n beta j) ∧
      (∀ j, j < batch.count →
        importance_weight_raw (fun x y => x ^ y) batch total n beta j ≤ M) ∧
      calculate_sampling_priorities (fun x y => x ^ y) batch total n beta
        = (List.range batch.count).map
            (fun i => importance_weight_raw (fun x y => x ^ y) batch total n beta i / M) ∧
      (∀ w ∈ calculate_sampling_priorities (fun x y => x ^ y) batch total n beta,
        0 < w ∧ w ≤ 1) ∧
      1 ∈ calculate_sampling_priorities (fun x y => x ^ y) batch total n beta :=
  csp_spec (fun x y => x ^ y) (fun _ b hx => Real.rpow_pos_of_pos hx b) batch total n beta
    hb ht hn

/-- Witness of C9: a batch of two samples with priorities 1 and 3, total 4, two entries,
`beta = 1/2`. -/
theorem C9_weight_normalization_witness :
    ∃ M, (∃ j, j < 2 ∧
        M = importance_weight_raw (fun x y => x ^ y)
          (⟨[⟨1, 0, 1⟩, ⟨2, 1, 3⟩], 2, []⟩ : Batch ℝ) 4 2 (1 / 2) j) ∧
      (∀ j, j < 2 →
        importance_weight_raw (fun x y => x ^ y)
          (⟨[⟨1, 0, 1⟩, ⟨2, 1, 3⟩], 2, []⟩ : Batch ℝ) 4 2 (1 / 2) j ≤ M) ∧
      calculate_sampling_priorities (fun x y => x ^ y)
          (⟨[⟨1, 0, 1⟩, ⟨2, 1, 3⟩], 2, []⟩ : Batch ℝ) 4 2 (1 / 2)
        = (List.range 2).map
            (fun i => importance_weight_raw (fun x y => x ^ y)
              (⟨[⟨1, 0, 1⟩, ⟨2, 1, 3⟩], 2, []⟩ : Batch ℝ) 4 2 (1 / 2) i / M) ∧
      (∀ w ∈ calculate_sampling_priorities (fun x y => x ^ y)
          (⟨[⟨1, 0, 1⟩, ⟨2, 1, 3⟩], 2, []⟩ : Batch ℝ) 4 2 (1 / 2),
        0 < w ∧ w ≤ 1) ∧
      1 ∈ calculate_sampling_priorities (fun x y => x ^ y)
          (⟨[⟨1, 0, 1⟩, ⟨2, 1, 3⟩], 2, []⟩ : Batch ℝ) 4 2 (1 / 2) :=
  C9_weight_normalization ⟨[⟨1, 0, 1⟩, ⟨2, 1, 3⟩], 2, []⟩ 4 2 (1 / 2) (by norm_num)
    (by norm_num) (by norm_num)

/-! ### C10: annealing of beta -/

section Beta

variable {α : Type} [LinearOrderedField α]

/-- What `sample_from_per` does to the replay buffer when its assertion holds: only `beta`
can change, and it changes exactly when both arrays are allocated and the total is `> 0`. -/
theorem sample_from_per_state (pow nextafter : α → α → α) (rand : Nat → α)
    (alloc_items alloc_weights : Bool) (per : PER α) (n : Nat)
    (hn : n ≤ per.tree.num_entries) :
    ∃ batch, sample_from_per pow nextafter rand alloc_items alloc_weights per n
      = .returned (batch,
          { per with
            beta := if alloc_items = true ∧ alloc_weights = true
                      ∧ 0 < per.tree.priority_tree.getD 0 0
                    then min 1 (per.beta + 1 / 1000) else per.beta }) := by
  unfold sample_from_per
  have h0 : ¬ ¬ per.tree.num_entries ≥ n := not_not.mpr hn
  rw [if_neg h0]
  by_cases ha : alloc_items = true ∧ alloc_weights = true
  · have h1 : ¬ (¬ alloc_items = true ∨ ¬ alloc_weights = true) := by
      rintro (h | h)
      · exact h ha.1
      · exact h ha.2
    rw [if_neg h1]
    by_cases ht : per.tree.priority_tree.getD 0 0 ≤ 0
    · simp only [if_pos ht]
      exact ⟨_, by rw [if_neg (fun h => absurd h.2.2 (not_lt.mpr ht))]⟩
    · simp only [if_neg ht]
      have hinc : (BETA_INC : α) = 1 / 1000 := by norm_num [BETA_INC]
      exact ⟨_, by rw [if_pos ⟨ha.1, ha.2, lt_of_not_ge ht⟩, hinc]⟩
  · have h1 : ¬ alloc_items = true ∨ ¬ alloc_weights = true := by
      by_cases h : alloc_items = true
      · exact Or.inr (fun h2 => ha ⟨h, h2⟩)
      · exact Or.inl h
    rw [if_pos h1]
    exact ⟨_, by rw [if_neg (fun h => ha ⟨h.1, h.2.1⟩)]⟩

theorem sample_calls_beta (pow nextafter : α → α → α) (calls : List (SampleCall α))
    (per : PER α) (hbeta : per.beta ≤ 1)
    (hcalls : ∀ c ∈ calls, c.batch_size ≤ per.tree.num_entries) :
    ∃ per1, sample_calls pow nextafter per calls = .returned per1 ∧
      per.beta ≤ per1.beta ∧ per1.beta ≤ 1 := by
  induction calls generalizing per with
  | nil => exact ⟨per, rfl, le_rfl, hbeta⟩
  | cons c cs ih =>
    obtain ⟨b, hb⟩ := sample_from_per_state pow nextafter c.rand c.alloc_items c.alloc_weights
      per c.batch_size (hcalls c (by simp))
    have hstep : per.beta ≤ (if c.alloc_items = true ∧ c.alloc_weights = true
          ∧ 0 < per.tree.priority_tree.getD 0 0
        then min 1 (per.beta + 1 / 1000) else per.beta) ∧
        (if c.alloc_items = true ∧ c.alloc_weights = true
          ∧ 0 < per.tree.priority_tree.getD 0 0
        then min 1 (per.beta + 1 / 1000) else per.beta) ≤ 1 := by
      split
      · exact ⟨le_min hbeta (by linarith), min_le_left _ _⟩
      · exact ⟨le_rfl, hbeta⟩
    obtain ⟨per1, e1, h1, h2⟩ := ih
      { per with
        beta := if c.alloc_items = true ∧ c.alloc_weights = true
                  ∧ 0 < per.tree.priority_tree.getD 0 0
                then min 1 (per.beta + 1 / 1000) else per.beta }
      hstep.2 (fun c' hc' => hcalls c' (by simp [hc']))
    refine ⟨per1, ?_, le_trans hstep.1 h1, h2⟩
    simp only [sample_calls, hb]
    exact e1

/-- C10 (amended). Beta annealing: for every replay buffer whose `beta` is `<= 1` and every
`batch_size <= num_entries`, `sample_from_per` returns, the new `beta` is `>=` the old one
and `<= 1`; it equals `min(1, beta + 0.001)` when the two batch arrays are allocated and the
total priority is `> 0`, and is unchanged when the total is `<= 0` or an allocation fails.
Hence over any sequence of `sample_from_per` calls `beta` does not decrease and never
exceeds 1. -/
theorem C10_beta_annealing (pow nextafter : α → α → α) (rand : Nat → α)
    (alloc_items alloc_weights : Bool) (per : PER α) (n : Nat)
    (calls : List (SampleCall α))
    (hbeta : per.beta ≤ 1) (hn : n ≤ per.tree.num_entries)
    (hcalls : ∀ c ∈ calls, c.batch_size ≤ per.tree.num_entries) :
    (∃ batch per1,
      sample_from_per pow nextafter rand alloc_items alloc_weights per n
        = .returned (batch, per1) ∧
      per.beta ≤ per1.beta ∧ per1.beta ≤ 1 ∧
      (alloc_items = true ∧ alloc_weights = true ∧ 0 < per.tree.priority_tree.getD 0 0 →
        per1.beta = min 1 (per.beta + 1 / 1000)) ∧
      (per.tree.priority_tree.getD 0 0 ≤ 0 → per1.beta = per.beta) ∧
      (alloc_items = false ∨ alloc_weights = false → per1.beta = per.beta)) ∧
    (∃ per2, sample_calls pow nextafter per calls = .returned per2 ∧
      per.beta ≤ per2.beta ∧ per2.beta ≤ 1) := by
  refine ⟨?_, sample_calls_beta pow nextafter calls per hbeta hcalls⟩
  obtain ⟨b, hb⟩ := sample_from_per_state pow nextafter rand alloc_items alloc_weights per n hn
  refine ⟨b, _, hb, ?_, ?_, ?_, ?_, ?_⟩
  · simp only
    split
    · exact le_min hbeta (by linarith)
    · exact le_rfl
  · simp only
    split
    · exact min_le_left _ _
    · exact hbeta
  · intro h
    simp only [if_pos h]
  · intro h
    simp only
    rw [if_neg (fun h2 => absurd h2.2.2 (not_lt.mpr h))]
  · intro h
    simp only
    rw [if_neg (fun h2 => by
      rcases h with h | h
      · rw [h] at h2; exact absurd h2.1 (by decide)
      · rw [h] at h2; exact absurd h2.2.1 (by decide))]

end Beta

/-- C10 (as stated) fails: with total priority 2 `> 0` and `beta = 0.4`, a call whose
allocation of the items array fails returns the empty batch and leaves `beta` at 0.4, which
is not `min(1, 0.4 + 0.001)`. -/
theorem C10_counterexample :
    0 < per_1_1.tree.priority_tree.getD 0 0 ∧ per_1_1.beta ≤ 1 ∧
    sample_from_per pow_q nextafter_q rand_half false true per_1_1 1
      = .returned (⟨[], 0, []⟩, per_1_1) ∧
    per_1_1.beta ≠ min 1 (per_1_1.beta + 1 / 1000) := by
  refine ⟨by norm_num [per_1_1, tree_1_1], by norm_num [per_1_1], ?_, by norm_num [per_1_1]⟩
  simp [sample_from_per, per_1_1, tree_1_1]

/-- Witness of C10 (amended): the buffer over the tree with leaves `[1, 1]`, a call with
batch size 1 and a sequence of two calls. -/
theorem C10_beta_annealing_witness :
    (∃ batch per1,
      sample_from_per pow_q nextafter_q rand_half true true per_1_1 1
        = .returned (batch, per1) ∧
      per_1_1.beta ≤ per1.beta ∧ per1.beta ≤ 1 ∧
      (true = true ∧ true = true ∧ 0 < per_1_1.tree.priority_tree.getD 0 0 →
        per1.beta = min 1 (per_1_1.beta + 1 / 1000)) ∧
      (per_1_1.tree.priority_tree.getD 0 0 ≤ 0 → per1.beta = per_1_1.beta) ∧
      (true = false ∨ true = false → per1.beta = per_1_1.beta)) ∧
    (∃ per2, sample_calls pow_q nextafter_q per_1_1
        [⟨rand_half, true, true, 1⟩, ⟨rand_half, true, false, 2⟩] = .returned per2 ∧
      per_1_1.beta ≤ per2.beta ∧ per2.beta ≤ 1) :=
  C10_beta_annealing pow_q nextafter_q rand_half true true per_1_1 1
    [⟨rand_half, true, true, 1⟩, ⟨rand_half, true, false, 2⟩]
    (by norm_num [per_1_1]) (by decide) (by simp [per_1_1, tree_1_1])

/-! ### C16, C17: postcondition of an update -/

section UpdatePost

variable {α : Type} [LinearOrderedField α]

theorem ancestors_zero : ancestors 0 = [] := by
  rw [ancestors, if_neg (by omega)]

theorem ancestors_pos (i : Nat) (h : 0 < i) :
    ancestors i = ((i - 1) / 2) :: ancestors ((i - 1) / 2) := by
  rw [ancestors, if_pos h]

theorem ancestors_lt (i a : Nat) (h : a ∈ ancestors i) : a < i := by
  induction i using Nat.strong_induction_on with
  | _ i ih =>
    rcases Nat.eq_zero_or_pos i with h0 | h0
    · subst h0
      rw [ancestors_zero] at h
      simp at h
    · rw [ancestors_pos i h0] at h
      rcases List.mem_cons.mp h with h1 | h1
      · omega
      · have := ih _ (by omega) h1
        omega

theorem zero_mem_ancestors (i : Nat) (h : 0 < i) : 0 ∈ ancestors i := by
  induction i using Nat.strong_induction_on with
  | _ i ih =>
    rw [ancestors_pos i h]
    rcases Nat.eq_zero_or_pos ((i - 1) / 2) with h0 | h0
    · rw [h0]; exact List.mem_cons_self _ _
    · exact List.mem_cons_of_mem _ (ih _ (by omega) h0)

/-- The update loop adds the change to every proper ancestor of the start node, once, and
touches nothing else. -/
theorem update_loop_getD (tree : List α) (idx : Nat) (d : α) (hidx : idx < tree.length)
    (j : Nat) :
    (sum_tree_update_loop tree idx d).getD j 0
      = if j ∈ ancestors idx then tree.getD j 0 + d else tree.getD j 0 := by
  induction idx using Nat.strong_induction_on generalizing tree with
  | _ idx ih =>
    rcases Nat.eq_zero_or_pos idx with h0 | h0
    · subst h0
      rw [update_loop_zero, ancestors_zero, if_neg (List.not_mem_nil _)]
    · rw [update_loop_pos _ _ _ h0, ih _ (by omega) _ (by simp; omega), ancestors_pos idx h0,
        getD_set]
      by_cases hj : j = (idx - 1) / 2
      · subst hj
        have hn : (idx - 1) / 2 ∉ ancestors ((idx - 1) / 2) := fun h =>
          absurd (ancestors_lt _ _ h) (lt_irrefl _)
        rw [if_neg hn, if_pos ⟨rfl, by omega⟩, if_pos (List.mem_cons_self _ _)]
      · have hne : ¬ ((idx - 1) / 2 = j ∧ (idx - 1) / 2 < tree.length) := fun h => hj h.1.symm
        rw [if_neg hne]
        by_cases hm : j ∈ ancestors ((idx - 1) / 2)
        · rw [if_pos hm, if_pos (List.mem_cons_of_mem _ hm)]
        · rw [if_neg hm, if_neg (fun h => by
            rcases List.mem_cons.mp h with h1 | h1
            · exact hj h1
            · exact hm h1)]

/-- Full postcondition of an accepted `sum_tree_update`. -/
theorem sum_tree_update_post (t : SumTree α) (i : Nat) (p : α)
    (hi : i < t.priority_tree.length) (hsz : i < sumtree_tree_size t) :
    sum_tree_update t i p = .returned
        { t with priority_tree := sum_tree_update_loop (t.priority_tree.set i p) i
                  (p - t.priority_tree.getD i 0) } ∧
      ∀ j, (sum_tree_update_loop (t.priority_tree.set i p) i
            (p - t.priority_tree.getD i 0)).getD j 0
        = if j = i then p
          else if j ∈ ancestors i then t.priority_tree.getD j 0 + (p - t.priority_tree.getD i 0)
          else t.priority_tree.getD j 0 := by
  refine ⟨by simp [sum_tree_update, hsz], ?_⟩
  intro j
  rw [update_loop_getD _ _ _ (by simpa using hi), getD_set]
  by_cases hj : j = i
  · subst hj
    have hn : j ∉ ancestors j := fun h => absurd (ancestors_lt _ _ h) (lt_irrefl _)
    rw [if_neg hn, if_pos ⟨rfl, hi⟩, if_pos rfl]
  · have hne : ¬ (i = j ∧ i < t.priority_tree.length) := fun h => hj h.1.symm
    rw [if_neg hne, if_neg hj]

/-- C16. Postcondition of `sum_tree_update(i, p)` on a tree of capacity `c >= 1` whose
aggregate array has `2c-1` entries: the call is rejected exactly when `i > 2c-2`; otherwise,
with `delta = p - tree[i]`, the result has `tree'[i] = p`, `tree'[a] = tree[a] + delta` for
every proper ancestor `a` of `i`, `tree'[j] = tree[j]` for every other node `j`, the same
`data`, `current_index`, `num_entries`, `capacity` and `elem_size`, and a root that has
changed by exactly `delta`. -/
theorem C16_update_postcondition (t : SumTree α) (hc : 0 < t.capacity)
    (hlen : t.priority_tree.length = 2 * t.capacity - 1) (i : Nat) (p : α) :
    (sum_tree_update t i p = .aborted ↔ i > 2 * t.capacity - 2) ∧
    (i > 2 * t.capacity - 2 ∨
      ∃ t1, sum_tree_update t i p = .returned t1 ∧
        t1.priority_tree.getD i 0 = p ∧
        (∀ a ∈ ancestors i, t1.priority_tree.getD a 0
          = t.priority_tree.getD a 0 + (p - t.priority_tree.getD i 0)) ∧
        (∀ j, j ≠ i → j ∉ ancestors i → t1.priority_tree.getD j 0 = t.priority_tree.getD j 0) ∧
        t1.priority_tree.length = t.priority_tree.length ∧
        t1.data = t.data ∧ t1.current_index = t.current_index ∧
        t1.num_entries = t.num_entries ∧ t1.capacity = t.capacity ∧
        t1.elem_size = t.elem_size ∧
        t1.priority_tree.getD 0 0
          = t.priority_tree.getD 0 0 + (p - t.priority_tree.getD i 0)) := by
  by_cases hi : i < 2 * t.capacity - 1
  · obtain ⟨e, hget⟩ := sum_tree_update_post t i p (by rw [hlen]; exact hi) hi
    refine ⟨?_, Or.inr ⟨_, e, ?_, ?_, ?_, ?_, rfl, rfl, rfl, rfl, rfl, ?_⟩⟩
    · rw [e]
      constructor
      · intro h; cases h
      · intro h; omega
    · simp only [hget, if_pos]
    · intro a ha
      have hne : a ≠ i := fun h => by
        rw [h] at ha
        exact absurd (ancestors_lt _ _ ha) (lt_irrefl _)
      simp only [hget, if_neg hne, if_pos ha]
    · intro j hj hja
      simp only [hget, if_neg hj, if_neg hja]
    · simp only [update_loop_length, List.length_set]
    · simp only [hget]
      rcases Nat.eq_zero_or_pos i with h0 | h0
      · subst h0
        rw [if_pos rfl]; ring
      · rw [if_neg (by omega), if_pos (zero_mem_ancestors i h0)]
  · refine ⟨?_, Or.inl (by omega)⟩
    have : sum_tree_update t i p = .aborted := by
      simp [sum_tree_update, sumtree_tree_size, hi]
    rw [this]
    constructor
    · intro _; omega
    · intro _; rfl

/-- C17. An update of an internal node is not flagged: in a tree of capacity `c >= 2` that
satisfies the aggregate invariant, for every internal index `i < c-1` and every `p` different
from `tree[i]`, `sum_tree_update(i, p)` is accepted and node `i` of the result no longer
equals the sum of its two children, so the aggregate invariant is broken. -/
theorem C17_internal_update (t : SumTree α) (hc : 2 ≤ t.capacity)
    (hlen : t.priority_tree.length = 2 * t.capacity - 1) (hinv : AggInv t)
    (i : Nat) (hi : i < t.capacity - 1) (p : α) (hp : p ≠ t.priority_tree.getD i 0) :
    ∃ t1, sum_tree_update t i p = .returned t1 ∧
      t1.priority_tree.getD i 0 = p ∧
      t1.priority_tree.getD (2 * i + 1) 0 = t.priority_tree.getD (2 * i + 1) 0 ∧
      t1.priority_tree.getD (2 * i + 2) 0 = t.priority_tree.getD (2 * i + 2) 0 ∧
      t1.priority_tree.getD i 0
        ≠ t1.priority_tree.getD (2 * i + 1) 0 + t1.priority_tree.getD (2 * i + 2) 0 ∧
      ¬ AggInv t1 := by
  obtain ⟨e, hget⟩ := sum_tree_update_post t i p (by rw [hlen]; omega)
    (by simp only [sumtree_tree_size]; omega)
  have h1 : 2 * i + 1 ∉ ancestors i := fun h => by
    have := ancestors_lt _ _ h
    omega
  have h2 : 2 * i + 2 ∉ ancestors i := fun h => by
    have := ancestors_lt _ _ h
    omega
  have g0 := hget i
  have g1 := hget (2 * i + 1)
  have g2 := hget (2 * i + 2)
  rw [if_pos rfl] at g0
  rw [if_neg (by omega), if_neg h1] at g1
  rw [if_neg (by omega), if_neg h2] at g2
  have hne : p ≠ t.priority_tree.getD (2 * i + 1) 0 + t.priority_tree.getD (2 * i + 2) 0 := by
    rw [← hinv i hi]; exact hp
  refine ⟨_, e, g0, g1, g2, ?_, ?_⟩
  · simp only [g0, g1, g2]
    exact hne
  · intro hbad
    have := hbad i hi
    simp only [g0, g1, g2] at this
    exact hne this

end UpdatePost

theorem tree_1_1_aggInv : AggInv tree_1_1 := by
  intro i hi
  have : i = 0 := by simp [tree_1_1] at hi; omega
  subst this
  norm_num [tree_1_1]

theorem scenario_tree_aggInv : AggInv scenario_tree := by
  intro i hi
  have hi3 : i < 3 := hi
  interval_cases i <;> norm_num [scenario_tree]

/-- Witness of C16: in the tree `[2, 1, 1]` of capacity 2, leaf index 1 is set to 5. -/
theorem C16_update_postcondition_witness :
    (sum_tree_update tree_1_1 1 5 = .aborted ↔ 1 > 2 * tree_1_1.capacity - 2) ∧
    (1 > 2 * tree_1_1.capacity - 2 ∨
      ∃ t1, sum_tree_update tree_1_1 1 5 = .returned t1 ∧
        t1.priority_tree.getD 1 0 = 5 ∧
        (∀ a ∈ ancestors 1, t1.priority_tree.getD a 0
          = tree_1_1.priority_tree.getD a 0 + (5 - tree_1_1.priority_tree.getD 1 0)) ∧
        (∀ j, j ≠ 1 → j ∉ ancestors 1 →
          t1.priority_tree.getD j 0 = tree_1_1.priority_tree.getD j 0) ∧
        t1.priority_tree.length = tree_1_1.priority_tree.length ∧
        t1.data = tree_1_1.data ∧ t1.current_index = tree_1_1.current_index ∧
        t1.num_entries = tree_1_1.num_entries ∧ t1.capacity = tree_1_1.capacity ∧
        t1.elem_size = tree_1_1.elem_size ∧
        t1.priority_tree.getD 0 0
          = tree_1_1.priority_tree.getD 0 0 + (5 - tree_1_1.priority_tree.getD 1 0)) :=
  C16_update_postcondition tree_1_1 (by decide) rfl 1 5

/-- Witness of C17: in the scenario tree `[4, 2, 2, 1, 1, 1, 1]`, internal node 1 is set
to 7. -/
theorem C17_internal_update_witness :
    ∃ t1, sum_tree_update scenario_tree 1 7 = .returned t1 ∧
      t1.priority_tree.getD 1 0 = 7 ∧
      t1.priority_tree.getD (2 * 1 + 1) 0 = scenario_tree.priority_tree.getD (2 * 1 + 1) 0 ∧
      t1.priority_tree.getD (2 * 1 + 2) 0 = scenario_tree.priority_tree.getD (2 * 1 + 2) 0 ∧
      t1.priority_tree.getD 1 0
        ≠ t1.priority_tree.getD (2 * 1 + 1) 0 + t1.priority_tree.getD (2 * 1 + 2) 0 ∧
      ¬ AggInv t1 :=
  C17_internal_update scenario_tree (by decide) rfl scenario_tree_aggInv 1 (by decide) 7
    (by norm_num [scenario_tree])

/-! ### C14: leaves and counters after a run of adds -/

section Counters

variable {α : Type} [LinearOrderedField α]

theorem sum_tree_update_returned (t t1 : SumTree α) (i : Nat) (p : α)
    (h : sum_tree_update t i p = .returned t1) :
    i < sumtree_tree_size t ∧
      t1 = { t with priority_tree := sum_tree_update_loop (t.priority_tree.set i p) i
                      (p - t.priority_tree.getD i 0) } := by
  unfold sum_tree_update at h
  split_ifs at h with h1
  simp only [Outcome.returned.injEq] at h
  exact ⟨h1, h.symm⟩

theorem sum_tree_add_returned (t t1 : SumTree α) (item : List Byte) (p : α)
    (h : sum_tree_add t item p = .returned t1) :
    t1.capacity = t.capacity ∧ t1.elem_size = t.elem_size ∧
      t1.current_index = (t.current_index + 1) % t.capacity ∧
      t1.num_entries = min (t.num_entries + 1) t.capacity ∧
      t1.data = memcpy t.data (sumtree_data_ptr t t.current_index) item t.elem_size ∧
      t1.priority_tree = sum_tree_update_loop
        (t.priority_tree.set (sumtree_leaf_index t t.current_index) p)
        (sumtree_leaf_index t t.current_index)
        (p - t.priority_tree.getD (sumtree_leaf_index t t.current_index) 0) := by
  unfold sum_tree_add at h
  cases hu : sum_tree_update
      { t with data := memcpy t.data (sumtree_data_ptr t t.current_index) item t.elem_size }
      (sumtree_leaf_index t t.current_index) p with
  | aborted => simp [hu] at h
  | returned t2 =>
    obtain ⟨_, rfl⟩ := sum_tree_update_returned _ _ _ _ hu
    simp only [hu, Outcome.returned.injEq] at h
    subst h
    refine ⟨rfl, rfl, rfl, ?_, rfl, rfl⟩
    simp only [min_size_t]
    split <;> omega

theorem sum_tree_add_root (t t1 : SumTree α) (h : TreeOk t) (item : List Byte) (p : α)
    (e : sum_tree_add t item p = .returned t1) :
    t1.priority_tree.getD 0 0
      = t.priority_tree.getD 0 0 + (p - leaf_priority t t.current_index) := by
  obtain ⟨_, _, _, _, _, htree⟩ := sum_tree_add_returned t t1 item p e
  have hc := h.cap_pos
  have hcur := h.cur_lt
  have hidx : sumtree_leaf_index t t.current_index < t.priority_tree.length := by
    rw [h.tree_len]
    simp only [sumtree_leaf_index, sumtree_leaf_base]
    omega
  obtain ⟨_, hget⟩ := sum_tree_update_post t (sumtree_leaf_index t t.current_index) p hidx
    (by simp only [sumtree_tree_size]; rw [← h.tree_len]; exact hidx)
  rw [htree, hget 0]
  simp only [leaf_priority]
  rcases Nat.eq_zero_or_pos (sumtree_leaf_index t t.current_index) with h0 | h0
  · rw [if_pos h0.symm, h0]; ring
  · rw [if_neg (by omega), if_pos (zero_mem_ancestors _ h0)]

theorem window_sum_snoc (c : Nat) (hc : 0 < c) (xs : List (List Byte × α)) (x : List Byte × α) :
    (((xs ++ [x]).drop ((xs ++ [x]).length - c)).map Prod.snd).sum
      = ((xs.drop (xs.length - c)).map Prod.snd).sum + x.2
        - (if h : c ≤ xs.length then (xs[xs.length - c]).2 else 0) := by
  rw [List.length_append, List.length_singleton]
  by_cases h : c ≤ xs.length
  · rw [dif_pos h, show xs.length + 1 - c = (xs.length - c) + 1 by omega,
      List.drop_append_of_le_length (by omega),
      List.drop_eq_getElem_cons (show xs.length - c < xs.length by omega)]
    simp only [List.map_append, List.map_cons, List.map_nil, List.sum_append, List.sum_cons,
      List.sum_nil]
    ring
  · rw [dif_neg h, show xs.length + 1 - c = 0 by omega, show xs.length - c = 0 by omega]
    simp only [List.drop_zero, List.map_append, List.map_cons, List.map_nil, List.sum_append,
      List.sum_cons, List.sum_nil]
    ring

/-- State of the aggregates after adding the items `xs` to a tree whose leaves are all 0 and
whose cursor is at 0: item `j` of the last `capacity` items has its priority at leaf
`j mod capacity`, the other leaves are 0, and the root is the sum of the priorities of the
last `min (length xs) capacity` items. -/
theorem add_all_priorities (t0 : SumTree α) (h0 : TreeOk t0) (hi0 : AggInv t0)
    (hc0 : t0.current_index = 0) (hn0 : t0.num_entries = 0)
    (hz0 : ∀ d, leaf_priority t0 d = 0) (hr0 : t0.priority_tree.getD 0 0 = 0)
    (xs : List (List Byte × α)) :
    ∃ t, run_ops t0 (xs.map (fun x => Op.add x.1 x.2)) = .returned t ∧
      TreeOk t ∧ AggInv t ∧ t.capacity = t0.capacity ∧
      t.current_index = xs.length % t0.capacity ∧
      t.num_entries = min xs.length t0.capacity ∧
      (∀ j, j < xs.length → xs.length ≤ j + t0.capacity →
        xs[j]?.map Prod.snd = some (leaf_priority t (j % t0.capacity))) ∧
      (∀ d, xs.length ≤ d → leaf_priority t d = 0) ∧
      t.priority_tree.getD 0 0 = ((xs.drop (xs.length - t0.capacity)).map Prod.snd).sum := by
  induction xs using List.reverseRecOn with
  | nil =>
    refine ⟨t0, rfl, h0, hi0, rfl, by simp [hc0], by simp [hn0], ?_, ?_, by rw [hr0]; simp⟩
    · intro j hj; simp at hj
    · intro d _; exact hz0 d
  | append_singleton xs x ih =>
    obtain ⟨t, e, h, hi, hcap, hcur, hnum, hleaf, hrest, hroot⟩ := ih
    obtain ⟨t1, e1, h1, hi1, hcap1, _, _, hcur1, hnum1, hleaf1⟩ :=
      sum_tree_add_spec t h hi x.1 x.2
    have hcpos : 0 < t0.capacity := by rw [← hcap]; exact h.cap_pos
    have hr1 := sum_tree_add_root t t1 h x.1 x.2 e1
    refine ⟨t1, ?_, h1, hi1, hcap1.trans hcap, ?_, ?_, ?_, ?_, ?_⟩
    · rw [List.map_append, List.map_singleton, run_ops_snoc _ _ _ _ e]
      exact e1
    · rw [hcur1, hcur, hcap, List.length_append, List.length_singleton, Nat.mod_add_mod]
    · rw [hnum1, hnum, hcap, List.length_append, List.length_singleton]
      omega
    · intro j hj hjc
      rw [List.length_append, List.length_singleton] at hj hjc
      rw [hleaf1, hcur]
      by_cases c : j = xs.length
      · subst c
        rw [if_pos rfl]
        simp
      · have hne := mod_ne_of_lt t0.capacity j xs.length (by omega) (by omega)
        rw [if_neg hne, List.getElem?_append_left (by omega)]
        exact hleaf j (by omega) (by omega)
    · intro d hd
      rw [List.length_append, List.length_singleton] at hd
      have hm : xs.length % t0.capacity ≤ xs.length := Nat.mod_le _ _
      rw [hleaf1, hcur, if_neg (by omega)]
      exact hrest d (by omega)
    · have hold : leaf_priority t (xs.length % t0.capacity)
          = (if h : t0.capacity ≤ xs.length then (xs[xs.length - t0.capacity]).2 else 0) := by
        by_cases hle : t0.capacity ≤ xs.length
        · rw [dif_pos hle]
          have hj := hleaf (xs.length - t0.capacity) (by omega) (by omega)
          rw [List.getElem?_eq_getElem (by omega)] at hj
          simp only [Option.map_some', Option.some.injEq] at hj
          rw [hj, ← Nat.mod_eq_sub_mod hle]
        · rw [dif_neg hle, Nat.mod_eq_of_lt (by omega)]
          exact hrest _ le_rfl
      rw [window_sum_snoc _ hcpos, hr1, hroot, hcur, hold]
      ring

theorem fresh_leaf_zero (data : List Byte) (c es d : Nat) :
    leaf_priority ({ data := data, priority_tree := List.replicate (2 * c - 1) 0, capacity := c,
                     current_index := 0, num_entries := 0, elem_size := es } : SumTree α) d
      = 0 := by
  simp only [leaf_priority, getD_replicate_zero]

theorem apply_op_counters (c : Nat) (hc : 0 < c) (t t1 : SumTree α) (op : Op α)
    (hcap : t.capacity = c) (h1 : t.current_index < c) (h2 : t.num_entries ≤ c)
    (e : apply_op t op = .returned t1) :
    t1.capacity = c ∧ t1.current_index < c ∧ t1.num_entries ≤ c := by
  cases op with
  | add item p =>
    obtain ⟨e1, _, e3, e4, _⟩ := sum_tree_add_returned t t1 item p e
    rw [hcap] at e1 e3 e4
    refine ⟨e1, ?_, ?_⟩
    · rw [e3]; exact Nat.mod_lt _ hc
    · rw [e4]; exact min_le_right _ _
  | update i p =>
    obtain ⟨_, rfl⟩ := sum_tree_update_returned t t1 i p e
    exact ⟨hcap, h1, h2⟩

theorem run_ops_counters (c : Nat) (hc : 0 < c) (ops : List (Op α)) (t t1 : SumTree α)
    (hcap : t.capacity = c) (h1 : t.current_index < c) (h2 : t.num_entries ≤ c)
    (e : run_ops t ops = .returned t1) :
    t1.capacity = c ∧ t1.current_index < c ∧ t1.num_entries ≤ c := by
  induction ops generalizing t with
  | nil =>
    simp only [run_ops, Outcome.returned.injEq] at e
    subst e
    exact ⟨hcap, h1, h2⟩
  | cons op ops ih =>
    simp only [run_ops] at e
    cases hx : apply_op t op with
    | aborted => simp [hx] at e
    | returned t2 =>
      simp only [hx] at e
      obtain ⟨g1, g2, g3⟩ := apply_op_counters c hc t t2 op hcap h1 h2 hx
      exact ih t2 g1 g2 g3 e

/-- C14. Ring counters: after `n` calls of `sum_tree_add` on a tree produced by
`create_sum_tree` with capacity `c`, `current_index = n mod c` and
`num_entries = min(n, c)`; and in every state reached from that tree by calls of
`sum_tree_add` and `sum_tree_update`, `current_index < c` and `num_entries <= c`. -/
theorem C14_ring_counters (uninit : Nat → Byte) (alloc_ok : Nat → Bool) (c es : Nat)
    (t0 : SumTree α)
    (hcreate : create_sum_tree uninit alloc_ok c es = .returned (some t0))
    (xs : List (List Byte × α)) (ops : List (Op α)) (t : SumTree α)
    (hrun : run_ops t0 ops = .returned t) :
    (∃ t1, run_ops t0 (xs.map (fun x => Op.add x.1 x.2)) = .returned t1 ∧
      t1.current_index = xs.length % c ∧ t1.num_entries = min xs.length c) ∧
    t.current_index < c ∧ t.num_entries ≤ c := by
  obtain ⟨hpos, _, hbit, rfl⟩ := create_sum_tree_returned uninit alloc_ok c es t0 hcreate
  obtain ⟨k, hk⟩ := land_pred_eq_zero c hpos hbit
  constructor
  · obtain ⟨t1, e, _, _, _, hcur, hnum, _⟩ := add_all_priorities
      ({ data := (List.range (es * c)).map uninit
         priority_tree := List.replicate (2 * c - 1) 0
         capacity := c, current_index := 0, num_entries := 0, elem_size := es } : SumTree α)
      (fresh_treeOk _ c es k hk) (fresh_aggInv _ c es) rfl rfl
      (fresh_leaf_zero _ c es) (getD_replicate_zero _ _) xs
    exact ⟨t1, e, hcur, hnum⟩
  · exact (run_ops_counters c hpos ops _ t rfl hpos (Nat.zero_le _) hrun).2

/-- Witness of C14: capacity 2; three adds, and a run made of one update of the root. -/
theorem C14_ring_counters_witness :
    (∃ t1, run_ops tree_fresh_2 (adds_123.map (fun x => Op.add x.1 x.2)) = .returned t1 ∧
      t1.current_index = adds_123.length % 2 ∧ t1.num_entries = min adds_123.length 2) ∧
    ({ tree_fresh_2 with priority_tree := [9, 0, 0] } : SumTree ℚ).current_index < 2 ∧
    ({ tree_fresh_2 with priority_tree := [9, 0, 0] } : SumTree ℚ).num_entries ≤ 2 :=
  C14_ring_counters (fun _ => 0) (fun _ => true) 2 1 tree_fresh_2
    (create_sum_tree_ok (fun _ => 0) 2 1 1 (by norm_num) (by norm_num))
    adds_123 [.update 0 9] { tree_fresh_2 with priority_tree := [9, 0, 0] }
    (by
      norm_num [run_ops, apply_op, sum_tree_update, sumtree_tree_size, update_loop_zero,
        tree_fresh_2]
      rfl)

end Counters

/-! ### C15, C18, C19: `sum_tree_get` outside the resolution interval -/

section GetEdges

variable {α : Type} [LinearOrderedField α]

/-- C15. Degenerate tree: when the root aggregate is `<= 0`, `sum_tree_get` returns the
zero-valued sample (`p_idx = 0`, `d_idx = 0`, `priority = 0`) for every segment value; the
only aggregate it reads is the root (no descent) and the output buffer is left as it was
(no record is copied). -/
theorem C15_degenerate_get (nextafter : α → α → α) (t : SumTree α)
    (hroot : t.priority_tree.getD 0 0 ≤ 0) (segment : α) (out : SumTreeSample α)
    (out_item : Option (List Byte)) :
    sum_tree_get nextafter t segment out out_item = (⟨0, 0, 0⟩, out_item) ∧
      sum_tree_get_reads nextafter t segment = [0] := by
  constructor
  · unfold sum_tree_get
    simp only [if_pos hroot]
  · unfold sum_tree_get_reads
    simp only [if_pos hroot]

theorem get_loop_bounds (tree : List α) (lb : Nat) (n idx : Nat) (segment : α)
    (hn : lb - idx ≤ n) (hidx : idx ≤ 2 * lb) :
    lb ≤ (sum_tree_get_loop tree lb idx segment).1 ∧
      (sum_tree_get_loop tree lb idx segment).1 ≤ 2 * lb ∧
      (∀ i ∈ sum_tree_get_loop_reads tree lb idx segment, i < 2 * lb + 1) ∧
      (sum_tree_get_loop_reads tree lb idx segment).length ≤ lb - idx := by
  induction n generalizing idx segment with
  | zero =>
    rw [sum_tree_get_loop, sum_tree_get_loop_reads, if_neg (by omega), if_neg (by omega)]
    exact ⟨by omega, hidx, by simp, by simp⟩
  | succ n ih =>
    by_cases h : idx < lb
    · have e : (idx <<< 1) + 1 = 2 * idx + 1 := by rw [Nat.shiftLeft_eq]; omega
      rw [sum_tree_get_loop, sum_tree_get_loop_reads, if_pos h, if_pos h]
      simp only [e]
      split
      · obtain ⟨h1, h2, h3, h4⟩ := ih (2 * idx + 1) segment (by omega) (by omega)
        refine ⟨h1, h2, ?_, ?_⟩
        · intro i hi
          rcases List.mem_cons.mp hi with hi | hi
          · omega
          · exact h3 i hi
        · simp only [List.length_cons]
          omega
      · obtain ⟨h1, h2, h3, h4⟩ := ih (2 * idx + 1 + 1)
          (segment - tree.getD (2 * idx + 1) 0) (by omega) (by omega)
        refine ⟨h1, h2, ?_, ?_⟩
        · intro i hi
          rcases List.mem_cons.mp hi with hi | hi
          · omega
          · exact h3 i hi
        · simp only [List.length_cons]
          omega
    · rw [sum_tree_get_loop, sum_tree_get_loop_reads, if_neg h, if_neg h]
      exact ⟨by omega, hidx, by simp, by simp⟩

/-- C18. Safety and termination of `sum_tree_get`: on every tree with capacity `c >= 1`, an
aggregate array of `2c-1` entries and a root `> 0`, for every segment value, the call reads
at most `c+1` aggregates (the root, one per iteration of the descent, which makes at most
`c-1` of them, and the resolved node), every index it reads is `< 2c-1`, and the result has
`c-1 <= p_idx <= 2c-2`, `d_idx = p_idx - (c-1) < c` and `priority = priority_tree[p_idx]`,
an entry of the array. -/
theorem C18_get_safety (nextafter : α → α → α) (t : SumTree α) (hc : 1 ≤ t.capacity)
    (hlen : t.priority_tree.length = 2 * t.capacity - 1)
    (hroot : 0 < t.priority_tree.getD 0 0) (segment : α) (out : SumTreeSample α)
    (out_item : Option (List Byte)) :
    (sum_tree_get_reads nextafter t segment).length ≤ t.capacity + 1 ∧
    (∀ i ∈ sum_tree_get_reads nextafter t segment, i < 2 * t.capacity - 1) ∧
    t.capacity - 1 ≤ (sum_tree_get nextafter t segment out out_item).1.p_idx ∧
    (sum_tree_get nextafter t segment out out_item).1.p_idx ≤ 2 * t.capacity - 2 ∧
    (sum_tree_get nextafter t segment out out_item).1.d_idx
      = (sum_tree_get nextafter t segment out out_item).1.p_idx - (t.capacity - 1) ∧
    (sum_tree_get nextafter t segment out out_item).1.d_idx < t.capacity ∧
    t.priority_tree[(sum_tree_get nextafter t segment out out_item).1.p_idx]?
      = some (sum_tree_get nextafter t segment out out_item).1.priority := by
  have hs : ∃ s : α, (sum_tree_get nextafter t segment out out_item).1
        = ⟨(sum_tree_get_loop t.priority_tree (t.capacity - 1) 0 s).1,
            (sum_tree_get_loop t.priority_tree (t.capacity - 1) 0 s).1 - (t.capacity - 1),
            t.priority_tree.getD (sum_tree_get_loop t.priority_tree (t.capacity - 1) 0 s).1 0⟩ ∧
      sum_tree_get_reads nextafter t segment
        = 0 :: (sum_tree_get_loop_reads t.priority_tree (t.capacity - 1) 0 s
            ++ [(sum_tree_get_loop t.priority_tree (t.capacity - 1) 0 s).1]) := by
    refine ⟨if (if segment < 0 then 0 else segment) ≥ t.priority_tree.getD 0 0
      then nextafter (t.priority_tree.getD 0 0) 0 else (if segment < 0 then 0 else segment),
      ?_, ?_⟩
    · unfold sum_tree_get
      simp only [if_neg (not_le.mpr hroot), sumtree_leaf_base]
    · unfold sum_tree_get_reads
      simp only [if_neg (not_le.mpr hroot), sumtree_leaf_base]
  obtain ⟨s, hs1, hs2⟩ := hs
  obtain ⟨h1, h2, h3, h4⟩ := get_loop_bounds t.priority_tree (t.capacity - 1)
    (t.capacity - 1) 0 s (by omega) (by omega)
  rw [hs1, hs2]
  refine ⟨?_, ?_, h1, by simp only; omega, rfl, by simp only; omega, ?_⟩
  · simp only [List.length_cons, List.length_append, List.length_nil]
    omega
  · intro i hi
    rcases List.mem_cons.mp hi with hi | hi
    · omega
    · rcases List.mem_append.mp hi with hi | hi
      · have := h3 i hi
        omega
      · simp only [List.mem_singleton] at hi
        omega
  · simp only
    rw [List.getD_eq_getElem?_getD, List.getElem?_eq_getElem (by rw [hlen]; omega)]
    rfl

/-- C19. Negative clamp: in a tree of power-of-two capacity that satisfies the aggregate
invariant, with non-negative leaf priorities and total `> 0`, every segment value `<= 0`
gives the same result as segment value 0: data index 0, tree index `capacity-1`, and the
priority stored at leaf 0, whatever it is. -/
theorem C19_negative_clamp (nextafter : α → α → α) (t : SumTree α) (k : Nat)
    (hk : t.capacity = 2 ^ k) (hinv : AggInv t)
    (hnn : ∀ d, d < t.capacity → 0 ≤ leaf_priority t d)
    (hroot : 0 < t.priority_tree.getD 0 0) (segment : α) (hseg : segment ≤ 0)
    (out : SumTreeSample α) (out_item : Option (List Byte)) :
    sum_tree_get nextafter t segment out out_item = sum_tree_get nextafter t 0 out out_item ∧
      (sum_tree_get nextafter t segment out out_item).1
        = ⟨t.capacity - 1, 0, leaf_priority t 0⟩ := by
  have hcpos : 0 < t.capacity := by rw [hk]; positivity
  have hclamp : (if segment < 0 then (0 : α) else segment) = 0 := by
    split
    · rfl
    · exact le_antisymm hseg (not_lt.mp (by assumption))
  have h0 : sum_tree_get nextafter t segment out out_item
      = sum_tree_get nextafter t 0 out out_item := by
    unfold sum_tree_get
    simp only [hclamp, lt_irrefl, if_false]
  refine ⟨h0, ?_⟩
  rw [h0, sum_tree_get_resolves nextafter t k hk hinv hnn 0 hcpos 0
    (by rw [cum_succ, cum_zero, zero_add]; exact hnn 0 hcpos) (Or.inr ⟨rfl, le_rfl⟩) hroot]
  simp only [Nat.add_zero]

end GetEdges

theorem tree_0_1_aggInv : AggInv tree_0_1 := by
  intro i hi
  have : i = 0 := by simp [tree_0_1] at hi; omega
  subst this
  norm_num [tree_0_1]

theorem tree_0_1_nonneg : ∀ d, d < tree_0_1.capacity → 0 ≤ leaf_priority tree_0_1 d := by
  intro d hd
  have hd' : d < 2 := hd
  interval_cases d <;>
    norm_num [leaf_priority, tree_0_1, sumtree_leaf_index, sumtree_leaf_base]

/-- Witness of C15: the tree of a buffer whose only entry has priority 0. -/
theorem C15_degenerate_get_witness :
    sum_tree_get nextafter_q per_zero.tree (1 / 2) ⟨5, 5, 5⟩ (some [9])
        = (⟨0, 0, 0⟩, some [9]) ∧
      sum_tree_get_reads nextafter_q per_zero.tree (1 / 2) = [0] :=
  C15_degenerate_get nextafter_q per_zero.tree (by norm_num [per_zero]) (1 / 2) ⟨5, 5, 5⟩
    (some [9])

/-- Witness of C18: the tree with leaves `[1, 1]` and the out-of-range segment value 7. -/
theorem C18_get_safety_witness :
    (sum_tree_get_reads nextafter_q tree_1_1 7).length ≤ tree_1_1.capacity + 1 ∧
    (∀ i ∈ sum_tree_get_reads nextafter_q tree_1_1 7, i < 2 * tree_1_1.capacity - 1) ∧
    tree_1_1.capacity - 1 ≤ (sum_tree_get nextafter_q tree_1_1 7 ⟨0, 0, 0⟩ none).1.p_idx ∧
    (sum_tree_get nextafter_q tree_1_1 7 ⟨0, 0, 0⟩ none).1.p_idx ≤ 2 * tree_1_1.capacity - 2 ∧
    (sum_tree_get nextafter_q tree_1_1 7 ⟨0, 0, 0⟩ none).1.d_idx
      = (sum_tree_get nextafter_q tree_1_1 7 ⟨0, 0, 0⟩ none).1.p_idx
        - (tree_1_1.capacity - 1) ∧
    (sum_tree_get nextafter_q tree_1_1 7 ⟨0, 0, 0⟩ none).1.d_idx < tree_1_1.capacity ∧
    tree_1_1.priority_tree[(sum_tree_get nextafter_q tree_1_1 7 ⟨0, 0, 0⟩ none).1.p_idx]?
      = some (sum_tree_get nextafter_q tree_1_1 7 ⟨0, 0, 0⟩ none).1.priority :=
  C18_get_safety nextafter_q tree_1_1 (by decide) rfl (by norm_num [tree_1_1]) 7 ⟨0, 0, 0⟩ none

/-- Witness of C19: in the tree with leaves `[0, 1]` the segment value -3 resolves to
leaf 0, whose priority is 0. -/
theorem C19_negative_clamp_witness :
    sum_tree_get nextafter_q tree_0_1 (-3) ⟨0, 0, 0⟩ none
        = sum_tree_get nextafter_q tree_0_1 0 ⟨0, 0, 0⟩ none ∧
      (sum_tree_get nextafter_q tree_0_1 (-3) ⟨0, 0, 0⟩ none).1
        = ⟨tree_0_1.capacity - 1, 0, leaf_priority tree_0_1 0⟩ :=
  C19_negative_clamp nextafter_q tree_0_1 1 rfl tree_0_1_aggInv tree_0_1_nonneg
    (by norm_num [tree_0_1]) (-3) (by norm_num) ⟨0, 0, 0⟩ none

/-! ### C11: priority of an error -/

/-- C11. Over the reals with `pow` the real power, `calculate_priority(per, e)` is
`(|e| + 1e-6)^alpha`; for `alpha > 0` it is strictly increasing in `|e|`; and for every
`alpha` and every `e` it is strictly positive. -/
theorem C11_priority_from_error (per per0 : PER ℝ) (e e1 e2 : ℝ) (halpha : 0 < per.alpha)
    (h12 : |e1| < |e2|) :
    calculate_priority (fun x y => x ^ y) per0 e = (|e| + 1e-6) ^ per0.alpha ∧
      calculate_priority (fun x y => x ^ y) per e1
        < calculate_priority (fun x y => x ^ y) per e2 ∧
      0 < calculate_priority (fun x y => x ^ y) per0 e := by
  have hpos : ∀ x : ℝ, 0 < |x| + 1e-6 := fun x =>
    add_pos_of_nonneg_of_pos (abs_nonneg x) (by norm_num)
  refine ⟨rfl, ?_, ?_⟩
  · simp only [calculate_priority, EPS]
    exact Real.rpow_lt_rpow (le_of_lt (hpos e1)) (by linarith) halpha
  · simp only [calculate_priority, EPS]
    exact Real.rpow_pos_of_pos (hpos e) _

/-- Witness of C11: a buffer over the tree `[2, 1, 1]` with `alpha = 0.6` and the errors 0
and -1; the same buffer with `alpha = -2` and the error 3. -/
theorem C11_priority_from_error_witness :
    calculate_priority (fun x y => x ^ y)
        (⟨⟨[0, 0], [2, 1, 1], 2, 0, 2, 1⟩, -2, 2 / 5, 1⟩ : PER ℝ) 3
        = (|3| + 1e-6) ^ (⟨⟨[0, 0], [2, 1, 1], 2, 0, 2, 1⟩, -2, 2 / 5, 1⟩ : PER ℝ).alpha ∧
      calculate_priority (fun x y => x ^ y)
          (⟨⟨[0, 0], [2, 1, 1], 2, 0, 2, 1⟩, 3 / 5, 2 / 5, 1⟩ : PER ℝ) 0
        < calculate_priority (fun x y => x ^ y)
          (⟨⟨[0, 0], [2, 1, 1], 2, 0, 2, 1⟩, 3 / 5, 2 / 5, 1⟩ : PER ℝ) (-1) ∧
      0 < calculate_priority (fun x y => x ^ y)
        (⟨⟨[0, 0], [2, 1, 1], 2, 0, 2, 1⟩, -2, 2 / 5, 1⟩ : PER ℝ) 3 :=
  C11_priority_from_error ⟨⟨[0, 0], [2, 1, 1], 2, 0, 2, 1⟩, 3 / 5, 2 / 5, 1⟩
    ⟨⟨[0, 0], [2, 1, 1], 2, 0, 2, 1⟩, -2, 2 / 5, 1⟩ 3 0 (-1) (by norm_num) (by norm_num)

/-! ### C20: frame of the replay-buffer operations -/

section Frame

variable {α : Type} [LinearOrderedField α]

theorem update_per_priorities_zero (pow : α → α → α) (per : PER α) (errs : List α)
    (idxs : List Nat) : update_per_priorities pow per errs 0 idxs = .returned per := rfl

theorem update_per_priorities_succ (pow : α → α → α) (per : PER α) (errs : List α)
    (idxs : List Nat) (m : Nat) :
    update_per_priorities pow per errs (m + 1) idxs
      = match update_per_priorities pow per errs m idxs with
        | .aborted => .aborted
        | .returned p =>
          match sum_tree_update p.tree (idxs.getD m 0)
              (calculate_priority pow p (errs.getD m 0)) with
          | .aborted => .aborted
          | .returned tree =>
            .returned { p with
              tree := tree
              max_priority := max p.max_priority (calculate_priority pow p (errs.getD m 0)) } := by
  unfold update_per_priorities
  rw [List.range_succ, List.foldl_append]
  rfl

/-- What a returning `update_per_priorities` leaves as it was. -/
theorem update_per_priorities_frame (pow : α → α → α) (per : PER α) (errs : List α)
    (idxs : List Nat) (m : Nat) (per1 : PER α)
    (h : update_per_priorities pow per errs m idxs = .returned per1) :
    per1.alpha = per.alpha ∧ per1.beta = per.beta ∧ per1.tree.data = per.tree.data ∧
      per1.tree.capacity = per.tree.capacity ∧
      per1.tree.current_index = per.tree.current_index ∧
      per1.tree.num_entries = per.tree.num_entries ∧
      per1.tree.elem_size = per.tree.elem_size ∧ per.max_priority ≤ per1.max_priority := by
  induction m generalizing per1 with
  | zero =>
    rw [update_per_priorities_zero] at h
    simp only [Outcome.returned.injEq] at h
    subst h
    exact ⟨rfl, rfl, rfl, rfl, rfl, rfl, rfl, le_rfl⟩
  | succ m ih =>
    rw [update_per_priorities_succ] at h
    cases hp : update_per_priorities pow per errs m idxs with
    | aborted =>
      rw [hp] at h
      cases h
    | returned p =>
      obtain ⟨g1, g2, g3, g4, g5, g6, g7, g8⟩ := ih p hp
      simp only [hp] at h
      cases hu : sum_tree_update p.tree (idxs.getD m 0)
          (calculate_priority pow p (errs.getD m 0)) with
      | aborted =>
        rw [hu] at h
        cases h
      | returned tree =>
        obtain ⟨_, rfl⟩ := sum_tree_update_returned _ _ _ _ hu
        simp only [hu, Outcome.returned.injEq] at h
        subst h
        exact ⟨g1, g2, g3, g4, g5, g6, g7, le_trans g8 (le_max_left _ _)⟩

theorem sample_from_per_returned (pow nextafter : α → α → α) (rand : Nat → α)
    (alloc_items alloc_weights : Bool) (per : PER α) (n : Nat) (r : Batch α × PER α)
    (h : sample_from_per pow nextafter rand alloc_items alloc_weights per n = .returned r) :
    n ≤ per.tree.num_entries ∧
      r.2 = { per with
              beta := if alloc_items = true ∧ alloc_weights = true
                        ∧ 0 < per.tree.priority_tree.getD 0 0
                      then min 1 (per.beta + 1 / 1000) else per.beta } := by
  have hn : n ≤ per.tree.num_entries := by
    by_contra hc
    unfold sample_from_per at h
    have h0 : ¬ per.tree.num_entries ≥ n := hc
    rw [if_pos h0] at h
    cases h
  obtain ⟨b, hb⟩ := sample_from_per_state pow nextafter rand alloc_items alloc_weights per n hn
  rw [hb] at h
  simp only [Outcome.returned.injEq] at h
  subst h
  exact ⟨hn, rfl⟩

theorem add_to_per_returned (per per1 : PER α) (item : List Byte)
    (h : add_to_per per item = .returned per1) :
    ∃ tree, sum_tree_add per.tree item per.max_priority = .returned tree ∧
      per1 = { per with tree := tree } := by
  unfold add_to_per at h
  cases ht : sum_tree_add per.tree item per.max_priority with
  | aborted => simp [ht] at h
  | returned tree =>
    simp only [ht, Outcome.returned.injEq] at h
    exact ⟨tree, rfl, h.symm⟩

/-- C20. Frame of the replay-buffer operations: a returning `sample_from_per` leaves the
whole tree (priority tree, data buffer, `current_index`, `num_entries`), `alpha` and
`max_priority` as they were, so that only `beta` can differ; a returning `add_to_per` and a
returning `update_per_priorities` leave `beta` and `alpha` as they were. -/
theorem C20_frame (pow nextafter : α → α → α) (rand : Nat → α)
    (alloc_items alloc_weights : Bool) (per : PER α) (n : Nat)
    (batch : Batch α) (per1 : PER α)
    (hs : sample_from_per pow nextafter rand alloc_items alloc_weights per n
      = .returned (batch, per1))
    (item : List Byte) (per2 : PER α) (ha : add_to_per per item = .returned per2)
    (td_errors : List α) (count : Nat) (priority_indices : List Nat) (per3 : PER α)
    (hu : update_per_priorities pow per td_errors count priority_indices = .returned per3) :
    per1.tree = per.tree ∧ per1.alpha = per.alpha ∧ per1.max_priority = per.max_priority ∧
      per2.beta = per.beta ∧ per2.alpha = per.alpha ∧
      per3.beta = per.beta ∧ per3.alpha = per.alpha := by
  obtain ⟨_, h1⟩ := sample_from_per_returned pow nextafter rand alloc_items alloc_weights per n
    _ hs
  simp only at h1
  obtain ⟨tree, _, h2⟩ := add_to_per_returned per per2 item ha
  obtain ⟨h3, h4, _⟩ := update_per_priorities_frame pow per td_errors priority_indices count
    per3 hu
  subst h1 h2
  exact ⟨rfl, rfl, rfl, rfl, rfl, h4, h3⟩

end Frame

theorem floor_three_fifths : ⌊(3 / 5 : ℚ)⌋ = 0 := by
  rw [Int.floor_eq_iff]
  norm_num

/-- Witness of C20: the buffer whose only entry has priority 0; a sample of size 1, the
insertion of the record `[8]`, and the error 0 reported for tree index 1. -/
theorem C20_frame_witness :
    (per_zero.tree = per_zero.tree ∧ per_zero.alpha = per_zero.alpha ∧
      per_zero.max_priority = per_zero.max_priority ∧
      per_zero_added.beta = per_zero.beta ∧ per_zero_added.alpha = per_zero.alpha ∧
      per_zero_updated.beta = per_zero.beta ∧ per_zero_updated.alpha = per_zero.alpha) :=
  C20_frame pow_q nextafter_q rand_half true true per_zero 1 ⟨[⟨0, 0, 0⟩], 1, [0]⟩ per_zero
    (by norm_num [sample_from_per, per_zero])
    [8] per_zero_added
    (by
      norm_num [add_to_per, sum_tree_add, sum_tree_update, sumtree_leaf_index,
        sumtree_leaf_base, sumtree_data_ptr, sumtree_tree_size, memcpy, min_size_t,
        update_loop_zero, update_loop_pos, per_zero, per_zero_added])
    [0] 1 [1] per_zero_updated
    (by
      rw [update_per_priorities_succ, update_per_priorities_zero]
      norm_num [calculate_priority, pow_q, EPS, floor_three_fifths, sum_tree_update,
        sumtree_tree_size, update_loop_zero, update_loop_pos, per_zero, per_zero_updated])

/-! ### C12: the running maximum priority -/

section MaxPriority

variable {α : Type} [LinearOrderedField α]

theorem map_range_getD (f : α → α) (errs : List α) :
    (List.range errs.length).map (fun i => f (errs.getD i 0)) = errs.map f := by
  apply List.ext_getElem?
  intro i
  simp only [List.getElem?_map, List.getElem?_range]
  by_cases h : i < errs.length
  · rw [List.getElem?_range h, List.getElem?_eq_getElem h]
    simp only [Option.map_some', List.getD_eq_getElem?_getD, List.getElem?_eq_getElem h,
      Option.getD_some]
  · rw [List.getElem?_eq_none (by simpa using h), List.getElem?_eq_none (by simpa using h)]
    rfl

/-- A run of `update_per_priorities` on leaf indices returns, keeps the invariant, and
leaves in `max_priority` the largest of its old value and the priorities assigned. -/
theorem update_per_priorities_leaf (pow : α → α → α) (c : Nat) (per : PER α)
    (hinv : PerInv c per) (errs : List α) (idxs : List Nat) (m : Nat)
    (hidx : ∀ i, i < m → c - 1 ≤ idxs.getD i 0 ∧ idxs.getD i 0 ≤ 2 * c - 2) :
    ∃ per1, update_per_priorities pow per errs m idxs = .returned per1 ∧ PerInv c per1 ∧
      per1.alpha = per.alpha ∧
      per1.max_priority
        = ((List.range m).map (fun i => calculate_priority pow per (errs.getD i 0))).foldl
            max per.max_priority := by
  induction m with
  | zero => exact ⟨per, rfl, hinv, rfl, rfl⟩
  | succ m ih =>
    obtain ⟨p, hp, ⟨hok, hagg, hcap, hone, hleaf⟩, halpha, hmax⟩ :=
      ih (fun i hi => hidx i (by omega))
    have hcpos := hok.cap_pos
    obtain ⟨hb1, hb2⟩ := hidx m (by omega)
    obtain ⟨tr, e, hl, hi, hget⟩ := sum_tree_update_leaf p.tree hcpos hok.tree_len hagg
      (idxs.getD m 0) (calculate_priority pow p (errs.getD m 0))
      (by rw [hcap]; exact hb1) (by rw [hcap]; omega)
    have hnp : calculate_priority pow p (errs.getD m 0)
        = calculate_priority pow per (errs.getD m 0) := by
      simp only [calculate_priority, halpha]
    refine ⟨{ p with
        tree := { p.tree with priority_tree := tr }
        max_priority := max p.max_priority (calculate_priority pow p (errs.getD m 0)) },
      by rw [update_per_priorities_succ, hp]; simp only [e], ?_, halpha, ?_⟩
    · refine ⟨⟨hok.pow2, hl.trans hok.tree_len, hok.cur_lt⟩, hi, hcap,
        le_trans hone (le_max_left _ _), ?_⟩
      intro d hd
      have := hget (p.tree.capacity - 1 + d) (by omega)
      simp only [leaf_priority, sumtree_leaf_index, sumtree_leaf_base]
      rw [this]
      split
      · exact le_max_right _ _
      · exact le_trans (hleaf d hd) (le_max_left _ _)
    · simp only
      rw [List.range_succ, List.map_append, List.foldl_append, ← hmax, hnp]
      rfl

theorem fresh_perInv (uninit : Nat → Byte) (alloc_per : Bool) (alloc_ok : Nat → Bool)
    (capacity elem_size : Nat) (alpha beta : α) (per0 : PER α)
    (hcreate : create_prioritized_replay uninit alloc_per alloc_ok capacity elem_size alpha beta
      = .returned (some per0)) : PerInv capacity per0 := by
  obtain ⟨ht, _, _, hm⟩ := create_prioritized_replay_returned uninit alloc_per alloc_ok capacity
    elem_size alpha beta per0 hcreate
  obtain ⟨hpos, _, hbit, ht0⟩ := create_sum_tree_returned uninit alloc_ok capacity elem_size _ ht
  obtain ⟨k, hk⟩ := land_pred_eq_zero capacity hpos hbit
  rw [PerInv, ht0, hm]
  refine ⟨fresh_treeOk _ capacity elem_size k hk, fresh_aggInv _ capacity elem_size, rfl,
    le_rfl, ?_⟩
  intro d _
  rw [fresh_leaf_zero]
  exact zero_le_one

theorem apply_per_op_inv (pow nextafter : α → α → α) (c : Nat) (per per1 : PER α)
    (hinv : PerInv c per) (op : PerOp α) (hop : PerOp.onLeaf c op)
    (h : apply_per_op pow nextafter per op = .returned per1) :
    PerInv c per1 ∧ per.max_priority ≤ per1.max_priority := by
  obtain ⟨hok, hagg, hcap, hone, hleaf⟩ := hinv
  cases op with
  | add item =>
    obtain ⟨tree, ht, rfl⟩ := add_to_per_returned per per1 item h
    obtain ⟨t1, e1, h1, hi1, hcap1, _, _, _, _, hleaf1⟩ :=
      sum_tree_add_spec per.tree hok hagg item per.max_priority
    rw [e1] at ht
    simp only [Outcome.returned.injEq] at ht
    subst ht
    refine ⟨⟨h1, hi1, hcap1.trans hcap, hone, ?_⟩, le_rfl⟩
    intro d hd
    simp only
    rw [hleaf1]
    split
    · exact le_rfl
    · exact hleaf d hd
  | sample call =>
    simp only [apply_per_op] at h
    cases hs : sample_from_per pow nextafter call.rand call.alloc_items call.alloc_weights per
        call.batch_size with
    | aborted =>
      rw [hs] at h
      cases h
    | returned r =>
      obtain ⟨_, hr⟩ := sample_from_per_returned pow nextafter call.rand call.alloc_items
        call.alloc_weights per call.batch_size r hs
      rw [hs] at h
      simp only [Outcome.returned.injEq] at h
      rw [← h, hr]
      exact ⟨⟨hok, hagg, hcap, hone, hleaf⟩, le_rfl⟩
  | update errs idxs =>
    obtain ⟨hlen, hall⟩ := hop
    obtain ⟨p, hp, hpinv, _, _⟩ := update_per_priorities_leaf pow c per
      ⟨hok, hagg, hcap, hone, hleaf⟩ errs idxs errs.length (fun i hi => by
        have hi' : i < idxs.length := by rw [hlen]; exact hi
        rw [List.getD_eq_getElem?_getD, List.getElem?_eq_getElem hi', Option.getD_some]
        exact hall _ (List.getElem_mem _))
    simp only [apply_per_op] at h
    rw [hp] at h
    simp only [Outcome.returned.injEq] at h
    subst h
    exact ⟨hpinv, (update_per_priorities_frame pow per errs idxs errs.length p hp).2.2.2.2.2.2.2⟩

theorem run_per_ops_inv (pow nextafter : α → α → α) (c : Nat) (ops : List (PerOp α))
    (per per1 : PER α) (hinv : PerInv c per) (hops : ∀ op ∈ ops, PerOp.onLeaf c op)
    (h : run_per_ops pow nextafter per ops = .returned per1) :
    PerInv c per1 ∧ per.max_priority ≤ per1.max_priority := by
  induction ops generalizing per with
  | nil =>
    simp only [run_per_ops, Outcome.returned.injEq] at h
    subst h
    exact ⟨hinv, le_rfl⟩
  | cons op ops ih =>
    simp only [run_per_ops] at h
    cases hx : apply_per_op pow nextafter per op with
    | aborted =>
      rw [hx] at h
      cases h
    | returned p =>
      rw [hx] at h
      obtain ⟨g1, g2⟩ := apply_per_op_inv pow nextafter c per p hinv op (hops op (by simp)) hx
      obtain ⟨g3, g4⟩ := ih p g1 (fun o ho => hops o (by simp [ho])) h
      exact ⟨g3, le_trans g2 g4⟩

/-- C12. The running maximum: in every state `per` reached from a buffer returned by
`create_prioritized_replay` through `add_to_per`, `sample_from_per` and
`update_per_priorities` on leaf indices, `max_priority >= 1` and every leaf priority of the
tree is `<= max_priority`; no such call makes `max_priority` smaller; and
`update_per_priorities` on leaf indices returns with `max_priority` equal to the largest of
its old value and the priorities assigned in the call. -/
theorem C12_max_priority (pow nextafter : α → α → α) (uninit : Nat → Byte) (alloc_per : Bool)
    (alloc_ok : Nat → Bool) (capacity elem_size : Nat) (alpha beta : α) (per0 : PER α)
    (hcreate : create_prioritized_replay uninit alloc_per alloc_ok capacity elem_size alpha beta
      = .returned (some per0))
    (ops : List (PerOp α)) (hops : ∀ op ∈ ops, PerOp.onLeaf capacity op) (per : PER α)
    (hrun : run_per_ops pow nextafter per0 ops = .returned per)
    (op : PerOp α) (hop : PerOp.onLeaf capacity op) (per1 : PER α)
    (hstep : apply_per_op pow nextafter per op = .returned per1)
    (td_errors : List α) (priority_indices : List Nat)
    (hlen : priority_indices.length = td_errors.length)
    (hidx : ∀ i ∈ priority_indices, capacity - 1 ≤ i ∧ i ≤ 2 * capacity - 2) :
    1 ≤ per.max_priority ∧
    (∀ d, d < capacity →
      per.tree.priority_tree.getD (capacity - 1 + d) 0 ≤ per.max_priority) ∧
    per0.max_priority ≤ per.max_priority ∧
    per.max_priority ≤ per1.max_priority ∧
    ∃ per2, update_per_priorities pow per td_errors td_errors.length priority_indices
        = .returned per2 ∧
      per2.max_priority
        = (td_errors.map (calculate_priority pow per)).foldl max per.max_priority := by
  have h0 := fresh_perInv uninit alloc_per alloc_ok capacity elem_size alpha beta per0 hcreate
  obtain ⟨hinv, hmono⟩ := run_per_ops_inv pow nextafter capacity ops per0 per h0 hops hrun
  obtain ⟨_, hstep'⟩ := apply_per_op_inv pow nextafter capacity per per1 hinv op hop hstep
  obtain ⟨p, hp, _, _, hmax⟩ := update_per_priorities_leaf pow capacity per hinv td_errors
    priority_indices td_errors.length (fun i hi => by
      have hi' : i < priority_indices.length := by rw [hlen]; exact hi
      rw [List.getD_eq_getElem?_getD, List.getElem?_eq_getElem hi', Option.getD_some]
      exact hidx _ (List.getElem_mem _))
  obtain ⟨_, _, hcap, hone, hleaf⟩ := hinv
  refine ⟨hone, ?_, hmono, hstep', p, hp, ?_⟩
  · intro d hd
    have := hleaf d hd
    simpa only [leaf_priority, sumtree_leaf_index, sumtree_leaf_base, hcap] using this
  · rw [hmax, map_range_getD]

end MaxPriority

/-- Witness of C12: the fresh buffer of capacity 2, one insertion to reach a state, a second
insertion as the next call, and the errors 1/2 and -2 reported for tree indices 1 and 2. -/
theorem C12_max_priority_witness :
    1 ≤ per_one.max_priority ∧
    (∀ d, d < 2 → per_one.tree.priority_tree.getD (2 - 1 + d) 0 ≤ per_one.max_priority) ∧
    per_fresh.max_priority ≤ per_one.max_priority ∧
    per_one.max_priority ≤ per_two.max_priority ∧
    ∃ per2, update_per_priorities pow_q per_one [1 / 2, -2] [1 / 2, (-2 : ℚ)].length [1, 2]
        = .returned per2 ∧
      per2.max_priority
        = ([1 / 2, (-2 : ℚ)].map (calculate_priority pow_q per_one)).foldl max
            per_one.max_priority :=
  C12_max_priority pow_q nextafter_q (fun _ => 0) true (fun _ => true) 2 1 (3 / 5) (2 / 5)
    per_fresh
    (by
      have h := create_sum_tree_ok (α := ℚ) (fun _ => 0) 2 1 1 (by norm_num) (by norm_num)
      simp only [create_prioritized_replay, h]
      rfl)
    [.add [7]] (by simp [PerOp.onLeaf]) per_one
    (by
      norm_num [run_per_ops, apply_per_op, add_to_per, sum_tree_add, sum_tree_update,
        sumtree_leaf_index, sumtree_leaf_base, sumtree_data_ptr, sumtree_tree_size, memcpy,
        min_size_t, update_loop_zero, update_loop_pos, per_fresh, per_one])
    (.add [8]) trivial per_two
    (by
      norm_num [apply_per_op, add_to_per, sum_tree_add, sum_tree_update,
        sumtree_leaf_index, sumtree_leaf_base, sumtree_data_ptr, sumtree_tree_size, memcpy,
        min_size_t, update_loop_zero, update_loop_pos, per_one, per_two])
    [1 / 2, -2] [1, 2] rfl (by simp)

/-! ### C21: the interval a value resolves to -/

section Interval

variable {α : Type} [LinearOrderedField α]

theorem exists_interval (f : Nat → α) (n : Nat) (v : α) (hv : 0 < v) (hn : v ≤ cum f n) :
    ∃ i, i < n ∧ cum f i < v ∧ v ≤ cum f (i + 1) := by
  induction n with
  | zero =>
    rw [cum_zero] at hn
    exact absurd hv (not_lt.mpr hn)
  | succ n ih =>
    by_cases h : v ≤ cum f n
    · obtain ⟨i, hi, h1, h2⟩ := ih h
      exact ⟨i, by omega, h1, h2⟩
    · exact ⟨n, by omega, lt_of_not_ge h, hn⟩

/-- The sample that `sum_tree_get` writes when the root is `> 0`, in terms of the descent
started at the root with the clamped segment value. -/
theorem sum_tree_get_fst (nextafter : α → α → α) (t : SumTree α) (x : α)
    (out : SumTreeSample α) (out_item : Option (List Byte))
    (hroot : 0 < t.priority_tree.getD 0 0) :
    (sum_tree_get nextafter t x out out_item).1
      = ⟨(sum_tree_get_loop t.priority_tree (t.capacity - 1) 0
            (if (if x < 0 then 0 else x) ≥ t.priority_tree.getD 0 0
              then nextafter (t.priority_tree.getD 0 0) 0 else (if x < 0 then 0 else x))).1,
          (sum_tree_get_loop t.priority_tree (t.capacity - 1) 0
            (if (if x < 0 then 0 else x) ≥ t.priority_tree.getD 0 0
              then nextafter (t.priority_tree.getD 0 0) 0 else (if x < 0 then 0 else x))).1
            - (t.capacity - 1),
          t.priority_tree.getD (sum_tree_get_loop t.priority_tree (t.capacity - 1) 0
            (if (if x < 0 then 0 else x) ≥ t.priority_tree.getD 0 0
              then nextafter (t.priority_tree.getD 0 0) 0 else (if x < 0 then 0 else x))).1 0⟩ := by
  unfold sum_tree_get
  simp only [if_neg (not_le.mpr hroot), sumtree_leaf_base]

/-- The descent from the root ends at leaf `i` when the segment value is at most
`cum (i+1)` and either above `cum i` or `i = 0` (whatever the sign of the value). -/
theorem get_loop_root (t : SumTree α) (k : Nat) (hk : t.capacity = 2 ^ k) (hinv : AggInv t)
    (hnn : ∀ d, d < t.capacity → 0 ≤ leaf_priority t d) (s : α) (i : Nat)
    (hi : i < t.capacity) (hup : s ≤ cum (leaf_priority t) (i + 1))
    (hdn : cum (leaf_priority t) i < s ∨ i = 0) :
    (sum_tree_get_loop t.priority_tree (t.capacity - 1) 0 s).1 = t.capacity - 1 + i := by
  have := get_loop_spec t k hk hinv hnn k 0 0 s (by omega) (by simp) i (by simp)
    (by rw [← hk]; omega) (by simpa [cum_zero] using hup)
    (by
      rcases hdn with h | h
      · left; simpa [cum_zero] using h
      · right; simpa using h)
  simpa using this

/-- Below the total, `sum_tree_get` returns the leaf `i` with `cum i < x <= cum (i+1)`, and
leaf 0 when `x <= 0`. -/
theorem sum_tree_get_below (nextafter : α → α → α) (t : SumTree α) (k : Nat)
    (hk : t.capacity = 2 ^ k) (hinv : AggInv t)
    (hnn : ∀ d, d < t.capacity → 0 ≤ leaf_priority t d) (x : α)
    (hx : x < t.priority_tree.getD 0 0) (hroot : 0 < t.priority_tree.getD 0 0)
    (out : SumTreeSample α) (out_item : Option (List Byte)) :
    ∃ i, i < t.capacity ∧
      (sum_tree_get nextafter t x out out_item).1 = ⟨t.capacity - 1 + i, i, leaf_priority t i⟩ ∧
      x ≤ cum (leaf_priority t) (i + 1) ∧ (cum (leaf_priority t) i < x ∨ (i = 0 ∧ x ≤ 0)) := by
  have hcpos : 0 < t.capacity := by rw [hk]; positivity
  have hrootc := root_eq_cum_leaves t hcpos hinv
  have hs : ∀ s i, i < t.capacity → s ≤ cum (leaf_priority t) (i + 1) →
      (cum (leaf_priority t) i < s ∨ i = 0) →
      (⟨(sum_tree_get_loop t.priority_tree (t.capacity - 1) 0 s).1,
        (sum_tree_get_loop t.priority_tree (t.capacity - 1) 0 s).1 - (t.capacity - 1),
        t.priority_tree.getD (sum_tree_get_loop t.priority_tree (t.capacity - 1) 0 s).1 0⟩
          : SumTreeSample α) = ⟨t.capacity - 1 + i, i, leaf_priority t i⟩ := by
    intro s i hi h1 h2
    rw [get_loop_root t k hk hinv hnn s i hi h1 h2, Nat.add_sub_cancel_left]
    rfl
  rw [sum_tree_get_fst nextafter t x out out_item hroot]
  by_cases h0 : x ≤ 0
  · have hc : (if x < 0 then (0 : α) else x) = 0 := by
      split
      · rfl
      · exact le_antisymm h0 (not_lt.mp (by assumption))
    have h1 : (0 : α) ≤ cum (leaf_priority t) (0 + 1) := by
      rw [cum_succ, cum_zero, zero_add]; exact hnn 0 hcpos
    refine ⟨0, hcpos, ?_, le_trans h0 h1, Or.inr ⟨rfl, h0⟩⟩
    rw [hc, if_neg (not_le.mpr hroot)]
    exact hs 0 0 hcpos h1 (Or.inr rfl)
  · have hpos : 0 < x := lt_of_not_ge h0
    obtain ⟨i, hi, h1, h2⟩ := exists_interval (leaf_priority t) t.capacity x hpos
      (by rw [← hrootc]; exact le_of_lt hx)
    refine ⟨i, hi, ?_, h2, Or.inl h1⟩
    rw [if_neg (not_lt.mpr (le_of_lt hpos)), if_neg (not_le.mpr hx)]
    exact hs x i hi h2 (Or.inl h1)

/-- At or above the total, `sum_tree_get` returns what it returns for `nextafter(T, 0)`, when
that value is below the total `T`. -/
theorem sum_tree_get_above (nextafter : α → α → α) (t : SumTree α) (k : Nat)
    (hk : t.capacity = 2 ^ k) (hinv : AggInv t)
    (hnn : ∀ d, d < t.capacity → 0 ≤ leaf_priority t d) (x : α)
    (hx : t.priority_tree.getD 0 0 ≤ x) (hroot : 0 < t.priority_tree.getD 0 0)
    (hnext : nextafter (t.priority_tree.getD 0 0) 0 < t.priority_tree.getD 0 0)
    (out : SumTreeSample α) (out_item : Option (List Byte)) :
    (sum_tree_get nextafter t x out out_item).1
      = (sum_tree_get nextafter t (nextafter (t.priority_tree.getD 0 0) 0) out out_item).1 := by
  obtain ⟨i, hi, hres, hup, hdn⟩ := sum_tree_get_below nextafter t k hk hinv hnn
    (nextafter (t.priority_tree.getD 0 0) 0) hnext hroot out out_item
  rw [hres, sum_tree_get_fst nextafter t x out out_item hroot,
    if_neg (not_lt.mpr (le_trans (le_of_lt hroot) hx)), if_pos hx,
    get_loop_root t k hk hinv hnn _ i hi hup (by
      rcases hdn with h | h
      · exact Or.inl h
      · exact Or.inr h.1),
    Nat.add_sub_cancel_left]
  rfl

/-- C21. The interval of the descent: in a tree of power-of-two capacity that satisfies the
aggregate invariant, with non-negative leaf priorities, for every `v` with `0 < v < T`
(`T` the root), `sum_tree_get(v)` returns the one leaf `i` with
`cum(0..i-1) < v <= cum(0..i)`, and that leaf has priority `> 0`; and below `T` the result
is monotone: `v1 <= v2 < T` implies `d_idx(v1) <= d_idx(v2)`. A value `>= T` resolves as
`nextafter(T, 0)` does when that is below `T`, so the monotonicity extends to such a value
and every value `<= nextafter(T, 0)`. -/
theorem C21_resolution_interval (nextafter : α → α → α) (t : SumTree α) (k : Nat)
    (hk : t.capacity = 2 ^ k) (hinv : AggInv t)
    (hnn : ∀ d, d < t.capacity → 0 ≤ leaf_priority t d)
    (v : α) (hv0 : 0 < v) (hvT : v < t.priority_tree.getD 0 0)
    (v1 v2 : α) (h12 : v1 ≤ v2) (h2T : v2 < t.priority_tree.getD 0 0)
    (out : SumTreeSample α) (out_item : Option (List Byte)) :
    (∃ i, i < t.capacity ∧
      cum (leaf_priority t) i < v ∧ v ≤ cum (leaf_priority t) (i + 1) ∧
      (∀ j, j < t.capacity → cum (leaf_priority t) j < v →
        v ≤ cum (leaf_priority t) (j + 1) → j = i) ∧
      (sum_tree_get nextafter t v out out_item).1
        = ⟨t.capacity - 1 + i, i, leaf_priority t i⟩ ∧
      0 < leaf_priority t i) ∧
    (sum_tree_get nextafter t v1 out out_item).1.d_idx
      ≤ (sum_tree_get nextafter t v2 out out_item).1.d_idx ∧
    (∀ v3 v4 : α, nextafter (t.priority_tree.getD 0 0) 0 < t.priority_tree.getD 0 0 →
      v3 ≤ nextafter (t.priority_tree.getD 0 0) 0 → t.priority_tree.getD 0 0 ≤ v4 →
      (sum_tree_get nextafter t v4 out out_item).1
        = (sum_tree_get nextafter t (nextafter (t.priority_tree.getD 0 0) 0) out out_item).1 ∧
      (sum_tree_get nextafter t v3 out out_item).1.d_idx
        ≤ (sum_tree_get nextafter t v4 out out_item).1.d_idx) := by
  have hroot : 0 < t.priority_tree.getD 0 0 := lt_trans hv0 hvT
  have hmono : ∀ a b : α, a ≤ b → b < t.priority_tree.getD 0 0 →
      (sum_tree_get nextafter t a out out_item).1.d_idx
        ≤ (sum_tree_get nextafter t b out out_item).1.d_idx := by
    intro a b hab hb
    obtain ⟨i1, hi1, hres1, hup1, hdn1⟩ := sum_tree_get_below nextafter t k hk hinv hnn a
      (lt_of_le_of_lt hab hb) hroot out out_item
    obtain ⟨i2, hi2, hres2, hup2, hdn2⟩ := sum_tree_get_below nextafter t k hk hinv hnn b
      hb hroot out out_item
    rw [hres1, hres2]
    simp only
    by_contra hcon
    have hlt : i2 < i1 := by omega
    have hm := cum_mono (leaf_priority t) t.capacity hnn (i2 + 1) i1 (by omega) (by omega)
    rcases hdn1 with h | h
    · exact absurd (lt_of_le_of_lt (le_trans (le_trans hab hup2) hm) h) (lt_irrefl _)
    · omega
  refine ⟨?_, hmono v1 v2 h12 h2T, ?_⟩
  · obtain ⟨i, hi, hres, hup, hdn⟩ := sum_tree_get_below nextafter t k hk hinv hnn v hvT hroot
      out out_item
    have hlo : cum (leaf_priority t) i < v := by
      rcases hdn with h | h
      · exact h
      · exact absurd hv0 (not_lt.mpr h.2)
    refine ⟨i, hi, hlo, hup, ?_, hres, ?_⟩
    · intro j hj hj1 hj2
      rcases Nat.lt_trichotomy j i with h | h | h
      · have := cum_mono (leaf_priority t) t.capacity hnn (j + 1) i (by omega) (by omega)
        exact absurd (lt_of_le_of_lt (le_trans hj2 this) hlo) (lt_irrefl _)
      · exact h
      · have := cum_mono (leaf_priority t) t.capacity hnn (i + 1) j (by omega) (by omega)
        exact absurd (lt_of_le_of_lt (le_trans hup this) hj1) (lt_irrefl _)
    · have : cum (leaf_priority t) i < cum (leaf_priority t) (i + 1) := lt_of_lt_of_le hlo hup
      rw [cum_succ] at this
      linarith
  · intro v3 v4 hnext h3 h4
    have habove := sum_tree_get_above nextafter t k hk hinv hnn v4 h4 hroot hnext out out_item
    refine ⟨habove, ?_⟩
    rw [habove]
    exact hmono v3 _ h3 hnext

end Interval

/-- Witness of C21: in the tree with leaves `[0, 1]` the value 1/2 resolves to leaf 1, the
only leaf with a positive priority; -3 and 1/2 resolve to leaves 0 and 1; and 1/2 and 7
resolve to leaf 1 both. -/
theorem C21_resolution_interval_witness :
    (∃ i, i < tree_0_1.capacity ∧
      cum (leaf_priority tree_0_1) i < 1 / 2 ∧ 1 / 2 ≤ cum (leaf_priority tree_0_1) (i + 1) ∧
      (∀ j, j < tree_0_1.capacity → cum (leaf_priority tree_0_1) j < 1 / 2 →
        1 / 2 ≤ cum (leaf_priority tree_0_1) (j + 1) → j = i) ∧
      (sum_tree_get nextafter_q tree_0_1 (1 / 2) ⟨0, 0, 0⟩ none).1
        = ⟨tree_0_1.capacity - 1 + i, i, leaf_priority tree_0_1 i⟩ ∧
      0 < leaf_priority tree_0_1 i) ∧
    (sum_tree_get nextafter_q tree_0_1 (-3) ⟨0, 0, 0⟩ none).1.d_idx
      ≤ (sum_tree_get nextafter_q tree_0_1 (1 / 2) ⟨0, 0, 0⟩ none).1.d_idx ∧
    ((sum_tree_get nextafter_q tree_0_1 7 ⟨0, 0, 0⟩ none).1
        = (sum_tree_get nextafter_q tree_0_1
            (nextafter_q (tree_0_1.priority_tree.getD 0 0) 0) ⟨0, 0, 0⟩ none).1 ∧
      (sum_tree_get nextafter_q tree_0_1 (1 / 2) ⟨0, 0, 0⟩ none).1.d_idx
        ≤ (sum_tree_get nextafter_q tree_0_1 7 ⟨0, 0, 0⟩ none).1.d_idx) :=
  (fun h => ⟨h.1, h.2.1, h.2.2 (1 / 2) 7 (by norm_num [tree_0_1, nextafter_q])
      (by norm_num [tree_0_1, nextafter_q]) (by norm_num [tree_0_1])⟩)
    (C21_resolution_interval nextafter_q tree_0_1 1 rfl tree_0_1_aggInv tree_0_1_nonneg
      (1 / 2) (by norm_num) (by norm_num [tree_0_1]) (-3) (1 / 2) (by norm_num)
      (by norm_num [tree_0_1]) ⟨0, 0, 0⟩ none)

/-! ### C22: a batch holds written slots only -/

section Written

variable {α : Type} [LinearOrderedField α]

theorem cum_eq_zero (f : Nat → α) (n : Nat) (h : ∀ x, x < n → f x = 0) : cum f n = 0 := by
  induction n with
  | zero => exact cum_zero f
  | succ n ih => rw [cum_succ, ih (fun x hx => h x (by omega)), h n (by omega), add_zero]

/-- Whatever the segment value, `sum_tree_get` on a tree with root `> 0` returns leaf 0 or a
leaf with positive priority, as soon as `nextafter(root, 0)` is below the root. -/
theorem sum_tree_get_any (nextafter : α → α → α) (t : SumTree α) (k : Nat)
    (hk : t.capacity = 2 ^ k) (hinv : AggInv t)
    (hnn : ∀ d, d < t.capacity → 0 ≤ leaf_priority t d)
    (hroot : 0 < t.priority_tree.getD 0 0)
    (hnext : nextafter (t.priority_tree.getD 0 0) 0 < t.priority_tree.getD 0 0)
    (x : α) (out : SumTreeSample α) (out_item : Option (List Byte)) :
    ∃ i, i < t.capacity ∧
      (sum_tree_get nextafter t x out out_item).1 = ⟨t.capacity - 1 + i, i, leaf_priority t i⟩ ∧
      (i = 0 ∨ 0 < leaf_priority t i) := by
  have hcpos : 0 < t.capacity := by rw [hk]; positivity
  have hrootc := root_eq_cum_leaves t hcpos hinv
  rw [sum_tree_get_fst nextafter t x out out_item hroot]
  generalize hs : (if (if x < 0 then 0 else x) ≥ t.priority_tree.getD 0 0
      then nextafter (t.priority_tree.getD 0 0) 0 else (if x < 0 then 0 else x)) = s
  have hlt : s < t.priority_tree.getD 0 0 := by
    rw [← hs]
    by_cases hc : (if x < 0 then 0 else x) ≥ t.priority_tree.getD 0 0
    · rw [if_pos hc]; exact hnext
    · rw [if_neg hc]; exact lt_of_not_ge hc
  by_cases h0 : s ≤ 0
  · have h1 : (0 : α) ≤ cum (leaf_priority t) (0 + 1) := by
      rw [cum_succ, cum_zero, zero_add]; exact hnn 0 hcpos
    refine ⟨0, hcpos, ?_, Or.inl rfl⟩
    rw [get_loop_root t k hk hinv hnn s 0 hcpos (le_trans h0 h1) (Or.inr rfl),
      Nat.add_sub_cancel_left]
    rfl
  · have hpos : 0 < s := lt_of_not_ge h0
    obtain ⟨i, hi, h1, h2⟩ := exists_interval (leaf_priority t) t.capacity s hpos
      (by rw [← hrootc]; exact le_of_lt hlt)
    refine ⟨i, hi, ?_, Or.inr ?_⟩
    · rw [get_loop_root t k hk hinv hnn s i hi h2 (Or.inl h1), Nat.add_sub_cancel_left]
      rfl
    · have : cum (leaf_priority t) i < cum (leaf_priority t) (i + 1) := lt_of_lt_of_le h1 h2
      rw [cum_succ] at this
      linarith

/-- The samples of a returned batch, when the total is `> 0`: each is the result of one
`sum_tree_get` call on the tree, and there are `batch_size` of them when both arrays are
allocated. -/
theorem sample_from_per_items (pow nextafter : α → α → α) (rand : Nat → α)
    (alloc_items alloc_weights : Bool) (per : PER α) (n : Nat) (batch : Batch α)
    (per1 : PER α)
    (hs : sample_from_per pow nextafter rand alloc_items alloc_weights per n
      = .returned (batch, per1))
    (htot : 0 < per.tree.priority_tree.getD 0 0) :
    (alloc_items = true → alloc_weights = true → batch.items.length = n) ∧
    ∀ s ∈ batch.items, ∃ x, s = (sum_tree_get nextafter per.tree x ⟨0, 0, 0⟩ none).1 := by
  unfold sample_from_per at hs
  by_cases h1 : ¬ per.tree.num_entries ≥ n
  · rw [if_pos h1] at hs
    cases hs
  · rw [if_neg h1] at hs
    by_cases h2 : ¬ alloc_items = true ∨ ¬ alloc_weights = true
    · rw [if_pos h2] at hs
      simp only [Outcome.returned.injEq, Prod.mk.injEq] at hs
      obtain ⟨rfl, _⟩ := hs
      refine ⟨fun ha hw => ?_, fun s hs' => by simp at hs'⟩
      rcases h2 with h | h
      · exact absurd ha h
      · exact absurd hw h
    · rw [if_neg h2] at hs
      simp only [if_neg (not_le.mpr htot), Outcome.returned.injEq, Prod.mk.injEq] at hs
      obtain ⟨rfl, _⟩ := hs
      refine ⟨fun _ _ => by simp, fun s hs' => ?_⟩
      simp only [List.mem_map, List.mem_range] at hs'
      obtain ⟨i, _, rfl⟩ := hs'
      exact ⟨_, rfl⟩

theorem fresh_writtenInv (uninit : Nat → Byte) (alloc_per : Bool) (alloc_ok : Nat → Bool)
    (capacity elem_size : Nat) (alpha beta : α) (per0 : PER α)
    (hcreate : create_prioritized_replay uninit alloc_per alloc_ok capacity elem_size alpha beta
      = .returned (some per0)) : WrittenInv capacity per0 := by
  have hinv := fresh_perInv uninit alloc_per alloc_ok capacity elem_size alpha beta per0 hcreate
  obtain ⟨ht, _, _, _⟩ := create_prioritized_replay_returned uninit alloc_per alloc_ok capacity
    elem_size alpha beta per0 hcreate
  obtain ⟨_, _, _, ht0⟩ := create_sum_tree_returned uninit alloc_ok capacity elem_size _ ht
  refine ⟨hinv, by rw [ht0]; exact Nat.zero_le _, fun _ => by rw [ht0], ?_⟩
  intro d _
  rw [ht0]
  exact ⟨fun h => absurd h (Nat.not_lt_zero _), fun _ => fresh_leaf_zero _ _ _ _⟩

theorem add_to_per_written (c : Nat) (per per1 : PER α) (item : List Byte)
    (hinv : WrittenInv c per) (h : add_to_per per item = .returned per1) :
    WrittenInv c per1 := by
  obtain ⟨⟨hok, hagg, hcap, hone, hleaf⟩, hnum, hcur, hw⟩ := hinv
  have hpinv : PerInv c per1 :=
    (apply_per_op_inv (fun x _ => x) (fun x _ => x) c per per1 ⟨hok, hagg, hcap, hone, hleaf⟩
      (.add item) trivial h).1
  obtain ⟨tree, ht, rfl⟩ := add_to_per_returned per per1 item h
  obtain ⟨t1, e1, _, _, hcap1, _, _, hcur1, hnum1, hleaf1⟩ :=
    sum_tree_add_spec per.tree hok hagg item per.max_priority
  rw [e1] at ht
  simp only [Outcome.returned.injEq] at ht
  subst ht
  have hci := hok.cur_lt
  have hmaxpos : 0 < per.max_priority := lt_of_lt_of_le zero_lt_one hone
  rw [hcap] at hcur1 hnum1 hci
  refine ⟨hpinv, ?_, ?_, ?_⟩
  · simp only [hnum1]; omega
  · simp only [hnum1, hcur1]
    intro hlt
    have h1 : per.tree.num_entries < c := by omega
    rw [hcur h1, Nat.mod_eq_of_lt (by omega)]
    omega
  · intro d hd
    simp only [hnum1, hleaf1]
    by_cases hfull : per.tree.num_entries < c
    · have hc' := hcur hfull
      constructor
      · intro hlt
        split
        · exact hmaxpos
        · exact (hw d hd).1 (by omega)
      · intro hge
        rw [if_neg (by omega)]
        exact (hw d hd).2 (by omega)
    · constructor
      · intro _
        split
        · exact hmaxpos
        · exact (hw d hd).1 (by omega)
      · intro hge
        omega

theorem calculate_priority_pos (pow : α → α → α) (hpow : ∀ x b, 0 < x → 0 < pow x b)
    (per : PER α) (e : α) : 0 < calculate_priority pow per e := by
  unfold calculate_priority
  apply hpow
  have : (0 : α) < EPS := by norm_num [EPS]
  exact add_pos_of_nonneg_of_pos (abs_nonneg e) this

/-- A run of `update_per_priorities` on leaves of written slots returns and keeps the
invariant of the written slots. -/
theorem update_per_priorities_written (pow : α → α → α) (hpow : ∀ x b, 0 < x → 0 < pow x b)
    (c : Nat) (per : PER α) (hinv : WrittenInv c per) (errs : List α) (idxs : List Nat)
    (m : Nat)
    (hidx : ∀ i, i < m → c - 1 ≤ idxs.getD i 0 ∧ idxs.getD i 0 < c - 1 + per.tree.num_entries) :
    ∃ per1, update_per_priorities pow per errs m idxs = .returned per1 ∧ WrittenInv c per1 := by
  induction m with
  | zero => exact ⟨per, rfl, hinv⟩
  | succ m ih =>
    obtain ⟨p, hp, ⟨hok, hagg, hcap, hone, hleaf⟩, hnum, hcur, hw⟩ :=
      ih (fun i hi => hidx i (by omega))
    obtain ⟨_, _, _, _, _, hfn, _⟩ := update_per_priorities_frame pow per errs idxs m p hp
    have hcpos := hok.cap_pos
    obtain ⟨hb1, hb2⟩ := hidx m (by omega)
    rw [← hfn] at hb2
    obtain ⟨tr, e, _, _, hget⟩ := sum_tree_update_leaf p.tree hcpos hok.tree_len hagg
      (idxs.getD m 0) (calculate_priority pow p (errs.getD m 0))
      (by rw [hcap]; exact hb1) (by rw [hcap]; omega)
    have hrun : update_per_priorities pow per errs (m + 1) idxs = .returned
        { p with
          tree := { p.tree with priority_tree := tr }
          max_priority := max p.max_priority (calculate_priority pow p (errs.getD m 0)) } := by
      rw [update_per_priorities_succ, hp]
      simp only [e]
    obtain ⟨q, hq, hqinv, _⟩ := update_per_priorities_leaf pow c per hinv.1 errs idxs (m + 1)
      (fun i hi => by
        have := hidx i hi
        have := hinv.2.1
        omega)
    rw [hrun] at hq
    simp only [Outcome.returned.injEq] at hq
    refine ⟨_, hrun, by rw [hq]; exact hqinv, hnum, hcur, ?_⟩
    intro d hd
    have hg := hget (p.tree.capacity - 1 + d) (by omega)
    simp only [leaf_priority, sumtree_leaf_index, sumtree_leaf_base] at hg ⊢
    rw [hg]
    constructor
    · intro hlt
      split
      · exact calculate_priority_pos pow hpow p _
      · exact (hw d hd).1 hlt
    · intro hge
      rw [if_neg (by rw [hcap]; omega)]
      exact (hw d hd).2 hge

theorem reachable_writtenInv (pow nextafter : α → α → α) (hpow : ∀ x b, 0 < x → 0 < pow x b)
    (c : Nat) (per0 per : PER α) (h0 : WrittenInv c per0)
    (hreach : Reachable pow nextafter per0 per) : WrittenInv c per := by
  induction hreach with
  | init => exact h0
  | step p p1 op _ hop hstep ih =>
    cases op with
    | add item => exact add_to_per_written c p p1 item ih hstep
    | sample call =>
      simp only [apply_per_op] at hstep
      cases hs : sample_from_per pow nextafter call.rand call.alloc_items call.alloc_weights p
          call.batch_size with
      | aborted =>
        rw [hs] at hstep
        cases hstep
      | returned r =>
        obtain ⟨_, hr⟩ := sample_from_per_returned pow nextafter call.rand call.alloc_items
          call.alloc_weights p call.batch_size r hs
        rw [hs] at hstep
        simp only [Outcome.returned.injEq] at hstep
        rw [← hstep, hr]
        exact ih
    | update errs idxs =>
      obtain ⟨hlen, hall⟩ := hop
      have hcap : p.tree.capacity = c := ih.1.2.2.1
      obtain ⟨q, hq, hqinv⟩ := update_per_priorities_written pow hpow c p ih errs idxs
        errs.length (fun i hi => by
          have hi' : i < idxs.length := by rw [hlen]; exact hi
          rw [List.getD_eq_getElem?_getD, List.getElem?_eq_getElem hi', Option.getD_some]
          have := hall _ (List.getElem_mem hi')
          rw [hcap] at this
          exact this)
      simp only [apply_per_op] at hstep
      rw [hq] at hstep
      simp only [Outcome.returned.injEq] at hstep
      rw [← hstep]
      exact hqinv

/-- C22. A batch holds written slots only. Let `pow` be positive on positive bases and
`nextafter(T, 0) < T` for `T > 0`. In every state reached from a buffer returned by
`create_prioritized_replay` through `add_to_per`, `sample_from_per` and
`update_per_priorities` on leaves of written slots, leaf `d` has priority `> 0` when
`d < num_entries` and priority 0 otherwise; and every sample of a batch returned by
`sample_from_per` when the total is `> 0`, whatever the random draws, has
`d_idx < num_entries` and `priority > 0` (the batch has `batch_size` samples when its two
arrays are allocated). -/
theorem C22_written_slots (pow nextafter : α → α → α)
    (hpow : ∀ x b, 0 < x → 0 < pow x b) (hnext : ∀ T, 0 < T → nextafter T 0 < T)
    (uninit : Nat → Byte) (alloc_per : Bool) (alloc_ok : Nat → Bool)
    (capacity elem_size : Nat) (alpha beta : α) (per0 : PER α)
    (hcreate : create_prioritized_replay uninit alloc_per alloc_ok capacity elem_size alpha beta
      = .returned (some per0))
    (per : PER α) (hreach : Reachable pow nextafter per0 per) :
    (∀ d, d < capacity →
      (d < per.tree.num_entries → 0 < per.tree.priority_tree.getD (capacity - 1 + d) 0) ∧
      (per.tree.num_entries ≤ d → per.tree.priority_tree.getD (capacity - 1 + d) 0 = 0)) ∧
    (∀ (rand : Nat → α) (alloc_items alloc_weights : Bool) (n : Nat) (batch : Batch α)
        (per1 : PER α),
      sample_from_per pow nextafter rand alloc_items alloc_weights per n
          = .returned (batch, per1) →
      0 < per.tree.priority_tree.getD 0 0 →
      (alloc_items = true → alloc_weights = true → batch.items.length = n) ∧
      ∀ s ∈ batch.items, s.d_idx < per.tree.num_entries ∧ 0 < s.priority) := by
  have h0 := fresh_writtenInv uninit alloc_per alloc_ok capacity elem_size alpha beta per0
    hcreate
  obtain ⟨⟨hok, hagg, hcap, _, _⟩, hnum, _, hw⟩ :=
    reachable_writtenInv pow nextafter hpow capacity per0 per h0 hreach
  have hl : ∀ d, leaf_priority per.tree d = per.tree.priority_tree.getD (capacity - 1 + d) 0 := by
    intro d
    simp only [leaf_priority, sumtree_leaf_index, sumtree_leaf_base, hcap]
  constructor
  · intro d hd
    rw [← hl]
    exact hw d hd
  · intro rand alloc_items alloc_weights n batch per1 hs htot
    obtain ⟨hlen, hitems⟩ := sample_from_per_items pow nextafter rand alloc_items alloc_weights
      per n batch per1 hs htot
    refine ⟨hlen, ?_⟩
    intro s hs'
    obtain ⟨x, rfl⟩ := hitems s hs'
    obtain ⟨k, hk⟩ := hok.pow2
    have hcpos := hok.cap_pos
    have hnn : ∀ d, d < per.tree.capacity → 0 ≤ leaf_priority per.tree d := by
      intro d hd
      rw [hcap] at hd
      rcases Nat.lt_or_ge d per.tree.num_entries with h | h
      · exact le_of_lt ((hw d hd).1 h)
      · exact le_of_eq ((hw d hd).2 h).symm
    have hpos : 0 < per.tree.num_entries := by
      by_contra hz
      have hz' : per.tree.num_entries = 0 := by omega
      have := root_eq_cum_leaves per.tree hcpos hagg
      rw [cum_eq_zero _ _ (fun d hd => (hw d (by rw [← hcap]; exact hd)).2 (by omega))] at this
      exact absurd htot (by rw [this]; exact lt_irrefl _)
    obtain ⟨i, hi, hres, hor⟩ := sum_tree_get_any nextafter per.tree k hk hagg hnn htot
      (hnext _ htot) x ⟨0, 0, 0⟩ none
    rw [hcap] at hi hcpos
    rw [hres]
    simp only
    rcases hor with h | h
    · subst h
      exact ⟨hpos, (hw 0 hcpos).1 hpos⟩
    · refine ⟨?_, h⟩
      by_contra hge
      have := (hw i hi).2 (by omega)
      rw [this] at h
      exact lt_irrefl _ h

end Written

theorem pow_q_pos : ∀ x b : ℚ, 0 < x → 0 < pow_q x b := by
  intro x b hx
  exact pow_pos hx _

theorem nextafter_q_lt : ∀ T : ℚ, 0 < T → nextafter_q T 0 < T := by
  intro T hT
  unfold nextafter_q
  have : 0 < (T - 0) / 2 ^ 53 := by
    rw [sub_zero]
    exact div_pos hT (by norm_num)
  linarith

theorem per_two_reachable : Reachable pow_q nextafter_q per_fresh per_two :=
  Reachable.step per_one per_two (.add [8])
    (Reachable.step per_fresh per_one (.add [7]) Reachable.init trivial
      (by
        norm_num [apply_per_op, add_to_per, sum_tree_add, sum_tree_update,
          sumtree_leaf_index, sumtree_leaf_base, sumtree_data_ptr, sumtree_tree_size, memcpy,
          min_size_t, update_loop_zero, update_loop_pos, per_fresh, per_one]))
    trivial
    (by
      norm_num [apply_per_op, add_to_per, sum_tree_add, sum_tree_update,
        sumtree_leaf_index, sumtree_leaf_base, sumtree_data_ptr, sumtree_tree_size, memcpy,
        min_size_t, update_loop_zero, update_loop_pos, per_one, per_two])

theorem floor_beta_next : ⌊(401 / 1000 : ℚ)⌋ = 0 := by
  rw [Int.floor_eq_iff]
  norm_num

theorem per_two_sample :
    sample_from_per pow_q nextafter_q rand_half true true per_two 1
      = .returned (⟨[⟨1, 0, 1⟩], 1, [1]⟩, per_two_sampled) := by
  have e : sum_tree_get_loop ([2, 1, 1] : List ℚ) 1 0 1 = (1, 1) := by
    rw [get_loop_left _ _ _ _ (by norm_num) (by norm_num),
      get_loop_leaf _ _ _ _ (by norm_num)]
  have hr : List.range 1 = [0] := rfl
  norm_num [hr, sample_from_per, per_two, per_two_sampled, BETA_INC, rand_double_range,
    rand_half, sum_tree_get, sumtree_leaf_base, e, calculate_sampling_priorities,
    calculate_sampling_priorities_step, pow_q, floor_beta_next]
  rfl

/-- Witness of C22: the buffer of capacity 2 after two insertions, and a batch of one sample
drawn from it. -/
theorem C22_written_slots_witness :
    (∀ d, d < 2 →
      (d < per_two.tree.num_entries → 0 < per_two.tree.priority_tree.getD (2 - 1 + d) 0) ∧
      (per_two.tree.num_entries ≤ d → per_two.tree.priority_tree.getD (2 - 1 + d) 0 = 0)) ∧
    ((true = true → true = true → (⟨[⟨1, 0, 1⟩], 1, [1]⟩ : Batch ℚ).items.length = 1) ∧
      ∀ s ∈ (⟨[⟨1, 0, 1⟩], 1, [1]⟩ : Batch ℚ).items,
        s.d_idx < per_two.tree.num_entries ∧ 0 < s.priority) :=
  (fun h => ⟨h.1, h.2 rand_half true true 1 ⟨[⟨1, 0, 1⟩], 1, [1]⟩ per_two_sampled
      per_two_sample (by norm_num [per_two])⟩)
    (C22_written_slots pow_q nextafter_q pow_q_pos nextafter_q_lt (fun _ => 0) true
      (fun _ => true) 2 1 (3 / 5) (2 / 5) per_fresh
      (by
        have h := create_sum_tree_ok (α := ℚ) (fun _ => 0) 2 1 1 (by norm_num) (by norm_num)
        simp only [create_prioritized_replay, h]
        rfl)
      per_two per_two_reachable)
/-! ### C6, C13: the round trip and the root under rounded `double` arithmetic -/

section Rounding

variable {α : Type} [LinearOrderedField α]

theorem update_loop_fp_exact (rnd : α → α) (hexact : ∀ x, rnd x = x) (tree : List α)
    (idx : Nat) (d : α) :
    sum_tree_update_loop_fp rnd tree idx d = sum_tree_update_loop tree idx d := by
  induction idx using Nat.strong_induction_on generalizing tree with
  | _ idx ih =>
    rw [sum_tree_update_loop_fp, sum_tree_update_loop]
    split
    · rw [ih _ (by omega), hexact]
    · rfl

theorem sum_tree_update_fp_exact (rnd : α → α) (hexact : ∀ x, rnd x = x) (t : SumTree α)
    (idx : Nat) (p : α) : sum_tree_update_fp rnd t idx p = sum_tree_update t idx p := by
  simp only [sum_tree_update_fp, sum_tree_update, update_loop_fp_exact rnd hexact, hexact]

theorem sum_tree_add_fp_exact (rnd : α → α) (hexact : ∀ x, rnd x = x) (t : SumTree α)
    (item : List Byte) (p : α) : sum_tree_add_fp rnd t item p = sum_tree_add t item p := by
  simp only [sum_tree_add_fp, sum_tree_add, sum_tree_update_fp_exact rnd hexact]

theorem get_loop_fp_exact (rnd : α → α) (hexact : ∀ x, rnd x = x) (tree : List α)
    (lb n idx : Nat) (hn : lb - idx = n) (seg : α) :
    sum_tree_get_loop_fp rnd tree lb idx seg = sum_tree_get_loop tree lb idx seg := by
  induction n using Nat.strong_induction_on generalizing idx seg with
  | _ n ih =>
    rw [sum_tree_get_loop_fp, sum_tree_get_loop]
    split
    · rename_i h
      have e : (idx <<< 1) + 1 = 2 * idx + 1 := by rw [Nat.shiftLeft_eq]; omega
      simp only [e]
      split
      · exact ih _ (by omega) _ rfl _
      · rw [hexact]
        exact ih _ (by omega) _ rfl _
    · rfl

theorem sum_tree_get_fp_exact (rnd : α → α) (hexact : ∀ x, rnd x = x)
    (nextafter : α → α → α) (t : SumTree α) (v : α) (out : SumTreeSample α)
    (out_item : Option (List Byte)) :
    sum_tree_get_fp rnd nextafter t v out out_item = sum_tree_get nextafter t v out out_item := by
  simp only [sum_tree_get_fp, sum_tree_get, get_loop_fp_exact rnd hexact _ _ _ _ rfl]

theorem run_ops_fp_exact (rnd : α → α) (hexact : ∀ x, rnd x = x) (ops : List (Op α))
    (t : SumTree α) : run_ops_fp rnd t ops = run_ops t ops := by
  induction ops generalizing t with
  | nil => rfl
  | cons op ops ih =>
    have e : apply_op_fp rnd t op = apply_op t op := by
      cases op with
      | add item p => exact sum_tree_add_fp_exact rnd hexact t item p
      | update i p => exact sum_tree_update_fp_exact rnd hexact t i p
    simp only [run_ops_fp, run_ops, e]
    cases apply_op t op with
    | aborted => rfl
    | returned t1 => exact ih t1

theorem update_loop_fp_length (rnd : α → α) (tree : List α) (idx : Nat) (d : α) :
    (sum_tree_update_loop_fp rnd tree idx d).length = tree.length := by
  induction idx using Nat.strong_induction_on generalizing tree with
  | _ idx ih =>
    rw [sum_tree_update_loop_fp]
    split
    · rw [ih _ (by omega)]
      simp
    · rfl

theorem update_loop_fp_getD_of_le (rnd : α → α) (tree : List α) (idx j : Nat) (d : α)
    (h : idx ≤ 2 * j) :
    (sum_tree_update_loop_fp rnd tree idx d).getD j 0 = tree.getD j 0 := by
  induction idx using Nat.strong_induction_on generalizing tree with
  | _ idx ih =>
    rw [sum_tree_update_loop_fp]
    split
    · rw [ih _ (by omega) _ (by omega), getD_set, if_neg (by omega)]
    · rfl

/-- Effect of `sum_tree_add_fp` for every rounding function: the call returns, the counters
move as in `sum_tree_add`, and the written leaf holds the priority as given. -/
theorem sum_tree_add_fp_spec (rnd : α → α) (t : SumTree α) (h : TreeOk t)
    (item : List Byte) (p : α) :
    ∃ t1, sum_tree_add_fp rnd t item p = .returned t1 ∧ TreeOk t1 ∧
      t1.capacity = t.capacity ∧ t1.elem_size = t.elem_size ∧
      t1.data = memcpy t.data (t.current_index * t.elem_size) item t.elem_size ∧
      t1.current_index = (t.current_index + 1) % t.capacity ∧
      t1.num_entries = min (t.num_entries + 1) t.capacity ∧
      ∀ d, leaf_priority t1 d = if d = t.current_index then p else leaf_priority t d := by
  have hc := h.cap_pos
  have hcur := h.cur_lt
  have hlen := h.tree_len
  have hsz : sumtree_leaf_index t t.current_index < 2 * t.capacity - 1 := by
    simp only [sumtree_leaf_index, sumtree_leaf_base]; omega
  refine ⟨{ t with
      data := memcpy t.data (sumtree_data_ptr t t.current_index) item t.elem_size
      priority_tree := sum_tree_update_loop_fp rnd
        (t.priority_tree.set (sumtree_leaf_index t t.current_index) p)
        (sumtree_leaf_index t t.current_index)
        (rnd (p - t.priority_tree.getD (sumtree_leaf_index t t.current_index) 0))
      current_index := (t.current_index + 1) % t.capacity
      num_entries := min_size_t (t.num_entries + 1) t.capacity },
    ?_, ?_, rfl, rfl, rfl, rfl, ?_, ?_⟩
  · have e : sum_tree_update_fp rnd
        { t with data := memcpy t.data (sumtree_data_ptr t t.current_index) item t.elem_size }
        (sumtree_leaf_index t t.current_index) p
        = .returned { t with
            data := memcpy t.data (sumtree_data_ptr t t.current_index) item t.elem_size
            priority_tree := sum_tree_update_loop_fp rnd
              (t.priority_tree.set (sumtree_leaf_index t t.current_index) p)
              (sumtree_leaf_index t t.current_index)
              (rnd (p - t.priority_tree.getD (sumtree_leaf_index t t.current_index) 0)) } := by
      simp [sum_tree_update_fp, sumtree_tree_size, hsz]
    simp only [sum_tree_add_fp, e]
  · refine ⟨h.pow2, ?_, Nat.mod_lt _ hc⟩
    simp only [update_loop_fp_length, List.length_set]
    exact hlen
  · simp only [min_size_t]
    split <;> omega
  · intro d
    simp only [leaf_priority, sumtree_leaf_index, sumtree_leaf_base] at hsz ⊢
    rw [update_loop_fp_getD_of_le _ _ _ _ _ (by omega), getD_set, hlen]
    by_cases c : d = t.current_index
    · subst c; simp [hsz]
    · rw [if_neg (by omega), if_neg c]

theorem run_ops_fp_snoc (rnd : α → α) (ops : List (Op α)) (a b : SumTree α) (op : Op α)
    (hab : run_ops_fp rnd a ops = .returned b) :
    run_ops_fp rnd a (ops ++ [op]) = apply_op_fp rnd b op := by
  induction ops generalizing a with
  | nil =>
    simp only [run_ops_fp, Outcome.returned.injEq] at hab
    subst hab
    simp only [List.nil_append, run_ops_fp]
    cases apply_op_fp rnd a op <;> rfl
  | cons o ops ih =>
    simp only [run_ops_fp, List.cons_append] at hab ⊢
    cases hx : apply_op_fp rnd a o with
    | aborted => simp [hx] at hab
    | returned c =>
      simp only [hx] at hab ⊢
      exact ih c hab

/-- Leaves after adding the items `xs`, for every rounding function, to a tree whose leaves
are all 0 and whose cursor is at 0: item `j` of the last `capacity` items has its priority
at leaf `j mod capacity`, the other leaves are 0. -/
theorem add_all_fp_leaves (rnd : α → α) (t0 : SumTree α) (h0 : TreeOk t0)
    (hc0 : t0.current_index = 0) (hz0 : ∀ d, leaf_priority t0 d = 0)
    (xs : List (List Byte × α)) :
    ∃ t, run_ops_fp rnd t0 (xs.map (fun x => Op.add x.1 x.2)) = .returned t ∧
      TreeOk t ∧ t.capacity = t0.capacity ∧
      t.current_index = xs.length % t0.capacity ∧
      (∀ j, j < xs.length → xs.length ≤ j + t0.capacity →
        xs[j]?.map Prod.snd = some (leaf_priority t (j % t0.capacity))) ∧
      (∀ d, xs.length ≤ d → leaf_priority t d = 0) := by
  induction xs using List.reverseRecOn with
  | nil =>
    refine ⟨t0, rfl, h0, rfl, by simp [hc0], ?_, ?_⟩
    · intro j hj; simp at hj
    · intro d _; exact hz0 d
  | append_singleton xs x ih =>
    obtain ⟨t, e, h, hcap, hcur, hleaf, hrest⟩ := ih
    obtain ⟨t1, e1, h1, hcap1, _, _, hcur1, _, hleaf1⟩ := sum_tree_add_fp_spec rnd t h x.1 x.2
    refine ⟨t1, ?_, h1, hcap1.trans hcap, ?_, ?_, ?_⟩
    · rw [List.map_append, List.map_singleton, run_ops_fp_snoc _ _ _ _ _ e]
      exact e1
    · rw [hcur1, hcur, hcap, List.length_append, List.length_singleton, Nat.mod_add_mod]
    · intro j hj hjc
      rw [List.length_append, List.length_singleton] at hj hjc
      rw [hleaf1, hcur]
      by_cases c : j = xs.length
      · subst c
        rw [if_pos rfl]
        simp
      · have hne := mod_ne_of_lt t0.capacity j xs.length (by omega) (by omega)
        rw [if_neg hne, List.getElem?_append_left (by omega)]
        exact hleaf j (by omega) (by omega)
    · intro d hd
      rw [List.length_append, List.length_singleton] at hd
      have hm : xs.length % t0.capacity ≤ xs.length := Nat.mod_le _ _
      rw [hleaf1, hcur, if_neg (by omega)]
      exact hrest d (by omega)

/-- C6 (amended). Round trip. In a well-formed tree that satisfies the aggregate invariant
and has non-negative leaf priorities, for every rounding `rnd` of the `double` arithmetic,
`sum_tree_add(X, P)` with `P > 0` returns, writes the bytes of `X` to slot
`d = current_index` and `P` to its leaf, and leaves the priorities before `d` as they were. When the arithmetic
is exact (`rnd x = x` for every `x`), every `v` strictly inside `X`'s interval
(`cum(0..d-1) < v < cum(0..d-1) + P`) makes `sum_tree_get` with a non-null output buffer
report `d_idx = d`, `p_idx = capacity-1+d`, `priority = P` and copy out the bytes of `X`
(the bytes of the buffer after the first `elem_size` keep their value). -/
theorem C6_round_trip (rnd : α → α) (nextafter : α → α → α) (t : SumTree α) (ht : TreeOk t)
    (hinv : AggInv t) (hdata : t.data.length = t.capacity * t.elem_size)
    (hnn : ∀ d, d < t.capacity → 0 ≤ leaf_priority t d)
    (X : List Byte) (hX : X.length = t.elem_size) (P : α) (hP : 0 < P) (v : α)
    (hv1 : cum (leaf_priority t) t.current_index < v)
    (hv2 : v < cum (leaf_priority t) t.current_index + P)
    (out : SumTreeSample α) (buf : List Byte) :
    ∃ t1, sum_tree_add_fp rnd t X P = .returned t1 ∧
      slot t1 t.current_index = X ∧ leaf_priority t1 t.current_index = P ∧
      cum (leaf_priority t1) t.current_index = cum (leaf_priority t) t.current_index ∧
      ((∀ x, rnd x = x) →
        sum_tree_get_fp rnd nextafter t1 v out (some buf)
          = (⟨t.capacity - 1 + t.current_index, t.current_index, P⟩,
              some (X ++ buf.drop t.elem_size))) := by
  obtain ⟨t1, e1, _, _, hes1, hdata1, _, _, hleaf1⟩ := sum_tree_add_fp_spec rnd t ht X P
  obtain ⟨_, hslot1⟩ := sum_tree_add_slots t t1 X ht.cur_lt hdata hX hes1 hdata1
  refine ⟨t1, e1, by rw [hslot1, if_pos rfl], by rw [hleaf1, if_pos rfl],
    cum_congr _ _ _ (fun x hx => by rw [hleaf1, if_neg (by omega)]), ?_⟩
  intro hexact
  obtain ⟨t2, e2, _, _, hget⟩ :=
    round_trip_exact nextafter t ht hinv hdata hnn X hX P hP v hv1 hv2 out buf
  rw [sum_tree_add_fp_exact rnd hexact, e2] at e1
  simp only [Outcome.returned.injEq] at e1
  subst e1
  rw [sum_tree_get_fp_exact rnd hexact]
  exact hget

/-- C13 (amended). Leaf = last assigned priority, for every rounding `rnd` of the `double`
arithmetic: the `sum_tree_add` calls with priorities `q_0 .. q_{n-1}` on a tree produced by
`create_sum_tree` with a power-of-two capacity `c` all return, and afterwards the leaf at
tree index `c-1+d` holds `q_j` for the largest `j < n` with `j mod c = d`, and 0 if there is
no such `j`. When the arithmetic is exact (`rnd x = x` for every `x`), the root equals the
sum of the priorities of the last `min(n, c)` adds. -/
theorem C13_leaf_last_priority (rnd : α → α) (uninit : Nat → Byte) (alloc_ok : Nat → Bool)
    (c es k : Nat) (t0 : SumTree α) (hc : c = 2 ^ k)
    (hcreate : create_sum_tree uninit alloc_ok c es = .returned (some t0))
    (xs : List (List Byte × α)) :
    ∃ t, run_ops_fp rnd t0 (xs.map (fun x => Op.add x.1 x.2)) = .returned t ∧
      (∀ d j, d < c → j < xs.length → j % c = d →
        (∀ j', j' < xs.length → j' % c = d → j' ≤ j) →
        xs[j]?.map Prod.snd = some (t.priority_tree.getD (c - 1 + d) 0)) ∧
      (∀ d, d < c → (∀ j, j < xs.length → j % c ≠ d) →
        t.priority_tree.getD (c - 1 + d) 0 = 0) ∧
      ((∀ x, rnd x = x) →
        t.priority_tree.getD 0 0 = ((xs.drop (xs.length - c)).map Prod.snd).sum) := by
  obtain ⟨_, _, _, rfl⟩ := create_sum_tree_returned uninit alloc_ok c es t0 hcreate
  obtain ⟨t, e, _, hcap, _, hleaf, hrest⟩ := add_all_fp_leaves rnd
    ({ data := (List.range (es * c)).map uninit
       priority_tree := List.replicate (2 * c - 1) 0
       capacity := c, current_index := 0, num_entries := 0, elem_size := es } : SumTree α)
    (fresh_treeOk _ c es k hc) rfl (fresh_leaf_zero _ c es) xs
  simp only at hleaf hcap
  have hl : ∀ d, leaf_priority t d = t.priority_tree.getD (c - 1 + d) 0 := by
    intro d
    simp only [leaf_priority, sumtree_leaf_index, sumtree_leaf_base, hcap]
  refine ⟨t, e, ?_, ?_, ?_⟩
  · intro d j hd hj hjd hmax
    have hwin : xs.length ≤ j + c := by
      by_contra hcon
      have := hmax (j + c) (by omega) (by rw [Nat.add_mod_right]; exact hjd)
      omega
    rw [hleaf j hj hwin, hjd, hl]
  · intro d hd hno
    have : xs.length ≤ d := by
      by_contra hcon
      exact hno d (by omega) (Nat.mod_eq_of_lt hd)
    rw [← hl]
    exact hrest d this
  · intro hexact
    obtain ⟨t2, e2, _, _, _, _, _, _, _, hroot⟩ := add_all_priorities
      ({ data := (List.range (es * c)).map uninit
         priority_tree := List.replicate (2 * c - 1) 0
         capacity := c, current_index := 0, num_entries := 0, elem_size := es } : SumTree α)
      (fresh_treeOk _ c es k hc) (fresh_aggInv _ c es) rfl rfl
      (fresh_leaf_zero _ c es) (getD_replicate_zero _ _) xs
    rw [run_ops_fp_exact rnd hexact, e2] at e
    simp only [Outcome.returned.injEq] at e
    subst e
    exact hroot

end Rounding

/-! ### The rounding of `double` values on concrete inputs -/

theorem round_half_even_near (q : ℚ) (m : ℤ) (h1 : (m : ℚ) - 1 / 2 < q) (h2 : q < m + 1 / 2) :
    round_half_even q = m := by
  unfold round_half_even
  rcases le_or_lt (m : ℚ) q with h | h
  · have hf : ⌊q⌋ = m := Int.floor_eq_iff.mpr ⟨h, by linarith⟩
    rw [hf, if_pos (by linarith)]
  · have hf : ⌊q⌋ = m - 1 := Int.floor_eq_iff.mpr ⟨by push_cast; linarith, by push_cast; linarith⟩
    rw [hf, if_neg (by push_cast; linarith), if_pos (by push_cast; linarith)]
    ring

theorem round_half_even_tie (q : ℚ) (m : ℤ) (hq : q = 2 * m + 1 / 2 ∨ q = 2 * m - 1 / 2) :
    round_half_even q = 2 * m := by
  unfold round_half_even
  rcases hq with h | h
  · have hf : ⌊q⌋ = 2 * m := Int.floor_eq_iff.mpr ⟨by push_cast; linarith, by push_cast; linarith⟩
    rw [hf, if_neg (by push_cast; linarith), if_neg (by push_cast; linarith), if_pos (by omega)]
  · have hf : ⌊q⌋ = 2 * m - 1 :=
      Int.floor_eq_iff.mpr ⟨by push_cast; linarith, by push_cast; linarith⟩
    rw [hf, if_neg (by push_cast; linarith), if_neg (by push_cast; linarith), if_neg (by omega)]
    ring

theorem round_half_even_error (q : ℚ) : |(round_half_even q : ℚ) - q| ≤ 1 / 2 := by
  have h1 := Int.floor_le q
  have h2 := Int.lt_floor_add_one q
  unfold round_half_even
  split_ifs <;> rw [abs_le] <;> constructor <;> push_cast <;> linarith

/-- The value `round_double x` is an integer multiple of the last place `2^e` kept at the
magnitude of `x`, at most half of that place away from `x`. -/
theorem round_double_nearest (x : ℚ) :
    (∃ m : ℤ, round_double x = m * 2 ^ ulp_exponent x) ∧
      |round_double x - x| ≤ 2 ^ ulp_exponent x / 2 := by
  refine ⟨⟨_, rfl⟩, ?_⟩
  have hp : (0 : ℚ) < 2 ^ ulp_exponent x := by positivity
  have h := round_half_even_error (x / 2 ^ ulp_exponent x)
  have e : round_double x - x
      = ((round_half_even (x / 2 ^ ulp_exponent x) : ℚ) - x / 2 ^ ulp_exponent x)
          * 2 ^ ulp_exponent x := by
    rw [round_double]
    field_simp
  rw [e, abs_mul, abs_of_pos hp]
  calc |(round_half_even (x / 2 ^ ulp_exponent x) : ℚ) - x / 2 ^ ulp_exponent x|
        * 2 ^ ulp_exponent x ≤ 1 / 2 * 2 ^ ulp_exponent x :=
        mul_le_mul_of_nonneg_right h (le_of_lt hp)
    _ = 2 ^ ulp_exponent x / 2 := by ring

theorem ulp_exponent_eq (x : ℚ) (k : ℤ) (h1 : (2 : ℚ) ^ k ≤ |x|) (h2 : |x| < 2 ^ (k + 1)) :
    ulp_exponent x = max (k - 52) (-1074) := by
  have hpos : 0 < |x| := lt_of_lt_of_le (by positivity) h1
  have e : Int.log 2 |x| = k := by
    have a := (Int.zpow_le_iff_le_log (b := 2) (by norm_num) hpos).mp (by exact_mod_cast h1)
    have b := (Int.lt_zpow_iff_log_lt (b := 2) (by norm_num) hpos).mp (by exact_mod_cast h2)
    omega
  rw [ulp_exponent, e]

theorem round_double_zero : round_double 0 = 0 := by
  simp [round_double, round_half_even]

theorem round_double_one : round_double 1 = 1 := by
  have e : ulp_exponent 1 = -52 := by
    rw [ulp_exponent_eq 1 0 (by norm_num) (by norm_num)]; rfl
  rw [round_double, e, round_half_even_near _ (2 ^ 52) (by norm_num) (by norm_num)]
  norm_num

theorem round_double_1e16 : round_double 10000000000000000 = 10000000000000000 := by
  have e : ulp_exponent 10000000000000000 = 1 := by
    rw [ulp_exponent_eq _ 53 (by norm_num) (by norm_num)]; rfl
  rw [round_double, e, round_half_even_near _ 5000000000000000 (by norm_num) (by norm_num)]
  norm_num

theorem round_double_1e16_add_one : round_double 10000000000000001 = 10000000000000000 := by
  have e : ulp_exponent 10000000000000001 = 1 := by
    rw [ulp_exponent_eq _ 53 (by norm_num) (by norm_num)]; rfl
  rw [round_double, e, round_half_even_tie _ 2500000000000000 (by left; norm_num)]
  norm_num

theorem round_double_one_sub_1e16 : round_double (-9999999999999999) = -10000000000000000 := by
  have e : ulp_exponent (-9999999999999999) = 1 := by
    rw [ulp_exponent_eq _ 53 (by norm_num) (by norm_num)]; rfl
  rw [round_double, e, round_half_even_tie _ (-2500000000000000) (by left; norm_num)]
  norm_num

/-- The number 0.1 is stored as the `double` `3602879701896397 / 2^55`. -/
theorem round_double_tenth : round_double (1 / 10) = 3602879701896397 / 2 ^ 55 := by
  have e : ulp_exponent (1 / 10) = -56 := by
    rw [ulp_exponent_eq _ (-4) (by norm_num [abs_of_pos]) (by norm_num [abs_of_pos])]; rfl
  rw [round_double, e, round_half_even_near _ 7205759403792794 (by norm_num) (by norm_num)]
  norm_num

theorem update_loop_fp_zero {α : Type} [LinearOrderedField α] (rnd : α → α) (tree : List α)
    (d : α) : sum_tree_update_loop_fp rnd tree 0 d = tree := by
  rw [sum_tree_update_loop_fp, if_neg (by omega)]

theorem update_loop_fp_pos {α : Type} [LinearOrderedField α] (rnd : α → α) (tree : List α)
    (idx : Nat) (d : α) (h : 0 < idx) :
    sum_tree_update_loop_fp rnd tree idx d
      = sum_tree_update_loop_fp rnd
          (tree.set ((idx - 1) / 2) (rnd (tree.getD ((idx - 1) / 2) 0 + d))) ((idx - 1) / 2) d := by
  rw [sum_tree_update_loop_fp, if_pos h]

theorem adds_big_run :
    run_ops_fp round_double tree_fresh_2 (adds_big.map (fun x => Op.add x.1 x.2))
      = .returned tree_big_end := by
  norm_num [run_ops_fp, apply_op_fp, sum_tree_add_fp, sum_tree_update_fp, sumtree_tree_size,
    sumtree_leaf_index, sumtree_leaf_base, sumtree_data_ptr, memcpy, min_size_t,
    update_loop_fp_pos, update_loop_fp_zero, tree_fresh_2, adds_big, tree_big_end,
    round_double_zero, round_double_one, round_double_1e16, round_double_1e16_add_one,
    round_double_one_sub_1e16]
  rfl

theorem tree_big_0_run :
    run_ops_fp round_double tree_fresh_2 [.add [7] 10000000000000000, .add [8] 0]
      = .returned tree_big_0 := by
  norm_num [run_ops_fp, apply_op_fp, sum_tree_add_fp, sum_tree_update_fp, sumtree_tree_size,
    sumtree_leaf_index, sumtree_leaf_base, sumtree_data_ptr, memcpy, min_size_t,
    update_loop_fp_pos, update_loop_fp_zero, tree_fresh_2, tree_big_0,
    round_double_zero, round_double_1e16]
  rfl

theorem tree_big_0_add :
    sum_tree_add_fp round_double tree_big_0 [9] 1 = .returned tree_big_1 := by
  norm_num [sum_tree_add_fp, sum_tree_update_fp, sumtree_tree_size,
    sumtree_leaf_index, sumtree_leaf_base, sumtree_data_ptr, memcpy, min_size_t,
    update_loop_fp_pos, update_loop_fp_zero, tree_big_0, tree_big_1,
    round_double_zero, round_double_one_sub_1e16]

theorem tree_big_1_get (nextafter : ℚ → ℚ → ℚ) (v : ℚ) (out : SumTreeSample ℚ)
    (out_item : Option (List Byte)) :
    sum_tree_get_fp round_double nextafter tree_big_1 v out out_item = (⟨0, 0, 0⟩, out_item) := by
  simp [sum_tree_get_fp, tree_big_1]

/-- C6 (as stated) fails on `double` values. The tree with leaves `1e16` and 0 and root
`1e16` is what the code builds from a new tree of capacity 2 by the adds of priorities
`1e16` and 0; it satisfies the aggregate invariant exactly and its leaves are not negative.
The call `sum_tree_add([9], 1)` writes slot 0: the change `1 - 1e16` is rounded to `-1e16`,
so the root becomes 0 while leaf 0 holds 1. The value `1/2` lies strictly inside the
interval `(0, 1)` of the record, yet `sum_tree_get(1/2)` finds a total `<= 0`: for every
`nextafter` it reports priority 0, not 1, and leaves the output buffer as it was. -/
theorem C6_counterexample :
    run_ops_fp round_double tree_fresh_2 [.add [7] 10000000000000000, .add [8] 0]
      = .returned tree_big_0 ∧
    TreeOk tree_big_0 ∧ AggInv tree_big_0 ∧
    (∀ d, d < tree_big_0.capacity → 0 ≤ leaf_priority tree_big_0 d) ∧
    tree_big_0.data.length = tree_big_0.capacity * tree_big_0.elem_size ∧
    ([9] : List Byte).length = tree_big_0.elem_size ∧ (0 : ℚ) < 1 ∧
    sum_tree_add_fp round_double tree_big_0 [9] 1 = .returned tree_big_1 ∧
    slot tree_big_1 tree_big_0.current_index = [9] ∧
    leaf_priority tree_big_1 tree_big_0.current_index = 1 ∧
    cum (leaf_priority tree_big_0) tree_big_0.current_index < 1 / 2 ∧
    1 / 2 < cum (leaf_priority tree_big_0) tree_big_0.current_index + 1 ∧
    (∀ (nextafter : ℚ → ℚ → ℚ) (out : SumTreeSample ℚ),
      sum_tree_get_fp round_double nextafter tree_big_1 (1 / 2) out (some [0])
        = (⟨0, 0, 0⟩, some [0]) ∧
      sum_tree_get_fp round_double nextafter tree_big_1 (1 / 2) out (some [0])
        ≠ (⟨tree_big_0.capacity - 1 + tree_big_0.current_index, tree_big_0.current_index, 1⟩,
            some ([9] ++ [0].drop tree_big_0.elem_size))) := by
  refine ⟨tree_big_0_run, ⟨⟨1, rfl⟩, rfl, by decide⟩, ?_, ?_, rfl, rfl, by norm_num,
    tree_big_0_add, rfl, ?_, ?_, ?_, ?_⟩
  · intro i hi
    have : i = 0 := by simp [tree_big_0] at hi; omega
    subst this
    norm_num [tree_big_0]
  · intro d hd
    have hd' : d < 2 := hd
    interval_cases d <;>
      norm_num [leaf_priority, tree_big_0, sumtree_leaf_index, sumtree_leaf_base]
  · norm_num [leaf_priority, tree_big_1, tree_big_0, sumtree_leaf_index, sumtree_leaf_base]
  · norm_num [cum_zero, tree_big_0]
  · norm_num [cum_zero, tree_big_0]
  · intro nextafter out
    rw [tree_big_1_get]
    exact ⟨rfl, by simp [tree_big_0]⟩

/-- Witness of C6 (amended): adding the record `[7]` with priority 2 to the full tree with
leaves `[1, 1]` overwrites slot 0; the value 1 lies strictly inside `(0, 2)`, and with exact
arithmetic `sum_tree_get(1)` returns slot 0 with priority 2 and the byte 7. -/
theorem C6_round_trip_witness :
    ∃ t1, sum_tree_add_fp (fun x => x) tree_1_1 [7] 2 = .returned t1 ∧
      slot t1 tree_1_1.current_index = [7] ∧ leaf_priority t1 tree_1_1.current_index = 2 ∧
      cum (leaf_priority t1) tree_1_1.current_index
        = cum (leaf_priority tree_1_1) tree_1_1.current_index ∧
      sum_tree_get_fp (fun x => x) nextafter_q t1 1 ⟨0, 0, 0⟩ (some [0])
        = (⟨tree_1_1.capacity - 1 + tree_1_1.current_index, tree_1_1.current_index, 2⟩,
            some ([7] ++ [0].drop tree_1_1.elem_size)) := by
  obtain ⟨t1, h1, h2, h3, h4, h5⟩ := C6_round_trip (fun x => x) nextafter_q tree_1_1
    ⟨⟨1, rfl⟩, rfl, by decide⟩
    (by
      intro i hi
      have : i = 0 := by simp [tree_1_1] at hi; omega
      subst this
      norm_num [tree_1_1])
    rfl
    (by
      intro d hd
      have hd' : d < 2 := hd
      interval_cases d <;>
        norm_num [leaf_priority, tree_1_1, sumtree_leaf_index, sumtree_leaf_base])
    [7] rfl 2 (by norm_num) 1
    (by norm_num [cum_zero, tree_1_1])
    (by norm_num [cum_zero, tree_1_1])
    ⟨0, 0, 0⟩ [0]
  exact ⟨t1, h1, h2, h3, h4, h5 (fun _ => rfl)⟩

/-- C13 (as stated) fails on `double` values: on the tree that `create_sum_tree(2, 1)`
returns, the adds with priorities `1e16`, 1, 1 leave 1 and 1 in the two leaves (the last
priority assigned to each slot), but the root is 0 (`1e16 + 1` is rounded to `1e16`, then
the change `1 - 1e16` to `-1e16`), not the sum 2 of the two most recent priorities. -/
theorem C13_counterexample :
    create_sum_tree (fun _ => 0) (fun _ => true) 2 1 = .returned (some tree_fresh_2) ∧
    run_ops_fp round_double tree_fresh_2 (adds_big.map (fun x => Op.add x.1 x.2))
      = .returned tree_big_end ∧
    tree_big_end.priority_tree.getD (2 - 1 + 0) 0 = 1 ∧
    tree_big_end.priority_tree.getD (2 - 1 + 1) 0 = 1 ∧
    tree_big_end.priority_tree.getD 0 0 = 0 ∧
    ((adds_big.drop (adds_big.length - 2)).map Prod.snd).sum = 2 ∧
    tree_big_end.priority_tree.getD 0 0
      ≠ ((adds_big.drop (adds_big.length - 2)).map Prod.snd).sum := by
  refine ⟨create_sum_tree_ok (fun _ => 0) 2 1 1 (by norm_num) (by norm_num), adds_big_run,
    ?_, ?_, ?_, ?_, ?_⟩ <;> norm_num [tree_big_end, adds_big]

/-- Witness of C13 (amended): capacity 2 and priorities 1, 2, 3 with exact arithmetic; leaf 0
holds 3, leaf 1 holds 2 and the root is 5. -/
theorem C13_leaf_last_priority_witness :
    ∃ t, run_ops_fp (fun x => x)
        ({ data := (List.range (1 * 2)).map (fun _ => 0)
           priority_tree := List.replicate (2 * 2 - 1) 0
           capacity := 2, current_index := 0, num_entries := 0, elem_size := 1 } : SumTree ℚ)
        (adds_123.map (fun x => Op.add x.1 x.2)) = .returned t ∧
      (∀ d j, d < 2 → j < adds_123.length → j % 2 = d →
        (∀ j', j' < adds_123.length → j' % 2 = d → j' ≤ j) →
        adds_123[j]?.map Prod.snd = some (t.priority_tree.getD (2 - 1 + d) 0)) ∧
      (∀ d, d < 2 → (∀ j, j < adds_123.length → j % 2 ≠ d) →
        t.priority_tree.getD (2 - 1 + d) 0 = 0) ∧
      t.priority_tree.getD 0 0
        = ((adds_123.drop (adds_123.length - 2)).map Prod.snd).sum := by
  obtain ⟨t, h1, h2, h3, h4⟩ := C13_leaf_last_priority (fun x => x) (fun _ => 0)
    (fun _ => true) 2 1 1 _ (by norm_num)
    (create_sum_tree_ok (fun _ => 0) 2 1 1 (by norm_num) (by norm_num)) adds_123
  exact ⟨t, h1, h2, h3, h4 (fun _ => rfl)⟩

/-! ### C2: the subtraction of the descent under rounded `double` arithmetic -/

theorem round_double_two : round_double 2 = 2 := by
  have e : ulp_exponent 2 = -51 := by
    rw [ulp_exponent_eq 2 1 (by norm_num) (by norm_num)]; rfl
  rw [round_double, e, round_half_even_near _ (2 ^ 52) (by norm_num) (by norm_num)]
  norm_num

theorem round_double_tiny : round_double (3 / 2 ^ 54) = 3 / 2 ^ 54 := by
  have e : ulp_exponent (3 / 2 ^ 54) = -105 := by
    rw [ulp_exponent_eq _ (-53) (by norm_num [abs_of_pos]) (by norm_num [abs_of_pos])]; rfl
  rw [round_double, e, round_half_even_near _ (3 * 2 ^ 51) (by norm_num) (by norm_num)]
  norm_num

theorem round_double_one_add_tiny : round_double (1 + 3 / 2 ^ 54) = 1 + 1 / 2 ^ 52 := by
  have e : ulp_exponent (1 + 3 / 2 ^ 54) = -52 := by
    rw [ulp_exponent_eq _ 0 (by norm_num [abs_of_pos]) (by norm_num [abs_of_pos])]; rfl
  rw [round_double, e, round_half_even_near _ (2 ^ 52 + 1) (by norm_num) (by norm_num)]
  norm_num

theorem round_double_two_add_ulp : round_double (1 + 1 / 2 ^ 52 + 1) = 2 := by
  have e : ulp_exponent (1 + 1 / 2 ^ 52 + 1) = -51 := by
    rw [ulp_exponent_eq _ 1 (by norm_num [abs_of_pos]) (by norm_num [abs_of_pos])]; rfl
  rw [round_double, e, round_half_even_tie _ (2 ^ 51) (by left; norm_num)]
  norm_num

theorem round_double_one_add_quarter : round_double (1 + 1 / 2 ^ 52 - 3 / 2 ^ 54) = 1 := by
  have e : ulp_exponent (1 + 1 / 2 ^ 52 - 3 / 2 ^ 54) = -52 := by
    rw [ulp_exponent_eq _ 0 (by norm_num [abs_of_pos]) (by norm_num [abs_of_pos])]; rfl
  rw [round_double, e, round_half_even_near _ (2 ^ 52) (by norm_num) (by norm_num)]
  norm_num

theorem rd_n1 : round_double (3 / 18014398509481984) = 3 / 18014398509481984 := by
  have h := round_double_tiny
  norm_num at h
  exact h

theorem rd_n2 : round_double (18014398509481987 / 18014398509481984)
    = 4503599627370497 / 4503599627370496 := by
  have h := round_double_one_add_tiny
  norm_num at h
  exact h

theorem rd_n3 : round_double (9007199254740993 / 4503599627370496) = 2 := by
  have h := round_double_two_add_ulp
  norm_num at h
  exact h

theorem rd_n4 : round_double (18014398509481985 / 18014398509481984) = 1 := by
  have h := round_double_one_add_quarter
  norm_num at h
  exact h

theorem adds_tiny_run : run_ops_fp round_double tree_fresh_4 adds_tiny = .returned tree_tiny := by
  norm_num [run_ops_fp, apply_op_fp, sum_tree_add_fp, sum_tree_update_fp, sumtree_tree_size,
    sumtree_leaf_index, sumtree_leaf_base, sumtree_data_ptr, memcpy, min_size_t,
    update_loop_fp_pos, update_loop_fp_zero, tree_fresh_4, adds_tiny, tree_tiny,
    round_double_zero, round_double_one, round_double_two, rd_n1, rd_n2, rd_n3, rd_n4]
  rfl

theorem get_loop_fp_leaf {α : Type} [LinearOrderedField α] (rnd : α → α) (tree : List α)
    (lb idx : Nat) (seg : α) (h : ¬ idx < lb) :
    sum_tree_get_loop_fp rnd tree lb idx seg = (idx, seg) := by
  rw [sum_tree_get_loop_fp, if_neg h]

theorem get_loop_fp_left {α : Type} [LinearOrderedField α] (rnd : α → α) (tree : List α)
    (lb idx : Nat) (seg : α) (h : idx < lb) (hs : seg ≤ tree.getD (2 * idx + 1) 0) :
    sum_tree_get_loop_fp rnd tree lb idx seg
      = sum_tree_get_loop_fp rnd tree lb (2 * idx + 1) seg := by
  have e : (idx <<< 1) + 1 = 2 * idx + 1 := by rw [Nat.shiftLeft_eq]; omega
  rw [sum_tree_get_loop_fp, if_pos h]
  simp only [e, if_pos hs]

theorem get_loop_fp_right {α : Type} [LinearOrderedField α] (rnd : α → α) (tree : List α)
    (lb idx : Nat) (seg : α) (h : idx < lb) (hs : ¬ seg ≤ tree.getD (2 * idx + 1) 0) :
    sum_tree_get_loop_fp rnd tree lb idx seg
      = sum_tree_get_loop_fp rnd tree lb (2 * idx + 2)
          (rnd (seg - tree.getD (2 * idx + 1) 0)) := by
  have e : (idx <<< 1) + 1 = 2 * idx + 1 := by rw [Nat.shiftLeft_eq]; omega
  rw [sum_tree_get_loop_fp, if_pos h]
  simp only [e, if_neg hs]

/-- The subtraction of the descent rounds. The tree `tree_tiny` is what the code builds from
a new tree of capacity 4 by the adds of priorities `3/2^54`, 0, 1, 1; each of its nodes is
the rounded sum of its two children. The value `v = 1 + 2^-52` lies strictly inside the
interval `(1 + 3/2^54, 2 + 3/2^54)` of leaf 3, but `v - 3/2^54` is rounded to 1, which is
`<=` the priority 1 of leaf 2: `sum_tree_get(v)` returns leaf 2. -/
theorem descent_rounding_example (nextafter : ℚ → ℚ → ℚ) (out : SumTreeSample ℚ) :
    run_ops_fp round_double tree_fresh_4 adds_tiny = .returned tree_tiny ∧
    cum (leaf_priority tree_tiny) 3 < 1 + 1 / 2 ^ 52 ∧
    1 + 1 / 2 ^ 52 < cum (leaf_priority tree_tiny) 4 ∧
    (sum_tree_get_fp round_double nextafter tree_tiny (1 + 1 / 2 ^ 52) out none).1
      = ⟨5, 2, 1⟩ := by
  have e : sum_tree_get_loop_fp round_double
      ([2, 3 / 2 ^ 54, 2, 3 / 2 ^ 54, 0, 1, 1] : List ℚ) 3 0 (1 + 1 / 2 ^ 52) = (5, 1) := by
    rw [get_loop_fp_right _ _ _ _ _ (by norm_num) (by norm_num)]
    have h1 : round_double (1 + 1 / 2 ^ 52
        - ([2, 3 / 2 ^ 54, 2, 3 / 2 ^ 54, 0, 1, 1] : List ℚ).getD (2 * 0 + 1) 0) = 1 :=
      round_double_one_add_quarter
    rw [h1, get_loop_fp_left _ _ _ _ _ (by norm_num) (by norm_num),
      get_loop_fp_leaf _ _ _ _ _ (by norm_num)]
  refine ⟨adds_tiny_run, ?_, ?_, ?_⟩
  · norm_num [cum_succ, cum_zero, leaf_priority, tree_tiny, sumtree_leaf_index,
      sumtree_leaf_base]
  · norm_num [cum_succ, cum_zero, leaf_priority, tree_tiny, sumtree_leaf_index,
      sumtree_leaf_base]
  · have hlt : ¬ ((1 : ℚ) + 1 / 2 ^ 52 < 0) := by norm_num
    have hge : ¬ ((1 : ℚ) + 1 / 2 ^ 52 ≥ 2) := by norm_num
    simp only [sum_tree_get_fp, tree_tiny, sumtree_leaf_base, List.getD_cons_zero]
    rw [if_neg (by norm_num), if_neg hlt, if_neg hge]
    simp only [e]
    rfl

end PERC
